import Mathlib

/-! Planar neighbors finder of the GUDHI bipartite graph matching.

A shallow embedding of `Abstract_planar_neighbors_finder` and `Naive_pnf`
(`Planar_neighbors_finder.h`) and of `read_persistence_intervals_in_one_dimension_from_file`
(`read_persistence_from_file.h`), and the properties of their specification.

Modelling conventions.

* The `std::multimap<std::pair<int,int>,int>` is its in-order sequence of elements: a list of
  `(key, index)` pairs, ordered by key, elements of equal key in insertion order.
* An iterator is a position in that sequence: the elements before it and the elements from it on.
* `int` has 32 bits: a value is an `Int` between `-2^31` and `2^31 - 1`. The conversion of a
  `double` outside this range and the overflow of `i0 - 1` or `i0 + 1` are undefined in C++;
  they take here the values the x86 code computes (`INT_MIN`, reduction modulo `2^32`), and
  the theorems that depend on them state the range in which nothing overflows.
* A finite `double` is the rational `ℚ` it denotes; the quotient `x / r` of two doubles is
  rounded to the nearest double, ties to even (`round_double`). The theorems that depend on
  the rounding assume that `r` and the coordinates are doubles (`IsDouble`), which is their
  type in the program.
* The graph `G` of `Persistence_diagrams_graph.h` (coordinates of the points, distance, null
  index) is a parameter of every operation.
* The intervals given by the reader of `reader_utils.h` are a parameter; their values are
  finite numbers or `+infinity`.
-/

/-- A bucket key, `std::pair<int,int>`. -/
abbrev Key := Int × Int

/-- An element of the multimap: the bucket key and the index of a V point. -/
abbrev Entry := Key × Int

/-- The multimap `grid`, as its in-order sequence of elements. -/
abbrev Grid := List Entry

/-- The graph `G` the finder reads: coordinates of the U and V points, the planar distance and
the null point index. Its header is not among the sources, so it is a parameter. -/
structure G where
  get_u_point : Int → ℚ × ℚ
  get_v_point : Int → ℚ × ℚ
  distance : Int → Int → ℚ
  null_point_index : Int

/-- A real with its fractional part discarded: the quotient of numerator by denominator, rounded
toward zero. -/
def trunc_toward_zero (x : ℚ) : Int := Int.tdiv x.num (x.den : Int)

/-- The conversion `static_cast<int>(x)` of a `double` to an `int` of 32 bits: the fractional
part is discarded when the result fits in an `int`; otherwise the conversion is undefined in
C++, and the value is `INT_MIN`, which the x86 conversion gives. -/
@[irreducible]
def static_cast_int (x : ℚ) : Int :=
  if -(2 ^ 31 : ℚ) - 1 < x ∧ x < 2 ^ 31 then trunc_toward_zero x else -(2 ^ 31)

/-- The number of halvings that bring `n` below `2`: for `0 < n ≤ fuel`, the `e` with
`2 ^ e ≤ n < 2 ^ (e + 1)`. -/
def nat_log2 : Nat → Nat → Nat
  | 0, _ => 0
  | fuel + 1, n => if n < 2 then 0 else nat_log2 fuel (n / 2) + 1

/-- The binary exponent of a rational `q ≠ 0`: the `e` with `2 ^ e ≤ |q| < 2 ^ (e + 1)`. -/
def binary_exponent (q : ℚ) : Int :=
  if |q| < (2 : ℚ) ^ ((nat_log2 q.num.natAbs q.num.natAbs : Int) - (nat_log2 q.den q.den : Int))
  then (nat_log2 q.num.natAbs q.num.natAbs : Int) - (nat_log2 q.den q.den : Int) - 1
  else (nat_log2 q.num.natAbs q.num.natAbs : Int) - (nat_log2 q.den q.den : Int)

/-- The nearest integer, a tie going to the even one. -/
def round_half_even (m : ℚ) : Int :=
  if m - ⌊m⌋ < 1 / 2 then ⌊m⌋
  else if 1 / 2 < m - ⌊m⌋ then ⌊m⌋ + 1
  else if ⌊m⌋ % 2 = 0 then ⌊m⌋ else ⌊m⌋ + 1

/-- The spacing of the doubles around `q`: 53 significant binary digits, exponents from
`-1022` on (below, the spacing of the subnormal doubles). -/
def double_ulp (q : ℚ) : ℚ := (2 : ℚ) ^ (max (binary_exponent q) (-1022) - 52)

/-- The rounding of a real to the nearest `double`, ties to even (the IEEE 754 default). The
largest finite double is not modelled: every value that large is outside the range of `int`. -/
@[irreducible]
def round_double (q : ℚ) : ℚ :=
  if q = 0 then 0 else (round_half_even (q / double_ulp q) : ℚ) * double_ulp q

/-- The quotient `x / r` of two doubles, as the `double` division computes it. -/
def double_div (x r : ℚ) : ℚ := round_double (x / r)

/-- An integer reduced modulo `2 ^ 32` into the range of `int`: the value the machine computes
for an `int` operation (an overflow is undefined in C++). -/
def wrap_int (n : Int) : Int := (n + 2 ^ 31) % 2 ^ 32 - 2 ^ 31

/-- The `n` successive values of a loop variable from `lo` on. -/
def int_for_from (lo : Int) : Nat → List Int
  | 0 => []
  | n + 1 => lo :: int_for_from (lo + 1) n

/-- The values taken by `i` in `for (int i = lo; i <= hi; i++)`. When `hi` is `INT_MAX` the
increment after the last value overflows, which is undefined in C++; the loop is taken to end
there. -/
def int_for (lo hi : Int) : List Int := int_for_from lo (hi + 1 - lo).toNat

/-- The order `operator<` of `std::pair<int,int>`, which orders the multimap. -/
def key_lt (a b : Key) : Bool :=
  decide (a.1 < b.1) || (decide (a.1 = b.1) && decide (a.2 < b.2))

/-- The call `grid.emplace(k, v)`: the new element is put at the upper bound of `k`, after every
element whose key is not greater than `k`. -/
def emplace (k : Key) (v : Int) : Grid → Grid
  | [] => [(k, v)]
  | e :: rest => if key_lt k e.1 then (k, v) :: e :: rest else e :: emplace k v rest

/-- The call `grid.find(k)`: the iterator to the first element of key `k`, or `grid.end()` when
there is none; given as the elements before the iterator and the elements from it on. -/
def find (g : Grid) (k : Key) : Grid × Grid :=
  (g.takeWhile (fun e => decide (e.1 ≠ k)), g.dropWhile (fun e => decide (e.1 ≠ k)))

/-- The loop `for (...; it != grid.end(); it++) if (c(*it)) { grid.erase(it); return ...; }`
over the elements from the iterator on: the first element satisfying `c` and the elements left
once it is erased, or `none` when `grid.end()` is reached. -/
def scan_erase (c : Entry → Bool) : Grid → Option (Entry × Grid)
  | [] => none
  | e :: rest =>
    if c e then some (e, rest)
    else match scan_erase c rest with
      | some (x, rest') => some (x, e :: rest')
      | none => none

/-- The keys visited by the two outer loops of `pull_near`: `i` from `i0 - 1` to `i0 + 1` (outer
loop), `j` from `j0 - 1` to `j0 + 1` (inner loop), the bounds computed as `int`. -/
@[irreducible]
def block_keys (i0 j0 : Int) : List Key :=
  (int_for (wrap_int (i0 - 1)) (wrap_int (i0 + 1))).flatMap
    (fun i => (int_for (wrap_int (j0 - 1)) (wrap_int (j0 + 1))).map (fun j => (i, j)))

/-- The nine keys `{i0 - 1, i0, i0 + 1} × {j0 - 1, j0, j0 + 1}`, row-major, as integers. -/
def nine_keys (i0 j0 : Int) : List Key :=
  [i0 - 1, i0, i0 + 1].flatMap (fun i => [j0 - 1, j0, j0 + 1].map (fun j => (i, j)))

namespace Naive_pnf

/-- `Naive_pnf::get_v_key`. -/
def get_v_key (env : G) (r : ℚ) (v_point_index : Int) : Key :=
  (static_cast_int (double_div (env.get_v_point v_point_index).1 r),
   static_cast_int (double_div (env.get_v_point v_point_index).2 r))

/-- `Naive_pnf::add`. -/
def add (env : G) (r : ℚ) (grid : Grid) (v_point_index : Int) : Grid :=
  emplace (get_v_key env r v_point_index) v_point_index grid

/-- `Naive_pnf::remove`. -/
def remove (env : G) (r : ℚ) (grid : Grid) (v_point_index : Int) : Grid :=
  let it := find grid (get_v_key env r v_point_index)
  match scan_erase (fun e => decide (e.2 = v_point_index)) it.2 with
  | some (_, rest) => it.1 ++ rest
  | none => grid

/-- `Naive_pnf::contains`. -/
def contains (env : G) (r : ℚ) (grid : Grid) (v_point_index : Int) : Bool :=
  if v_point_index = env.null_point_index then false
  else (find grid (get_v_key env r v_point_index)).2.any (fun e => decide (e.2 = v_point_index))

/-- The test `G::distance(u_point_index, it->second) <= r` of `pull_near`. -/
def near (env : G) (r : ℚ) (u_point_index : Int) (e : Entry) : Bool :=
  decide (env.distance u_point_index e.2 ≤ r)

/-- The two outer loops of `Naive_pnf::pull_near`, over the keys still to visit: the returned
index and the grid after the call. -/
def pull_near_keys (env : G) (r : ℚ) (u_point_index : Int) (grid : Grid) : List Key → Int × Grid
  | [] => (env.null_point_index, grid)
  | k :: ks =>
    let it := find grid k
    match scan_erase (near env r u_point_index) it.2 with
    | some (e, rest) => (e.2, it.1 ++ rest)
    | none => pull_near_keys env r u_point_index grid ks

/-- `Naive_pnf::pull_near`: the returned index and the grid after the call. -/
def pull_near (env : G) (r : ℚ) (grid : Grid) (u_point_index : Int) : Int × Grid :=
  let u_point := env.get_u_point u_point_index
  let i0 := static_cast_int (double_div u_point.1 r)
  let j0 := static_cast_int (double_div u_point.2 r)
  pull_near_keys env r u_point_index grid (block_keys i0 j0)

/-- The pair `(i0, j0)` that `pull_near` computes for the U point. -/
def u_key (env : G) (r : ℚ) (u_point_index : Int) : Key :=
  (static_cast_int (double_div (env.get_u_point u_point_index).1 r),
   static_cast_int (double_div (env.get_u_point u_point_index).2 r))

/-- The keys that `pull_near` visits for the U point. -/
def u_block (env : G) (r : ℚ) (u_point_index : Int) : List Key :=
  block_keys (u_key env r u_point_index).1 (u_key env r u_point_index).2

end Naive_pnf

namespace Abstract_planar_neighbors_finder

/-- The `while` loop of `pull_all_near` over any implementation `pull` of `pull_near(u)` on a
state `σ`; each test of the loop condition uses one unit of `fuel`, and `none` is running out
of it. -/
def pull_all_near_loop {σ : Type} (pull : σ → Int × σ) (null : Int) :
    Nat → Int → σ → List Int → Option (List Int × σ)
  | 0, _, _, _ => none
  | fuel + 1, last_pull, s, all_pull =>
    if last_pull = null then some (all_pull, s)
    else pull_all_near_loop pull null fuel (pull s).1 (pull s).2 (all_pull ++ [last_pull])

/-- `Abstract_planar_neighbors_finder::pull_all_near`: the list returned and the state after the
call. -/
def pull_all_near {σ : Type} (pull : σ → Int × σ) (null : Int) (fuel : Nat) (s : σ) :
    Option (List Int × σ) :=
  pull_all_near_loop pull null fuel (pull s).1 (pull s).2 []

end Abstract_planar_neighbors_finder

namespace Naive_pnf

/-- `pull_all_near` of a `Naive_pnf`: the inherited loop over `Naive_pnf::pull_near`, with one
test of the loop condition more than the grid has elements. -/
def pull_all_near (env : G) (r : ℚ) (grid : Grid) (u_point_index : Int) :
    Option (List Int × Grid) :=
  Abstract_planar_neighbors_finder.pull_all_near
    (fun g => pull_near env r g u_point_index) env.null_point_index (grid.length + 1) grid

end Naive_pnf

/-! ## Sessions: sequences of calls from the empty grid -/

/-- A call of one of the four mutating operations. -/
inductive Op where
  | add (v_point_index : Int)
  | remove (v_point_index : Int)
  | pull_near (u_point_index : Int)
  | pull_all_near (u_point_index : Int)
  deriving DecidableEq

/-- The grid together with the registry of the contract: the V indices that have been added and
not since removed by `remove` or returned by a pull. -/
structure Session where
  grid : Grid
  registered : List Int
  deriving DecidableEq

/-- The freshly constructed finder. -/
def Session.empty : Session := ⟨[], []⟩

/-- One call. `add p` is only allowed for `p` different from the null index and not currently
registered; a call outside this precondition gives `none`. -/
def Session.step (env : G) (r : ℚ) (s : Session) : Op → Option Session
  | Op.add p =>
    if p = env.null_point_index ∨ p ∈ s.registered then none
    else some ⟨Naive_pnf.add env r s.grid p, p :: s.registered⟩
  | Op.remove p =>
    some ⟨Naive_pnf.remove env r s.grid p, s.registered.filter (fun q => decide (q ≠ p))⟩
  | Op.pull_near u =>
    some ⟨(Naive_pnf.pull_near env r s.grid u).2,
      s.registered.filter (fun q => decide (q ≠ (Naive_pnf.pull_near env r s.grid u).1))⟩
  | Op.pull_all_near u =>
    match Naive_pnf.pull_all_near env r s.grid u with
    | some (all_pull, g) => some ⟨g, s.registered.filter (fun q => decide (q ∉ all_pull))⟩
    | none => none

/-- A sequence of calls, in order, from a given session. -/
def Session.run (env : G) (r : ℚ) : Session → List Op → Option Session
  | s, [] => some s
  | s, op :: ops =>
    match Session.step env r s op with
    | some s' => Session.run env r s' ops
    | none => none

/-- A grid reachable from the empty grid by `add` (of a non-null index not currently
registered), `remove`, `pull_near` and `pull_all_near`. -/
def Reachable (env : G) (r : ℚ) (g : Grid) : Prop :=
  ∃ ops reg, Session.run env r Session.empty ops = some ⟨g, reg⟩

/-! ## Predicates on grids -/

/-- The index `p` is stored in the grid. -/
def Stored (g : Grid) (p : Int) : Prop := p ∈ g.map Prod.snd


/-- The multimap order: no element is followed by an element of smaller key. -/
def GridSorted (g : Grid) : Prop := g.Pairwise (fun a b => key_lt b.1 a.1 = false)

/-- The grid invariant of the specification: every element is stored under the key of its own
coordinates, and no index is stored more than once. -/
def GridInv (env : G) (r : ℚ) (g : Grid) : Prop :=
  (∀ e ∈ g, e.1 = Naive_pnf.get_v_key env r e.2) ∧ (g.map Prod.snd).Nodup

/-- No element of the grid holds the null point index. -/
def NullFree (env : G) (g : Grid) : Prop := ∀ e ∈ g, e.2 ≠ env.null_point_index

/-- A well-formed grid: ordered as a multimap, satisfying the grid invariant, and holding indices
of V points only. -/
def GridOk (env : G) (r : ℚ) (g : Grid) : Prop :=
  GridSorted g ∧ GridInv env r g ∧ NullFree env g

/-- The invariant of a session: the grid is well formed and stores exactly the registered
indices. -/
def SessionInv (env : G) (r : ℚ) (s : Session) : Prop :=
  GridOk env r s.grid ∧ ∀ p, p ∈ s.registered ↔ Stored s.grid p

/-- A distance for which being within `r` bounds both coordinate differences by `r`, as the
Euclidean and the L-infinity distances do. -/
def Geometric (env : G) (r : ℚ) : Prop :=
  ∀ u v, env.distance u v ≤ r →
    |(env.get_u_point u).1 - (env.get_v_point v).1| ≤ r ∧
    |(env.get_u_point u).2 - (env.get_v_point v).2| ≤ r

/-- A rational that is a `double`: an integer of at most 53 binary digits times a power of two
(the exponent is not bounded, so every finite `double` is one). -/
def IsDouble (x : ℚ) : Prop := ∃ M E : ℤ, |M| < 2 ^ 53 ∧ x = (M : ℚ) * (2 : ℚ) ^ E

/-- A point whose two coordinates are `double`s. -/
def DoublePoint (pt : ℚ × ℚ) : Prop := IsDouble pt.1 ∧ IsDouble pt.2

/-- The quotients of both coordinates of a point by `r` are computed without rounding. -/
def KeyExact (r : ℚ) (pt : ℚ × ℚ) : Prop :=
  double_div pt.1 r = pt.1 / r ∧ double_div pt.2 r = pt.2 / r

/-- A key `(i0, j0)` whose neighbours `i0 - 1`, `i0 + 1`, `j0 - 1`, `j0 + 1` are `int`s: the two
outer loops of `pull_near` visit nine keys. -/
def KeyInside (k : Key) : Prop :=
  (-(2 ^ 31) < k.1 ∧ k.1 < 2 ^ 31 - 1) ∧ (-(2 ^ 31) < k.2 ∧ k.2 < 2 ^ 31 - 1)

/-- A key `(i0, j0)` for which no `int` operation of `pull_near` overflows: neither the
conversions that gave it, nor `i0 - 1`, `i0 + 1`, `j0 - 1`, `j0 + 1`, nor the last increment of
the loop variables. -/
def KeySafe (k : Key) : Prop :=
  (-(2 ^ 31) < k.1 ∧ k.1 < 2 ^ 31 - 2) ∧ (-(2 ^ 31) < k.2 ∧ k.2 < 2 ^ 31 - 2)

/-- The distance of `u` to `v` is within `r`. -/
def Within (env : G) (r : ℚ) (u v : Int) : Prop := env.distance u v ≤ r

/-! ## Successive calls of `pull_near`, as the specification words `pull_all_near` -/

/-- The state after `n` successive calls of `pull`. -/
def calls_after {σ : Type} (pull : σ → Int × σ) : Nat → σ → σ
  | 0, s => s
  | n + 1, s => (pull (calls_after pull n s)).2

/-- The result of the call number `n + 1` of `pull` (the first call is number `1`). -/
def call_result {σ : Type} (pull : σ → Int × σ) (n : Nat) (s : σ) : Int :=
  (pull (calls_after pull n s)).1

/-- The results of the first `n` successive calls of `pull`, in order. -/
def call_results {σ : Type} (pull : σ → Int × σ) (n : Nat) (s : σ) : List Int :=
  (List.range n).map (fun i => call_result pull i s)

/-! ## The scan of `pull_near` as the specification words it -/

/-- The bucket of key `k`: the elements stored under `k`, in storage order. -/
def bucket (g : Grid) (k : Key) : List Entry := g.filter (fun e => decide (e.1 = k))

/-- The elements of the nine buckets around `(i0, j0)`, the buckets visited row-major (`i`
outer, `j` inner) and each bucket in storage order. -/
def block_entries (g : Grid) (i0 j0 : Int) : List Entry :=
  (nine_keys i0 j0).flatMap (bucket g)

/-- The first-fit search confined to the nine buckets: the first element of `block_entries`
within `r` of the U point is erased and its index returned; when there is none the null index is
returned and the grid is unchanged. -/
def pull_near_first_fit (env : G) (r : ℚ) (grid : Grid) (u_point_index : Int) : Int × Grid :=
  match (block_entries grid (Naive_pnf.u_key env r u_point_index).1
      (Naive_pnf.u_key env r u_point_index).2).find? (Naive_pnf.near env r u_point_index) with
  | some e => (e.2, grid.erase e)
  | none => (env.null_point_index, grid)

/-! ## Reference versions that scan one bucket only -/

/-- The loop `for (...; it != grid.end(); it++) if (c(*it)) return true;` followed by
`return false`, over the elements from the iterator on: the value returned and the number of
elements examined. -/
def scan_count (c : Entry → Bool) : Grid → Bool × Nat
  | [] => (false, 0)
  | e :: rest => if c e then (true, 1) else ((scan_count c rest).1, (scan_count c rest).2 + 1)

/-- `Naive_pnf::contains` over a graph whose lookup `get_v_point` has no coordinates for some
indices (`none`): the value returned together with the number of elements of the grid examined;
`none` when the body looks up the coordinates of an index that has none. -/
def contains_traced (get_v_point : Int → Option (ℚ × ℚ)) (null_point_index : Int) (r : ℚ)
    (grid : Grid) (v_point_index : Int) : Option (Bool × Nat) :=
  if v_point_index = null_point_index then some (false, 0)
  else
    match get_v_point v_point_index with
    | none => none
    | some v_point =>
      some (scan_count (fun e => decide (e.2 = v_point_index))
        (find grid (static_cast_int (double_div v_point.1 r),
          static_cast_int (double_div v_point.2 r))).2)

/-! ## Reading persistence intervals (`read_persistence_from_file.h`) -/

/-- A `double` of a persistence file: a finite number, or `+infinity`, which the reader gives for
the string `inf` (by the format of the file only the last entry of a line can be `inf`). -/
inductive Bar_value where
  | finite (x : ℚ)
  | infinity
  deriving DecidableEq

/-- The comparison `a < b` of two such values. -/
def Bar_value.lt : Bar_value → Bar_value → Bool
  | Bar_value.finite a, Bar_value.finite b => decide (a < b)
  | Bar_value.finite _, Bar_value.infinity => true
  | Bar_value.infinity, _ => false

/-- The body of the `for` loop of `read_persistence_intervals_in_one_dimension_from_file` for
the interval `barcode_initial[i]`: the pairs it pushes back to `final_barcode`. A pair with
`first > second` is pushed swapped and the loop continues; otherwise the pair is pushed as it is
when `second` is not infinite, and then `(first, what_to_substitute_for_infinite_bar)` is pushed
when `second` is infinite, the substitute is not `-1` and `first` is below the substitute. -/
def push_interval (what_to_substitute_for_infinite_bar : Bar_value)
    (bar : Bar_value × Bar_value) : List (Bar_value × Bar_value) :=
  if Bar_value.lt bar.2 bar.1 then [(bar.2, bar.1)]
  else
    (if bar.2 ≠ Bar_value.infinity then [(bar.1, bar.2)] else []) ++
    (if bar.2 = Bar_value.infinity ∧ what_to_substitute_for_infinite_bar ≠ Bar_value.finite (-1)
      then
        (if Bar_value.lt bar.1 what_to_substitute_for_infinite_bar then
          [(bar.1, what_to_substitute_for_infinite_bar)]
        else [])
      else [])

/-- `read_persistence_intervals_in_one_dimension_from_file`, from the intervals
`barcode_initial` given by the reader of `reader_utils.h` (not among the sources): the vector
`final_barcode` returned. -/
def read_persistence_intervals_in_one_dimension_from_file
    (barcode_initial : List (Bar_value × Bar_value))
    (what_to_substitute_for_infinite_bar : Bar_value) : List (Bar_value × Bar_value) :=
  match barcode_initial with
  | [] => []
  | bar :: rest =>
    push_interval what_to_substitute_for_infinite_bar bar ++
      read_persistence_intervals_in_one_dimension_from_file rest
        what_to_substitute_for_infinite_bar

/-! ## Test data -/

/-- Points on the diagonal: the point of index `n` is `(n, n)`, with the L-infinity distance and
null index `-1`. -/
def diagG : G where
  get_u_point := fun n => ((n : ℚ), (n : ℚ))
  get_v_point := fun n => ((n : ℚ), (n : ℚ))
  distance := fun u v => max |(u : ℚ) - (v : ℚ)| |(u : ℚ) - (v : ℚ)|
  null_point_index := -1

/-- The points of `diagG` with a distance that is constantly zero (not a geometric one). -/
def flatG : G where
  get_u_point := fun n => ((n : ℚ), (n : ℚ))
  get_v_point := fun n => ((n : ℚ), (n : ℚ))
  distance := fun _ _ => 0
  null_point_index := -1

/-- The points of `diagG` where only the V point of index `5` is within any positive radius of
a U point (not a geometric distance). -/
def farG : G where
  get_u_point := fun n => ((n : ℚ), (n : ℚ))
  get_v_point := fun n => ((n : ℚ), (n : ℚ))
  distance := fun _ v => if v = 5 then 0 else 10
  null_point_index := -1

/-- Points on the diagonal shifted below zero: the point of index `n` is `(n / 10 - 1,
n / 10 - 1)`, with the L-infinity distance and null index `-1`. -/
def shiftG : G where
  get_u_point := fun n => ((n : ℚ) / 10 - 1, (n : ℚ) / 10 - 1)
  get_v_point := fun n => ((n : ℚ) / 10 - 1, (n : ℚ) / 10 - 1)
  distance := fun u v => max |(u : ℚ) / 10 - (v : ℚ) / 10| |(u : ℚ) / 10 - (v : ℚ) / 10|
  null_point_index := -1

/-- Points at the upper end of the range of `int`: the point of index `n` is
`(2147483647 + (2 n + 1) / 4, 0)`, with the L-infinity distance and null index `-1`. -/
def bigG : G where
  get_u_point := fun n => (2147483647 + (2 * (n : ℚ) + 1) / 4, 0)
  get_v_point := fun n => (2147483647 + (2 * (n : ℚ) + 1) / 4, 0)
  distance := fun u v =>
    max |(2147483647 + (2 * (u : ℚ) + 1) / 4) - (2147483647 + (2 * (v : ℚ) + 1) / 4)|
      |(0 : ℚ) - 0|
  null_point_index := -1

/-- Decimal points: both coordinates of the point of index `n` are the double nearest to
`n / 10`, the value of a literal such as `0.4`; with the L-infinity distance and null index
`-1`. -/
def decimalG : G where
  get_u_point := fun n => (round_double ((n : ℚ) / 10), round_double ((n : ℚ) / 10))
  get_v_point := fun n => (round_double ((n : ℚ) / 10), round_double ((n : ℚ) / 10))
  distance := fun u v =>
    max |round_double ((u : ℚ) / 10) - round_double ((v : ℚ) / 10)|
      |round_double ((u : ℚ) / 10) - round_double ((v : ℚ) / 10)|
  null_point_index := -1

/-- The double nearest to one tenth, the value of the literal `0.1`. -/
def double_tenth : ℚ := round_double (1 / 10)

/-! ## The sequence model of the multimap -/

section Sequence

theorem find_append (g : Grid) (k : Key) : (find g k).1 ++ (find g k).2 = g := by
  simp [find]

theorem find_fst_key {g : Grid} {k : Key} {x : Entry} (hx : x ∈ (find g k).1) : x.1 ≠ k := by
  have h := List.mem_takeWhile_imp hx
  simpa using h

theorem mem_find_snd {g : Grid} {k : Key} {e : Entry} (he : e ∈ g) (hk : e.1 = k) :
    e ∈ (find g k).2 := by
  have h := find_append g k
  rw [← h] at he
  rcases List.mem_append.1 he with h1 | h2
  · exact absurd hk (find_fst_key h1)
  · exact h2

theorem mem_of_mem_find_snd {g : Grid} {k : Key} {e : Entry} (he : e ∈ (find g k).2) : e ∈ g := by
  rw [← find_append g k]
  exact List.mem_append_right _ he

theorem scan_erase_some {c : Entry → Bool} :
    ∀ {s : Grid} {e : Entry} {s' : Grid}, scan_erase c s = some (e, s') →
      ∃ a b, s = a ++ e :: b ∧ s' = a ++ b ∧ c e = true ∧ ∀ x ∈ a, c x = false
  | [], e, s', h => by simp [scan_erase] at h
  | x :: rest, e, s', h => by
    unfold scan_erase at h
    by_cases hc : c x = true
    · simp only [hc, if_true, Option.some.injEq, Prod.mk.injEq] at h
      obtain ⟨rfl, rfl⟩ := h
      exact ⟨[], rest, rfl, rfl, hc, by simp⟩
    · simp only [hc] at h
      cases hr : scan_erase c rest with
      | none => simp [hr] at h
      | some res =>
        obtain ⟨y, rest'⟩ := res
        simp only [hr, Bool.false_eq_true, if_false, Option.some.injEq, Prod.mk.injEq] at h
        obtain ⟨rfl, rfl⟩ := h
        obtain ⟨a, b, h1, h2, h3, h4⟩ := scan_erase_some hr
        refine ⟨x :: a, b, by simp [h1], by simp [h2], h3, ?_⟩
        intro z hz
        rcases List.mem_cons.1 hz with rfl | hz
        · simpa using hc
        · exact h4 z hz

theorem scan_erase_none {c : Entry → Bool} :
    ∀ {s : Grid}, scan_erase c s = none ↔ ∀ x ∈ s, c x = false
  | [] => by simp [scan_erase]
  | x :: rest => by
    have ih := scan_erase_none (c := c) (s := rest)
    rw [List.forall_mem_cons]
    unfold scan_erase
    cases hc : c x with
    | true => simp
    | false =>
      cases hr : scan_erase c rest with
      | none =>
        simp only [Bool.false_eq_true, if_false, true_and, true_iff]
        exact ih.1 hr
      | some res =>
        simp only [Bool.false_eq_true, if_false, true_and, false_iff, reduceCtorEq]
        intro hall
        rw [ih.2 hall] at hr
        cases hr

end Sequence

/-! ## What one call does to the grid -/

section Operations

open Naive_pnf

theorem stored_iff {g : Grid} {p : Int} : Stored g p ↔ ∃ e ∈ g, e.2 = p := by
  unfold Stored
  rw [List.mem_map]

theorem pull_near_keys_cons_none {env : G} {r : ℚ} {u : Int} {g : Grid} {k : Key}
    (ks : List Key) (h : scan_erase (near env r u) (find g k).2 = none) :
    pull_near_keys env r u g (k :: ks) = pull_near_keys env r u g ks := by
  simp only [pull_near_keys, h]

theorem pull_near_keys_cons_some {env : G} {r : ℚ} {u : Int} {g : Grid} {k : Key}
    (ks : List Key) {e : Entry} {rest : Grid}
    (h : scan_erase (near env r u) (find g k).2 = some (e, rest)) :
    pull_near_keys env r u g (k :: ks) = (e.2, (find g k).1 ++ rest) := by
  simp only [pull_near_keys, h]

theorem pull_near_keys_cases (env : G) (r : ℚ) (u : Int) (g : Grid) : ∀ ks : List Key,
    (∃ a e b, g = a ++ e :: b ∧ pull_near_keys env r u g ks = (e.2, a ++ b) ∧
      near env r u e = true) ∨
    (pull_near_keys env r u g ks = (env.null_point_index, g) ∧
      ∀ k ∈ ks, ∀ x ∈ (find g k).2, near env r u x = false)
  | [] => Or.inr ⟨rfl, by intro k hk; cases hk⟩
  | k :: ks => by
    cases hs : scan_erase (near env r u) (find g k).2 with
    | none =>
      rw [pull_near_keys_cons_none ks hs]
      rcases pull_near_keys_cases env r u g ks with h | ⟨h1, h2⟩
      · exact Or.inl h
      · refine Or.inr ⟨h1, ?_⟩
        intro k' hk'
        rcases List.mem_cons.1 hk' with rfl | hk'
        · exact scan_erase_none.1 hs
        · exact h2 k' hk'
    | some res =>
      obtain ⟨e, rest⟩ := res
      rw [pull_near_keys_cons_some ks hs]
      obtain ⟨a, b, h1, h2, h3, _⟩ := scan_erase_some hs
      refine Or.inl ⟨(find g k).1 ++ a, e, b, ?_, ?_, h3⟩
      · rw [List.append_assoc, ← h1, find_append]
      · simp only [h2, List.append_assoc]

theorem pull_near_cases (env : G) (r : ℚ) (g : Grid) (u : Int) :
    (∃ a e b, g = a ++ e :: b ∧ pull_near env r g u = (e.2, a ++ b) ∧ near env r u e = true) ∨
    (pull_near env r g u = (env.null_point_index, g) ∧
      ∀ k ∈ u_block env r u, ∀ x ∈ (find g k).2, near env r u x = false) :=
  pull_near_keys_cases env r u g _

theorem remove_none {env : G} {r : ℚ} {g : Grid} {p : Int}
    (h : scan_erase (fun e => decide (e.2 = p)) (find g (get_v_key env r p)).2 = none) :
    remove env r g p = g := by
  simp only [remove, h]

theorem remove_some {env : G} {r : ℚ} {g : Grid} {p : Int} {e : Entry} {rest : Grid}
    (h : scan_erase (fun e => decide (e.2 = p)) (find g (get_v_key env r p)).2 = some (e, rest)) :
    remove env r g p = (find g (get_v_key env r p)).1 ++ rest := by
  simp only [remove, h]

theorem remove_cases (env : G) (r : ℚ) (g : Grid) (p : Int) :
    (∃ a k b, g = a ++ (k, p) :: b ∧ remove env r g p = a ++ b) ∨
    (remove env r g p = g ∧ ∀ x ∈ (find g (get_v_key env r p)).2, x.2 ≠ p) := by
  cases hs : scan_erase (fun e => decide (e.2 = p)) (find g (get_v_key env r p)).2 with
  | none =>
    refine Or.inr ⟨remove_none hs, ?_⟩
    intro x hx
    have := scan_erase_none.1 hs x hx
    simpa using this
  | some res =>
    obtain ⟨e, rest⟩ := res
    obtain ⟨a, b, h1, h2, h3, _⟩ := scan_erase_some hs
    have he : e.2 = p := by simpa using h3
    refine Or.inl ⟨(find g (get_v_key env r p)).1 ++ a, e.1, b, ?_, ?_⟩
    · have h4 : (e.1, p) = e := by rw [← he]
      rw [List.append_assoc, h4, ← h1, find_append]
    · rw [remove_some hs, h2, List.append_assoc]

theorem contains_stored {env : G} {r : ℚ} {g : Grid} {p : Int}
    (h : contains env r g p = true) : p ≠ env.null_point_index ∧ Stored g p := by
  unfold contains at h
  by_cases hp : p = env.null_point_index
  · simp [hp] at h
  · rw [if_neg hp, List.any_eq_true] at h
    obtain ⟨e, he, hep⟩ := h
    exact ⟨hp, stored_iff.2 ⟨e, mem_of_mem_find_snd he, by simpa using hep⟩⟩

theorem contains_of_stored {env : G} {r : ℚ} {g : Grid} {p : Int}
    (hkey : ∀ e ∈ g, e.1 = get_v_key env r e.2) (hp : p ≠ env.null_point_index)
    (hs : Stored g p) : contains env r g p = true := by
  obtain ⟨e, he, hep⟩ := stored_iff.1 hs
  unfold contains
  rw [if_neg hp, List.any_eq_true]
  refine ⟨e, mem_find_snd he ?_, by simpa using hep⟩
  rw [hkey e he, hep]

end Operations

/-! ## Preservation of the grid predicates -/

section Preservation

open Naive_pnf

theorem emplace_perm (k : Key) (v : Int) : ∀ g : Grid, (emplace k v g).Perm ((k, v) :: g)
  | [] => List.Perm.refl _
  | e :: rest => by
    unfold emplace
    by_cases h : key_lt k e.1 = true
    · rw [if_pos h]
    · rw [if_neg h]
      exact ((emplace_perm k v rest).cons e).trans (List.Perm.swap _ _ _)

theorem key_lt_trans_false {a b c : Key} (h1 : key_lt b a = false) (h2 : key_lt c b = false) :
    key_lt c a = false := by
  simp only [key_lt, Bool.or_eq_false_iff, Bool.and_eq_false_iff, decide_eq_false_iff_not] at *
  omega

theorem key_lt_asymm {a b : Key} (h : key_lt a b = true) : key_lt b a = false := by
  simp only [key_lt, Bool.or_eq_false_iff, Bool.and_eq_false_iff, decide_eq_false_iff_not,
    Bool.or_eq_true, Bool.and_eq_true, decide_eq_true_eq] at *
  omega

theorem emplace_sorted (k : Key) (v : Int) : ∀ g : Grid, GridSorted g → GridSorted (emplace k v g)
  | [], _ => by simp [emplace, GridSorted]
  | e :: rest, h => by
    unfold GridSorted at h ⊢
    unfold emplace
    rw [List.pairwise_cons] at h
    by_cases hk : key_lt k e.1 = true
    · rw [if_pos hk, List.pairwise_cons]
      refine ⟨?_, List.pairwise_cons.2 h⟩
      intro x hx
      rcases List.mem_cons.1 hx with rfl | hx
      · exact key_lt_asymm hk
      · exact key_lt_trans_false (key_lt_asymm hk) (h.1 x hx)
    · rw [if_neg hk, List.pairwise_cons]
      refine ⟨?_, emplace_sorted k v rest h.2⟩
      intro x hx
      rcases List.mem_cons.1 ((emplace_perm k v rest).mem_iff.1 hx) with rfl | hx
      · simpa using hk
      · exact h.1 x hx

theorem add_stored (env : G) (r : ℚ) (g : Grid) (p q : Int) :
    Stored (add env r g p) q ↔ q = p ∨ Stored g q := by
  unfold Stored add
  rw [((emplace_perm _ p g).map Prod.snd).mem_iff]
  simp

theorem add_ok {env : G} {r : ℚ} {g : Grid} {p : Int} (h : GridOk env r g)
    (hp : p ≠ env.null_point_index) (hs : ¬ Stored g p) : GridOk env r (add env r g p) := by
  obtain ⟨h1, ⟨h2, h3⟩, h4⟩ := h
  have hperm := emplace_perm (get_v_key env r p) p g
  refine ⟨emplace_sorted _ _ g h1, ⟨?_, ?_⟩, ?_⟩
  · intro e he
    rcases List.mem_cons.1 (hperm.mem_iff.1 he) with rfl | he
    · rfl
    · exact h2 e he
  · unfold add
    rw [(hperm.map Prod.snd).nodup_iff, List.map_cons, List.nodup_cons]
    exact ⟨hs, h3⟩
  · intro e he
    rcases List.mem_cons.1 (hperm.mem_iff.1 he) with rfl | he
    · exact hp
    · exact h4 e he

theorem erase_mid_ok {env : G} {r : ℚ} {a b : Grid} {e : Entry}
    (h : GridOk env r (a ++ e :: b)) : GridOk env r (a ++ b) := by
  obtain ⟨h1, ⟨h2, h3⟩, h4⟩ := h
  have hsub : (a ++ b).Sublist (a ++ e :: b) :=
    List.Sublist.append (List.Sublist.refl a) (List.sublist_cons_self e b)
  refine ⟨List.Pairwise.sublist hsub h1, ⟨fun x hx => h2 x (hsub.subset hx), ?_⟩,
    fun x hx => h4 x (hsub.subset hx)⟩
  exact List.Nodup.sublist (hsub.map Prod.snd) h3

theorem erase_mid_stored {env : G} {r : ℚ} {a b : Grid} {e : Entry}
    (h : GridInv env r (a ++ e :: b)) (q : Int) :
    Stored (a ++ b) q ↔ Stored (a ++ e :: b) q ∧ q ≠ e.2 := by
  have h3 := h.2
  rw [List.map_append, List.map_cons, List.nodup_middle, List.nodup_cons, ← List.map_append] at h3
  unfold Stored
  constructor
  · intro hq
    refine ⟨?_, fun hqe => h3.1 (hqe ▸ hq)⟩
    rw [List.map_append] at hq
    rw [List.map_append, List.map_cons]
    rcases List.mem_append.1 hq with hq | hq
    · exact List.mem_append_left _ hq
    · exact List.mem_append_right _ (List.mem_cons_of_mem _ hq)
  · rintro ⟨hq, hne⟩
    rw [List.map_append, List.map_cons] at hq
    rw [List.map_append]
    rcases List.mem_append.1 hq with hq | hq
    · exact List.mem_append_left _ hq
    · rcases List.mem_cons.1 hq with hq | hq
      · exact absurd hq hne
      · exact List.mem_append_right _ hq

end Preservation

section Calls

open Naive_pnf

theorem not_stored_of_scan {env : G} {r : ℚ} {g : Grid} {p : Int} (h : GridInv env r g)
    (hs : ∀ x ∈ (find g (get_v_key env r p)).2, x.2 ≠ p) : ¬ Stored g p := by
  intro hst
  obtain ⟨e, he, hep⟩ := stored_iff.1 hst
  exact hs e (mem_find_snd he (by rw [h.1 e he, hep])) hep

theorem remove_ok {env : G} {r : ℚ} {g : Grid} (p : Int) (h : GridOk env r g) :
    GridOk env r (remove env r g p) := by
  rcases remove_cases env r g p with ⟨a, k, b, h1, h2⟩ | ⟨h1, _⟩
  · rw [h2]
    rw [h1] at h
    exact erase_mid_ok h
  · rw [h1]
    exact h

theorem remove_stored {env : G} {r : ℚ} {g : Grid} (p : Int) (h : GridInv env r g) (q : Int) :
    Stored (remove env r g p) q ↔ Stored g q ∧ q ≠ p := by
  rcases remove_cases env r g p with ⟨a, k, b, h1, h2⟩ | ⟨h1, h2⟩
  · rw [h2]
    have h' := h
    rw [h1] at h'
    rw [erase_mid_stored h' q, ← h1]
  · rw [h1]
    have hns := not_stored_of_scan h h2
    constructor
    · intro hq
      exact ⟨hq, fun hqp => hns (hqp ▸ hq)⟩
    · exact fun hq => hq.1

theorem pull_near_ok {env : G} {r : ℚ} {g : Grid} (u : Int) (h : GridOk env r g) :
    GridOk env r (pull_near env r g u).2 := by
  rcases pull_near_cases env r g u with ⟨a, e, b, h1, h2, _⟩ | ⟨h1, _⟩
  · rw [h2]
    rw [h1] at h
    exact erase_mid_ok h
  · rw [h1]
    exact h

theorem pull_near_stored {env : G} {r : ℚ} {g : Grid} (u : Int) (h : GridOk env r g) (q : Int) :
    Stored (pull_near env r g u).2 q ↔ Stored g q ∧ q ≠ (pull_near env r g u).1 := by
  rcases pull_near_cases env r g u with ⟨a, e, b, h1, h2, _⟩ | ⟨h1, _⟩
  · rw [h2]
    have h' := h.2.1
    rw [h1] at h'
    rw [erase_mid_stored h' q, ← h1]
  · rw [h1]
    constructor
    · intro hq
      refine ⟨hq, fun hqn => ?_⟩
      obtain ⟨e, he, hep⟩ := stored_iff.1 hq
      exact h.2.2 e he (hep.trans hqn)
    · exact fun hq => hq.1

theorem pull_near_length {env : G} {r : ℚ} {g : Grid} {u : Int}
    (h : (pull_near env r g u).1 ≠ env.null_point_index) :
    (pull_near env r g u).2.length + 1 = g.length := by
  rcases pull_near_cases env r g u with ⟨a, e, b, h1, h2, _⟩ | ⟨h1, _⟩
  · rw [h2]
    conv_rhs => rw [h1]
    simp only [List.length_append, List.length_cons]
    omega
  · rw [h1] at h
    exact absurd rfl h

theorem call_results_succ {σ : Type} (pull : σ → Int × σ) (n : Nat) (s : σ) :
    call_results pull (n + 1) s = call_results pull n s ++ [call_result pull n s] := by
  simp [call_results, List.range_succ]

theorem call_results_length {σ : Type} (pull : σ → Int × σ) (n : Nat) (s : σ) :
    (call_results pull n s).length = n := by
  simp [call_results]

theorem mem_call_results {σ : Type} (pull : σ → Int × σ) (n : Nat) (s : σ) (q : Int) :
    q ∈ call_results pull n s ↔ ∃ i, i < n ∧ call_result pull i s = q := by
  simp [call_results]

theorem calls_after_ok {env : G} {r : ℚ} {g : Grid} (u : Int) (h : GridOk env r g) :
    ∀ n, GridOk env r (calls_after (fun g => pull_near env r g u) n g)
  | 0 => h
  | n + 1 => pull_near_ok u (calls_after_ok u h n)

theorem calls_after_stored {env : G} {r : ℚ} {g : Grid} (u : Int) (h : GridOk env r g)
    (q : Int) : ∀ n, Stored (calls_after (fun g => pull_near env r g u) n g) q ↔
      Stored g q ∧ q ∉ call_results (fun g => pull_near env r g u) n g
  | 0 => by simp [calls_after, call_results]
  | n + 1 => by
    have ih := calls_after_stored u h q n
    have hs := pull_near_stored u (calls_after_ok u h n) q
    simp only [calls_after, call_results_succ, List.mem_append, List.mem_singleton, not_or]
    rw [hs, ih]
    simp only [call_result, and_assoc]

end Calls

/-! ## The loop of `pull_all_near` -/

section Loop

open Abstract_planar_neighbors_finder

theorem pull_all_near_loop_spec {σ : Type} (pull : σ → Int × σ) (null : Int) (s0 : σ) :
    ∀ (fuel k : Nat) (ps : List Int) (s' : σ),
      pull_all_near_loop pull null fuel (call_result pull k s0) (calls_after pull (k + 1) s0)
        (call_results pull k s0) = some (ps, s') →
      (∀ i, i < k → call_result pull i s0 ≠ null) →
      ∃ n, ps = call_results pull n s0 ∧ s' = calls_after pull (n + 1) s0 ∧
        call_result pull n s0 = null ∧ ∀ i, i < n → call_result pull i s0 ≠ null
  | 0, k, ps, s', h, _ => by simp [pull_all_near_loop] at h
  | fuel + 1, k, ps, s', h, hk => by
    unfold pull_all_near_loop at h
    by_cases hl : call_result pull k s0 = null
    · rw [if_pos hl] at h
      simp only [Option.some.injEq, Prod.mk.injEq] at h
      exact ⟨k, h.1.symm, h.2.symm, hl, hk⟩
    · rw [if_neg hl, ← call_results_succ] at h
      refine pull_all_near_loop_spec pull null s0 fuel (k + 1) ps s' h ?_
      intro i hi
      rcases Nat.lt_succ_iff_lt_or_eq.1 hi with hi | rfl
      · exact hk i hi
      · exact hl

theorem pull_all_near_spec {σ : Type} (pull : σ → Int × σ) (null : Int) (fuel : Nat) (s0 : σ)
    (ps : List Int) (s' : σ) (h : pull_all_near pull null fuel s0 = some (ps, s')) :
    ∃ n, ps = call_results pull n s0 ∧ s' = calls_after pull (n + 1) s0 ∧
      call_result pull n s0 = null ∧ ∀ i, i < n → call_result pull i s0 ≠ null :=
  pull_all_near_loop_spec pull null s0 fuel 0 ps s' h (fun i hi => absurd hi (Nat.not_lt_zero i))

theorem pull_all_near_loop_total (env : G) (r : ℚ) (u : Int) :
    ∀ (fuel : Nat) (last : Int) (g : Grid) (acc : List Int),
      (last = env.null_point_index → 1 ≤ fuel) →
      (last ≠ env.null_point_index → g.length + 2 ≤ fuel) →
      ∃ res, pull_all_near_loop (fun g => Naive_pnf.pull_near env r g u) env.null_point_index
        fuel last g acc = some res
  | 0, last, g, acc, h1, h2 => by
    by_cases hl : last = env.null_point_index
    · exact absurd (h1 hl) (by omega)
    · exact absurd (h2 hl) (by omega)
  | fuel + 1, last, g, acc, _, h2 => by
    unfold pull_all_near_loop
    by_cases hl : last = env.null_point_index
    · rw [if_pos hl]
      exact ⟨_, rfl⟩
    · rw [if_neg hl]
      have hf := h2 hl
      apply pull_all_near_loop_total env r u fuel
      · intro _
        omega
      · intro hn
        have := pull_near_length hn
        omega

theorem pull_all_near_total (env : G) (r : ℚ) (g : Grid) (u : Int) :
    ∃ res, Naive_pnf.pull_all_near env r g u = some res := by
  unfold Naive_pnf.pull_all_near pull_all_near
  apply pull_all_near_loop_total env r u
  · intro _
    omega
  · intro hn
    have := pull_near_length hn
    beta_reduce
    omega

end Loop

/-! ## Invariants of sessions -/

section Sessions

open Naive_pnf

theorem pull_all_near_grid {env : G} {r : ℚ} {g : Grid} {u : Int} {ps : List Int} {g' : Grid}
    (h : GridOk env r g) (hp : pull_all_near env r g u = some (ps, g')) :
    GridOk env r g' ∧ ∀ q, Stored g' q ↔ Stored g q ∧ q ∉ ps := by
  obtain ⟨n, h1, h2, h3, _⟩ := pull_all_near_spec _ _ _ _ _ _ hp
  refine ⟨h2 ▸ calls_after_ok u h (n + 1), ?_⟩
  intro q
  rw [h2, calls_after_stored u h q (n + 1), call_results_succ, ← h1, h3]
  constructor
  · rintro ⟨hq, hn⟩
    exact ⟨hq, fun hqp => hn (List.mem_append_left _ hqp)⟩
  · rintro ⟨hq, hn⟩
    refine ⟨hq, fun hqp => ?_⟩
    rcases List.mem_append.1 hqp with hqp | hqp
    · exact hn hqp
    · obtain ⟨e, he, hep⟩ := stored_iff.1 hq
      exact h.2.2 e he (hep.trans (List.mem_singleton.1 hqp))

theorem step_inv {env : G} {r : ℚ} {s s' : Session} (op : Op) (h : SessionInv env r s)
    (hs : Session.step env r s op = some s') : SessionInv env r s' := by
  obtain ⟨hok, hreg⟩ := h
  cases op with
  | add p =>
    unfold Session.step at hs
    dsimp only at hs
    by_cases hc : p = env.null_point_index ∨ p ∈ s.registered
    · rw [if_pos hc] at hs
      cases hs
    · rw [if_neg hc] at hs
      cases hs
      rw [not_or] at hc
      refine ⟨add_ok hok hc.1 (fun hst => hc.2 ((hreg p).2 hst)), ?_⟩
      intro q
      show q ∈ p :: s.registered ↔ Stored (add env r s.grid p) q
      rw [add_stored, List.mem_cons, hreg q]
  | remove p =>
    unfold Session.step at hs
    dsimp only at hs
    cases hs
    refine ⟨remove_ok p hok, ?_⟩
    intro q
    show q ∈ s.registered.filter _ ↔ Stored (remove env r s.grid p) q
    rw [remove_stored p hok.2.1 q, List.mem_filter, hreg q]
    simp
  | pull_near u =>
    unfold Session.step at hs
    dsimp only at hs
    cases hs
    refine ⟨pull_near_ok u hok, ?_⟩
    intro q
    show q ∈ s.registered.filter _ ↔ Stored (pull_near env r s.grid u).2 q
    rw [pull_near_stored u hok q, List.mem_filter, hreg q]
    simp
  | pull_all_near u =>
    unfold Session.step at hs
    dsimp only at hs
    cases hp : pull_all_near env r s.grid u with
    | none => simp [hp] at hs
    | some res =>
      obtain ⟨ps, g'⟩ := res
      simp only [hp, Option.some.injEq] at hs
      subst hs
      obtain ⟨h1, h2⟩ := pull_all_near_grid hok hp
      refine ⟨h1, ?_⟩
      intro q
      show q ∈ s.registered.filter _ ↔ Stored g' q
      rw [h2 q, List.mem_filter, hreg q]
      simp

theorem run_inv {env : G} {r : ℚ} : ∀ (ops : List Op) {s s' : Session}, SessionInv env r s →
    Session.run env r s ops = some s' → SessionInv env r s'
  | [], s, s', h, hr => by
    simp only [Session.run, Option.some.injEq] at hr
    exact hr ▸ h
  | op :: ops, s, s', h, hr => by
    unfold Session.run at hr
    cases hst : Session.step env r s op with
    | none => simp [hst] at hr
    | some s1 =>
      simp only [hst] at hr
      exact run_inv ops (step_inv op h hst) hr

theorem empty_inv (env : G) (r : ℚ) : SessionInv env r Session.empty := by
  refine ⟨⟨List.Pairwise.nil, ⟨fun e he => (by cases he), List.nodup_nil⟩,
    fun e he => (by cases he)⟩, ?_⟩
  intro p
  simp [Session.empty, Stored]

theorem reachable_ok {env : G} {r : ℚ} {g : Grid} (h : Reachable env r g) : GridOk env r g := by
  obtain ⟨ops, reg, hr⟩ := h
  exact (run_inv ops (empty_inv env r) hr).1

end Sessions

/-! ## The grid invariant alone -/

section Invariant

open Naive_pnf

theorem erase_mid_inv {env : G} {r : ℚ} {a b : Grid} {e : Entry}
    (h : GridInv env r (a ++ e :: b)) : GridInv env r (a ++ b) := by
  have hsub : (a ++ b).Sublist (a ++ e :: b) :=
    List.Sublist.append (List.Sublist.refl a) (List.sublist_cons_self e b)
  exact ⟨fun x hx => h.1 x (hsub.subset hx), List.Nodup.sublist (hsub.map Prod.snd) h.2⟩

theorem add_inv {env : G} {r : ℚ} {g : Grid} {p : Int} (h : GridInv env r g)
    (hs : ¬ Stored g p) : GridInv env r (add env r g p) := by
  have hperm := emplace_perm (get_v_key env r p) p g
  constructor
  · intro e he
    rcases List.mem_cons.1 (hperm.mem_iff.1 he) with rfl | he
    · rfl
    · exact h.1 e he
  · unfold add
    rw [(hperm.map Prod.snd).nodup_iff, List.map_cons, List.nodup_cons]
    exact ⟨hs, h.2⟩

theorem remove_inv {env : G} {r : ℚ} {g : Grid} (p : Int) (h : GridInv env r g) :
    GridInv env r (remove env r g p) := by
  rcases remove_cases env r g p with ⟨a, k, b, h1, h2⟩ | ⟨h1, _⟩
  · rw [h2]
    rw [h1] at h
    exact erase_mid_inv h
  · rw [h1]
    exact h

theorem pull_near_inv {env : G} {r : ℚ} {g : Grid} (u : Int) (h : GridInv env r g) :
    GridInv env r (pull_near env r g u).2 := by
  rcases pull_near_cases env r g u with ⟨a, e, b, h1, h2, _⟩ | ⟨h1, _⟩
  · rw [h2]
    rw [h1] at h
    exact erase_mid_inv h
  · rw [h1]
    exact h

theorem calls_after_inv {env : G} {r : ℚ} {g : Grid} (u : Int) (h : GridInv env r g) :
    ∀ n, GridInv env r (calls_after (fun g => pull_near env r g u) n g)
  | 0 => h
  | n + 1 => pull_near_inv u (calls_after_inv u h n)

theorem not_stored_of_contains {env : G} {r : ℚ} {g : Grid} {p : Int}
    (h : GridInv env r g) (hp : p ≠ env.null_point_index) (hc : contains env r g p = false) :
    ¬ Stored g p := by
  intro hs
  rw [contains_of_stored h.1 hp hs] at hc
  cases hc

theorem filter_erase_mid {env : G} {r : ℚ} {a b : Grid} {k : Key} {p : Int}
    (h : GridInv env r (a ++ (k, p) :: b)) :
    (a ++ (k, p) :: b).filter (fun e => decide (e.2 ≠ p)) = a ++ b := by
  have h3 := h.2
  rw [List.map_append, List.map_cons, List.nodup_middle, List.nodup_cons, ← List.map_append,
    List.mem_map] at h3
  have ha : a.filter (fun e => decide (e.2 ≠ p)) = a := by
    rw [List.filter_eq_self]
    intro x hx
    have : x.2 ≠ p := fun hxp => h3.1 ⟨x, List.mem_append_left _ hx, hxp⟩
    simpa using this
  have hb : b.filter (fun e => decide (e.2 ≠ p)) = b := by
    rw [List.filter_eq_self]
    intro x hx
    have : x.2 ≠ p := fun hxp => h3.1 ⟨x, List.mem_append_right _ hx, hxp⟩
    simpa using this
  rw [List.filter_append, List.filter_cons, ha, hb]
  simp

end Invariant

/-! ## Rounding: the division of two doubles -/

section Rounding

theorem nat_log2_spec : ∀ (fuel n : Nat), 0 < n → n ≤ fuel →
    2 ^ nat_log2 fuel n ≤ n ∧ n < 2 ^ (nat_log2 fuel n + 1)
  | 0, n, h0, h1 => by omega
  | fuel + 1, n, h0, h1 => by
    unfold nat_log2
    by_cases h2 : n < 2
    · rw [if_pos h2]
      simp
      omega
    · rw [if_neg h2]
      have ih := nat_log2_spec fuel (n / 2) (by omega) (by omega)
      obtain ⟨i1, i2⟩ := ih
      rw [pow_succ, pow_succ]
      rw [pow_succ] at i2
      constructor <;> omega

theorem binary_exponent_spec {q : ℚ} (hq : q ≠ 0) :
    (2 : ℚ) ^ binary_exponent q ≤ |q| ∧ |q| < (2 : ℚ) ^ (binary_exponent q + 1) := by
  have hn : 0 < q.num.natAbs := Int.natAbs_pos.2 (Rat.num_ne_zero.2 hq)
  have hd : 0 < q.den := q.den_pos
  obtain ⟨a1, a2⟩ := nat_log2_spec q.num.natAbs q.num.natAbs hn le_rfl
  obtain ⟨b1, b2⟩ := nat_log2_spec q.den q.den hd le_rfl
  have habs : |q| = (q.num.natAbs : ℚ) / (q.den : ℚ) := by
    conv_lhs => rw [← Rat.num_div_den q]
    rw [abs_div, Nat.abs_cast, Nat.cast_natAbs, Int.cast_abs]
  have a1q : ((2 : ℚ) ^ nat_log2 q.num.natAbs q.num.natAbs) ≤ (q.num.natAbs : ℚ) := by
    exact_mod_cast a1
  have a2q : (q.num.natAbs : ℚ) < (2 : ℚ) ^ (nat_log2 q.num.natAbs q.num.natAbs + 1) := by
    exact_mod_cast a2
  have b1q : ((2 : ℚ) ^ nat_log2 q.den q.den) ≤ (q.den : ℚ) := by
    exact_mod_cast b1
  have b2q : (q.den : ℚ) < (2 : ℚ) ^ (nat_log2 q.den q.den + 1) := by
    exact_mod_cast b2
  have hdq : (0 : ℚ) < (q.den : ℚ) := by exact_mod_cast hd
  set a := nat_log2 q.num.natAbs q.num.natAbs with ha
  set b := nat_log2 q.den q.den with hb
  have two_pos : ∀ k : ℤ, (0 : ℚ) < 2 ^ k := fun k => zpow_pos (by norm_num) k
  have e1 : (2 : ℚ) ^ ((a : ℤ) - (b : ℤ) - 1) = (2 : ℚ) ^ a / (2 : ℚ) ^ (b + 1) := by
    rw [show ((a : ℤ) - (b : ℤ) - 1) = (a : ℤ) - ((b + 1 : ℕ) : ℤ) by push_cast; ring,
      zpow_sub₀ (by norm_num), zpow_natCast, zpow_natCast]
  have e2 : (2 : ℚ) ^ ((a : ℤ) - (b : ℤ) + 1) = (2 : ℚ) ^ (a + 1) / (2 : ℚ) ^ b := by
    rw [show ((a : ℤ) - (b : ℤ) + 1) = ((a + 1 : ℕ) : ℤ) - (b : ℤ) by push_cast; ring,
      zpow_sub₀ (by norm_num), zpow_natCast, zpow_natCast]
  have lo : (2 : ℚ) ^ ((a : ℤ) - (b : ℤ) - 1) ≤ |q| := by
    rw [e1, habs]
    exact div_le_div₀ (by positivity) a1q hdq (le_of_lt b2q)
  have hi : |q| < (2 : ℚ) ^ ((a : ℤ) - (b : ℤ) + 1) := by
    rw [e2, habs]
    exact div_lt_div₀ a2q b1q (by positivity) (by positivity)
  unfold binary_exponent
  rw [← ha, ← hb]
  by_cases h : |q| < (2 : ℚ) ^ ((a : ℤ) - (b : ℤ))
  · rw [if_pos h]
    refine ⟨lo, ?_⟩
    rw [sub_add_cancel]
    exact h
  · rw [if_neg h]
    exact ⟨not_lt.1 h, hi⟩

theorem round_half_even_err (m : ℚ) : |(round_half_even m : ℚ) - m| ≤ 1 / 2 := by
  have h1 := Int.floor_le m
  have h2 := Int.lt_floor_add_one m
  unfold round_half_even
  rw [abs_le]
  split_ifs with c1 c2 c3 <;> push_cast <;> constructor <;> linarith

theorem round_half_even_ge {m : ℚ} {K : ℤ} (h : (K : ℚ) ≤ m) : K ≤ round_half_even m := by
  have h1 : K ≤ ⌊m⌋ := Int.le_floor.2 h
  unfold round_half_even
  split_ifs <;> omega

theorem round_half_even_le {m : ℚ} {K : ℤ} (h : m ≤ (K : ℚ)) : round_half_even m ≤ K := by
  have h1 : ⌊m⌋ ≤ K := Int.floor_le_floor h |>.trans (by simp)
  by_cases h2 : ⌊m⌋ = K
  · have h3 : m - ⌊m⌋ < 1 / 2 := by
      rw [h2]
      linarith
    unfold round_half_even
    rw [if_pos h3, h2]
  · unfold round_half_even
    split_ifs <;> omega

theorem round_half_even_neg (m : ℚ) : round_half_even (-m) = -round_half_even m := by
  have h1 := Int.floor_le m
  have h2 := Int.lt_floor_add_one m
  by_cases hm : (⌊m⌋ : ℚ) = m
  · have e : ⌊-m⌋ = -⌊m⌋ := by
      rw [← hm, ← Int.cast_neg, Int.floor_intCast, Int.floor_intCast]
    unfold round_half_even
    rw [e]
    have c1 : -m - ((-⌊m⌋ : ℤ) : ℚ) < 1 / 2 := by push_cast; linarith
    have c2 : m - (⌊m⌋ : ℚ) < 1 / 2 := by linarith
    rw [if_pos c1, if_pos c2]
  · have hlt : (⌊m⌋ : ℚ) < m := lt_of_le_of_ne h1 hm
    have e : ⌊-m⌋ = -⌊m⌋ - 1 := by
      rw [Int.floor_eq_iff]
      push_cast
      constructor <;> linarith
    unfold round_half_even
    rw [e]
    push_cast
    split_ifs <;> first | omega | (exfalso; linarith)

theorem double_ulp_pos (q : ℚ) : 0 < double_ulp q := zpow_pos (by norm_num) _

theorem round_double_zero : round_double 0 = 0 := by
  unfold round_double
  rw [if_pos rfl]

theorem round_double_eq {q : ℚ} (hq : q ≠ 0) :
    round_double q = (round_half_even (q / double_ulp q) : ℚ) * double_ulp q := by
  unfold round_double
  rw [if_neg hq]

theorem round_double_err (q : ℚ) : |round_double q - q| ≤ double_ulp q / 2 := by
  have hu := double_ulp_pos q
  by_cases hq : q = 0
  · rw [hq, round_double_zero, sub_zero, abs_zero]
    exact le_of_lt (half_pos (double_ulp_pos 0))
  · rw [round_double_eq hq]
    have h := round_half_even_err (q / double_ulp q)
    have e : (round_half_even (q / double_ulp q) : ℚ) * double_ulp q - q
        = ((round_half_even (q / double_ulp q) : ℚ) - q / double_ulp q) * double_ulp q := by
      field_simp
    rw [e, abs_mul, abs_of_pos hu]
    calc |(round_half_even (q / double_ulp q) : ℚ) - q / double_ulp q| * double_ulp q
        ≤ 1 / 2 * double_ulp q := mul_le_mul_of_nonneg_right h (le_of_lt hu)
      _ = double_ulp q / 2 := by ring

theorem binary_exponent_neg (q : ℚ) : binary_exponent (-q) = binary_exponent q := by
  unfold binary_exponent
  rw [Rat.neg_num, Rat.neg_den, Int.natAbs_neg, abs_neg]

theorem double_ulp_neg (q : ℚ) : double_ulp (-q) = double_ulp q := by
  unfold double_ulp
  rw [binary_exponent_neg]

theorem round_double_neg (q : ℚ) : round_double (-q) = -round_double q := by
  by_cases hq : q = 0
  · rw [hq, neg_zero, round_double_zero, neg_zero]
  · rw [round_double_eq hq, round_double_eq (neg_ne_zero.2 hq), double_ulp_neg, neg_div,
      round_half_even_neg]
    push_cast
    ring

/-- Every integer is a multiple of the spacing of the doubles below `2 ^ 53`. -/
theorem int_on_grid {q : ℚ} (he : binary_exponent q ≤ 52) (n : ℤ) :
    ∃ K : ℤ, (n : ℚ) = (K : ℚ) * double_ulp q := by
  have hk : 0 ≤ 52 - max (binary_exponent q) (-1022) := by
    have : max (binary_exponent q) (-1022) ≤ 52 := max_le he (by norm_num)
    linarith
  obtain ⟨j, hj⟩ := Int.eq_ofNat_of_zero_le hk
  refine ⟨n * 2 ^ j, ?_⟩
  unfold double_ulp
  have e : max (binary_exponent q) (-1022) - 52 = -(j : ℤ) := by rw [← hj]; ring
  rw [e, zpow_neg, zpow_natCast]
  push_cast
  field_simp

theorem round_double_ge_int {q : ℚ} {n : ℤ} (hn : |n| ≤ 2 ^ 52) (h : (n : ℚ) ≤ q) :
    (n : ℚ) ≤ round_double q := by
  by_cases hq : q = 0
  · rw [hq, round_double_zero]
    rw [hq] at h
    exact h
  have hu := double_ulp_pos q
  obtain ⟨s1, s2⟩ := binary_exponent_spec hq
  by_cases he : binary_exponent q ≤ 52
  · obtain ⟨K, hK⟩ := int_on_grid he n
    rw [round_double_eq hq, hK]
    apply mul_le_mul_of_nonneg_right _ (le_of_lt hu)
    have h1 : (K : ℚ) ≤ q / double_ulp q := by
      rw [le_div_iff₀ hu, ← hK]
      exact h
    exact_mod_cast round_half_even_ge h1
  · have he' : 53 ≤ binary_exponent q := by omega
    have hbig : (2 : ℚ) ^ (53 : ℤ) ≤ |q| :=
      le_trans (zpow_le_zpow_right₀ (by norm_num) he') s1
    have hnq : -((2 : ℚ) ^ (52 : ℤ)) ≤ (n : ℚ) := by
      have := (abs_le.1 hn).1
      have h2 : ((-(2 ^ 52) : ℤ) : ℚ) ≤ (n : ℚ) := Int.cast_le.2 this
      norm_num at h2 ⊢
      exact h2
    have hnq2 : (n : ℚ) ≤ (2 : ℚ) ^ (52 : ℤ) := by
      have := (abs_le.1 hn).2
      have h2 : (n : ℚ) ≤ ((2 ^ 52 : ℤ) : ℚ) := Int.cast_le.2 this
      norm_num at h2 ⊢
      exact h2
    have hpos : 0 < q := by
      rcases le_or_lt 0 q with h0 | h0
      · exact lt_of_le_of_ne h0 (Ne.symm hq)
      · rw [abs_of_neg h0] at hbig
        norm_num at hbig hnq
        linarith
    rw [abs_of_pos hpos] at s1 hbig
    have herr := (abs_le.1 (round_double_err q)).1
    have hulp : double_ulp q = (2 : ℚ) ^ binary_exponent q * (2 : ℚ) ^ (-52 : ℤ) := by
      unfold double_ulp
      rw [max_eq_left (by omega), sub_eq_add_neg, zpow_add₀ (by norm_num)]
    have h3 : double_ulp q ≤ q * (2 : ℚ) ^ (-52 : ℤ) := by
      rw [hulp]
      exact mul_le_mul_of_nonneg_right s1 (by positivity)
    norm_num at h3 hbig hnq2
    linarith

theorem round_double_le_int {q : ℚ} {n : ℤ} (hn : |n| ≤ 2 ^ 52) (h : q ≤ (n : ℚ)) :
    round_double q ≤ (n : ℚ) := by
  have h1 : ((-n : ℤ) : ℚ) ≤ round_double (-q) :=
    round_double_ge_int (by rwa [abs_neg]) (by push_cast; linarith)
  rw [round_double_neg] at h1
  push_cast at h1
  linarith

/-- A quotient whose rounding is below the integer `n` is at least half a spacing below `n`. -/
theorem le_of_round_double_lt_int {q : ℚ} {n : ℤ} (hq : q ≠ 0) (he : binary_exponent q ≤ 52)
    (h : round_double q < (n : ℚ)) : q ≤ (n : ℚ) - double_ulp q / 2 := by
  have hu := double_ulp_pos q
  obtain ⟨K, hK⟩ := int_on_grid he n
  rw [round_double_eq hq, hK] at h
  have h1 : (round_half_even (q / double_ulp q) : ℚ) < (K : ℚ) := lt_of_mul_lt_mul_right h (le_of_lt hu)
  have h2 : round_half_even (q / double_ulp q) ≤ K - 1 := by
    have := Int.cast_lt.1 h1
    omega
  have h3 := (abs_le.1 (round_half_even_err (q / double_ulp q))).1
  have h4 : (round_half_even (q / double_ulp q) : ℚ) ≤ (K : ℚ) - 1 := by
    exact_mod_cast h2
  have h5 : q / double_ulp q ≤ (K : ℚ) - 1 / 2 := by linarith
  rw [div_le_iff₀ hu] at h5
  rw [hK]
  linarith

theorem two_zpow_pos (k : ℤ) : (0 : ℚ) < 2 ^ k := zpow_pos (by norm_num) k

theorem int_gap {A B : ℤ} (h : A < B) (hb : B < 2 ^ 53 ∨ A < 2 ^ 53) :
    A * 2 ^ 53 ≤ B * (2 ^ 53 - 1) := by
  by_cases h1 : B ≤ 2 ^ 53
  · have h2 : A ≤ B - 1 := by omega
    nlinarith
  · have h2 : A < 2 ^ 53 := by
      rcases hb with hb | hb
      · omega
      · exact hb
    have h3 : A ≤ 2 ^ 53 - 1 := by omega
    have h4 : (2 : ℤ) ^ 53 ≤ B := by omega
    nlinarith

/-- Two doubles `t < D` are at least one unit in the last place of `D` apart. -/
theorem double_gap {t D : ℚ} (ht : IsDouble t) (hD : IsDouble D) (h : t < D) (hpos : 0 < D) :
    t ≤ D * (1 - (2 : ℚ) ^ (-53 : ℤ)) := by
  obtain ⟨A, s, hA, rfl⟩ := ht
  obtain ⟨B, p, hB, rfl⟩ := hD
  have key : ∀ (A' B' : ℤ) (w : ℤ), A' < B' → (B' < 2 ^ 53 ∨ A' < 2 ^ 53) →
      (A' : ℚ) * (2 : ℚ) ^ w ≤ (B' : ℚ) * (2 : ℚ) ^ w * (1 - (2 : ℚ) ^ (-53 : ℤ)) := by
    intro A' B' w hlt hb
    have h1 := int_gap hlt hb
    have h2 : (A' : ℚ) * 2 ^ 53 ≤ (B' : ℚ) * (2 ^ 53 - 1) := by exact_mod_cast h1
    have hw := two_zpow_pos w
    have h3 : (A' : ℚ) ≤ (B' : ℚ) * (1 - (2 : ℚ) ^ (-53 : ℤ)) := by
      norm_num at h2 ⊢
      linarith
    calc (A' : ℚ) * (2 : ℚ) ^ w ≤ (B' : ℚ) * (1 - (2 : ℚ) ^ (-53 : ℤ)) * (2 : ℚ) ^ w :=
          mul_le_mul_of_nonneg_right h3 (le_of_lt hw)
      _ = (B' : ℚ) * (2 : ℚ) ^ w * (1 - (2 : ℚ) ^ (-53 : ℤ)) := by ring
  rcases le_total p s with hps | hps
  · obtain ⟨k, hk⟩ := Int.le.dest hps
    have es : (2 : ℚ) ^ s = (2 : ℚ) ^ k * (2 : ℚ) ^ p := by
      rw [← hk, zpow_add₀ (by norm_num), zpow_natCast, mul_comm]
    have e1 : (A : ℚ) * (2 : ℚ) ^ s = ((A * 2 ^ k : ℤ) : ℚ) * (2 : ℚ) ^ p := by
      rw [es]
      push_cast
      ring
    rw [e1] at h ⊢
    have hlt : A * 2 ^ k < B := by
      have := lt_of_mul_lt_mul_right h (le_of_lt (two_zpow_pos p))
      exact_mod_cast this
    exact key _ _ p hlt (Or.inl (abs_lt.1 hB).2)
  · obtain ⟨k, hk⟩ := Int.le.dest hps
    have ep : (2 : ℚ) ^ p = (2 : ℚ) ^ k * (2 : ℚ) ^ s := by
      rw [← hk, zpow_add₀ (by norm_num), zpow_natCast, mul_comm]
    have e1 : (B : ℚ) * (2 : ℚ) ^ p = ((B * 2 ^ k : ℤ) : ℚ) * (2 : ℚ) ^ s := by
      rw [ep]
      push_cast
      ring
    rw [e1] at h ⊢
    have hlt : A < B * 2 ^ k := by
      have := lt_of_mul_lt_mul_right h (le_of_lt (two_zpow_pos s))
      exact_mod_cast this
    exact key _ _ s hlt (Or.inr (abs_lt.1 hA).2)

theorem isDouble_mul_two_zpow {r : ℚ} (hr : IsDouble r) (k : ℤ) : IsDouble (r * (2 : ℚ) ^ k) := by
  obtain ⟨M, E, hM, rfl⟩ := hr
  exact ⟨M, E + k, hM, by rw [zpow_add₀ (by norm_num), mul_assoc]⟩

theorem isDouble_neg {x : ℚ} (h : IsDouble x) : IsDouble (-x) := by
  obtain ⟨M, E, hM, rfl⟩ := h
  exact ⟨-M, E, by rwa [abs_neg], by push_cast; ring⟩

/-- A nonzero double times an odd integer above `2 ^ 53` has more than 53 significant digits. -/
theorem not_isDouble_mul_odd {r : ℚ} (hr : IsDouble r) (hr0 : r ≠ 0) {c : ℤ} (hodd : Odd c)
    (hc : 2 ^ 53 < c) (k : ℤ) : ¬ IsDouble (r * (c : ℚ) * (2 : ℚ) ^ k) := by
  obtain ⟨M, E, _, rfl⟩ := hr
  rintro ⟨M', E', hM', heq⟩
  have hM0 : M ≠ 0 := by
    rintro rfl
    simp at hr0
  have hc0 : c ≠ 0 := by omega
  have hdvd : c ∣ M' := by
    rcases le_total (E + k) E' with hle | hle
    · obtain ⟨j, hj⟩ := Int.le.dest hle
      have e1 : (2 : ℚ) ^ E' = (2 : ℚ) ^ (E + k) * (2 : ℚ) ^ j := by
        rw [← hj, zpow_add₀ (by norm_num), zpow_natCast]
      have e2 : ((M * c : ℤ) : ℚ) * (2 : ℚ) ^ (E + k) = ((M' * 2 ^ j : ℤ) : ℚ) * (2 : ℚ) ^ (E + k) := by
        push_cast
        rw [zpow_add₀ (by norm_num)] at e1 ⊢
        rw [e1] at heq
        linear_combination heq
      have e3 : M * c = M' * 2 ^ j := by
        have := mul_right_cancel₀ (ne_of_gt (two_zpow_pos (E + k))) e2
        exact_mod_cast this
      have hcop : IsCoprime c ((2 : ℤ) ^ j) := by
        apply IsCoprime.pow_right
        obtain ⟨m, hm⟩ := hodd
        exact ⟨1, -m, by rw [hm]; ring⟩
      exact hcop.dvd_of_dvd_mul_right ⟨M, by rw [← e3, mul_comm]⟩
    · obtain ⟨j, hj⟩ := Int.le.dest hle
      have e1 : (2 : ℚ) ^ (E + k) = (2 : ℚ) ^ E' * (2 : ℚ) ^ j := by
        rw [← hj, zpow_add₀ (by norm_num), zpow_natCast]
      have e2 : ((M * c * 2 ^ j : ℤ) : ℚ) * (2 : ℚ) ^ E' = ((M' : ℤ) : ℚ) * (2 : ℚ) ^ E' := by
        push_cast
        rw [zpow_add₀ (by norm_num)] at e1
        linear_combination heq - (M : ℚ) * c * e1
      have e3 : M * c * 2 ^ j = M' := by
        have := mul_right_cancel₀ (ne_of_gt (two_zpow_pos E')) e2
        exact_mod_cast this
      exact ⟨M * 2 ^ j, by rw [← e3]; ring⟩
  have hM'0 : M' ≠ 0 := by
    rintro rfl
    rw [Int.cast_zero, zero_mul] at heq
    have h2 := two_zpow_pos k
    have h3 := two_zpow_pos E
    have : (M : ℚ) * (2 : ℚ) ^ E * (c : ℚ) * (2 : ℚ) ^ k ≠ 0 := by
      have hMq : (M : ℚ) ≠ 0 := by exact_mod_cast hM0
      have hcq : (c : ℚ) ≠ 0 := by exact_mod_cast hc0
      positivity
    exact this heq
  have hle : c ≤ |M'| := Int.le_of_dvd (abs_pos.2 hM'0) ((dvd_abs c M').2 hdvd)
  omega

theorem double_ulp_of_nonneg_exp {q : ℚ} (he : 0 ≤ binary_exponent q) :
    double_ulp q / 2 = (2 : ℚ) ^ (binary_exponent q - 53) := by
  unfold double_ulp
  rw [max_eq_left (by omega), show binary_exponent q - 52 = (binary_exponent q - 53) + 1 by ring,
    zpow_add₀ (by norm_num), zpow_one]
  ring

/-- The nonnegative case: two doubles `0 ≤ x ≤ y ≤ x + r`. If the computed quotient of `x` is
below `N - 1` for an integer `N`, the computed quotient of `y` is below `N`. -/
theorem quotient_step_nonneg {r x y : ℚ} (hr : 0 < r) (hdr : IsDouble r) (hdx : IsDouble x)
    (hdy : IsDouble y) (hx : 0 ≤ x) (hxy : x ≤ y) (hyx : y ≤ x + r) {N : ℤ} (hN : N ≤ 2 ^ 33)
    (h1 : round_double (x / r) < (N : ℚ) - 1) : round_double (y / r) < (N : ℚ) := by
  by_contra h2
  rw [not_lt] at h2
  have hq0 : 0 ≤ x / r := div_nonneg hx (le_of_lt hr)
  have hqq : x / r ≤ y / r := div_le_div_of_nonneg_right hxy (le_of_lt hr)
  have hq1 : y / r ≤ x / r + 1 := by
    rw [div_add' _ _ _ (ne_of_gt hr), one_mul]
    exact div_le_div_of_nonneg_right hyx (le_of_lt hr)
  -- the rounded quotient of `x` is not negative, so `2 ≤ N`
  have hQ0 : (0 : ℚ) ≤ round_double (x / r) := by
    have := round_double_ge_int (q := x / r) (n := 0) (by norm_num) (by exact_mod_cast hq0)
    exact_mod_cast this
  have hN2 : 2 ≤ N := by
    have h3 : ((1 : ℤ) : ℚ) < (N : ℚ) := by push_cast; linarith
    have := Int.cast_lt.1 h3
    omega
  have hNabs : |N| ≤ 2 ^ 52 := by
    rw [abs_of_nonneg (by omega)]
    omega
  have hN1abs : |N - 1| ≤ 2 ^ 52 := by
    rw [abs_of_nonneg (by omega)]
    omega
  -- the exact quotients
  have hqN : x / r < (N : ℚ) - 1 := by
    by_contra hc
    rw [not_lt] at hc
    have := round_double_ge_int (q := x / r) (n := N - 1) hN1abs (by push_cast; exact hc)
    push_cast at this
    linarith
  have hq'N : y / r < (N : ℚ) := by linarith
  have hq'1 : 1 < y / r := by
    by_contra hc
    rw [not_lt] at hc
    have := round_double_le_int (q := y / r) (n := 1) (by norm_num) (by exact_mod_cast hc)
    have h3 : (N : ℚ) ≤ ((1 : ℤ) : ℚ) := le_trans h2 this
    have := Int.cast_le.1 h3
    omega
  have hq'ne : y / r ≠ 0 := by linarith
  have hqpos : 0 < x / r := by linarith
  have hqne : x / r ≠ 0 := ne_of_gt hqpos
  obtain ⟨s1', s2'⟩ := binary_exponent_spec hq'ne
  obtain ⟨s1, s2⟩ := binary_exponent_spec hqne
  rw [abs_of_pos (by linarith)] at s1' s2'
  rw [abs_of_pos hqpos] at s1 s2
  -- the binary exponent of the quotient of `y`
  have he'0 : 0 ≤ binary_exponent (y / r) := by
    have h3 : (2 : ℚ) ^ (0 : ℤ) < (2 : ℚ) ^ (binary_exponent (y / r) + 1) := by
      rw [zpow_zero]
      linarith
    have := (zpow_lt_zpow_iff_right₀ (by norm_num : (1 : ℚ) < 2)).1 h3
    omega
  have he'33 : binary_exponent (y / r) < 33 := by
    have h3 : (2 : ℚ) ^ binary_exponent (y / r) < (2 : ℚ) ^ (33 : ℤ) := by
      have h4 : (N : ℚ) ≤ ((2 ^ 33 : ℤ) : ℚ) := Int.cast_le.2 hN
      have h5 : ((2 ^ 33 : ℤ) : ℚ) = (2 : ℚ) ^ (33 : ℤ) := by norm_num
      rw [h5] at h4
      linarith
    exact (zpow_lt_zpow_iff_right₀ (by norm_num : (1 : ℚ) < 2)).1 h3
  have hee : binary_exponent (x / r) ≤ binary_exponent (y / r) := by
    have h3 : (2 : ℚ) ^ binary_exponent (x / r) < (2 : ℚ) ^ (binary_exponent (y / r) + 1) := by
      linarith
    have := (zpow_lt_zpow_iff_right₀ (by norm_num : (1 : ℚ) < 2)).1 h3
    omega
  obtain ⟨a, ha⟩ := Int.eq_ofNat_of_zero_le he'0
  obtain ⟨j, hj⟩ := Int.eq_ofNat_of_zero_le (show 0 ≤ 53 - binary_exponent (y / r) by omega)
  have haj : a + j = 53 := by omega
  have hj1 : 1 ≤ j := by omega
  set δ : ℚ := (2 : ℚ) ^ (binary_exponent (y / r) - 53) with hδ
  have hδpos : 0 < δ := two_zpow_pos _
  have hδj : δ * (2 : ℚ) ^ j = 1 := by
    rw [hδ, ← zpow_natCast, ← zpow_add₀ (by norm_num), ← hj]
    simp
  have hδa : (2 : ℚ) ^ binary_exponent (y / r) * (2 : ℚ) ^ (-53 : ℤ) = δ := by
    rw [hδ, ← zpow_add₀ (by norm_num)]
    rfl
  -- the rounding of the quotient of `y` went up to `N`
  have hQ'N : round_double (y / r) ≤ (N : ℚ) :=
    round_double_le_int hNabs (le_of_lt hq'N)
  have hlow : (N : ℚ) - δ ≤ y / r := by
    have h3 := (abs_le.1 (round_double_err (y / r))).2
    rw [double_ulp_of_nonneg_exp he'0] at h3
    linarith
  -- `2 ^ e' ≤ N - 1`
  have hpowN : ((2 : ℤ) ^ a : ℤ) ≤ N - 1 := by
    have h3 : (((2 : ℤ) ^ a : ℤ) : ℚ) < (N : ℚ) := by
      push_cast
      rw [← zpow_natCast, ← ha]
      linarith
    have := Int.cast_lt.1 h3
    omega
  have hpowNq : (2 : ℚ) ^ binary_exponent (y / r) ≤ (N : ℚ) - 1 := by
    have h3 : (((2 : ℤ) ^ a : ℤ) : ℚ) ≤ ((N - 1 : ℤ) : ℚ) := Int.cast_le.2 hpowN
    push_cast at h3
    rw [ha, zpow_natCast]
    exact h3
  -- the quotient of `x` is at least `δ` below `N - 1`
  have hup : x / r ≤ (N : ℚ) - 1 - δ := by
    rcases eq_or_lt_of_le hee with heq | hlt
    · have h3 := le_of_round_double_lt_int (q := x / r) (n := N - 1) hqne (by omega)
        (by push_cast; exact h1)
      rw [double_ulp_of_nonneg_exp (by omega), heq] at h3
      push_cast at h3
      exact h3
    · have h3 : x / r < (2 : ℚ) ^ binary_exponent (y / r) :=
        lt_of_lt_of_le s2 (zpow_le_zpow_right₀ (by norm_num) (by omega))
      have h4 : x < r * (2 : ℚ) ^ binary_exponent (y / r) := by
        rw [div_lt_iff₀ hr] at h3
        linarith
      have h5 := double_gap hdx (isDouble_mul_two_zpow hdr _) h4
        (mul_pos hr (two_zpow_pos _))
      have h6 : x / r ≤ (2 : ℚ) ^ binary_exponent (y / r) * (1 - (2 : ℚ) ^ (-53 : ℤ)) := by
        rw [div_le_iff₀ hr]
        linarith
      rw [mul_sub, mul_one, hδa] at h6
      linarith
  -- so the quotient of `y` is exactly `N - δ`
  have hyq : y / r = (N : ℚ) - δ := le_antisymm (by linarith) hlow
  have hy : y = r * ((N * 2 ^ j - 1 : ℤ) : ℚ) * (2 : ℚ) ^ (binary_exponent (y / r) - 53) := by
    rw [← hδ]
    have h3 : y = r * ((N : ℚ) - δ) := by
      rw [← hyq]
      field_simp
    rw [h3]
    push_cast
    have : r * ((N : ℚ) * (2 : ℚ) ^ j - 1) * δ = r * ((N : ℚ) * (δ * (2 : ℚ) ^ j) - δ) := by ring
    rw [this, hδj, mul_one]
  -- which no double is
  have hodd : Odd (N * 2 ^ j - 1) := by
    obtain ⟨j', rfl⟩ : ∃ j', j = j' + 1 := ⟨j - 1, by omega⟩
    exact ⟨N * 2 ^ j' - 1, by rw [pow_succ]; ring⟩
  have hbig : (2 : ℤ) ^ 53 < N * 2 ^ j - 1 := by
    have h3 : (2 : ℤ) ^ a * 2 ^ j = 2 ^ 53 := by rw [← pow_add, haj]
    have h4 : (2 : ℤ) ≤ 2 ^ j := by
      calc (2 : ℤ) = 2 ^ 1 := by norm_num
        _ ≤ 2 ^ j := pow_le_pow_right₀ (by norm_num) hj1
    have h5 : ((2 : ℤ) ^ a + 1) * 2 ^ j ≤ N * 2 ^ j :=
      mul_le_mul_of_nonneg_right (by omega) (by positivity)
    have h6 : ((2 : ℤ) ^ a + 1) * 2 ^ j = 2 ^ 53 + 2 ^ j := by rw [add_mul, h3, one_mul]
    omega
  exact not_isDouble_mul_odd hdr (ne_of_gt hr) hodd hbig _ (hy ▸ hdy)

end Rounding

/-! ## The bucket key and the block of nine keys -/

section Geometry

open Naive_pnf

theorem trunc_of_nonneg {x : ℚ} (h : 0 ≤ x) : trunc_toward_zero x = ⌊x⌋ := by
  unfold trunc_toward_zero
  rw [Rat.floor_def, Int.tdiv_eq_ediv (Rat.num_nonneg.2 h) (Int.ofNat_nonneg _)]

theorem trunc_neg (x : ℚ) : trunc_toward_zero (-x) = -trunc_toward_zero x := by
  unfold trunc_toward_zero
  rw [Rat.neg_num, Rat.neg_den, Int.neg_tdiv]

theorem trunc_of_neg {x : ℚ} (h : x < 0) : trunc_toward_zero x = ⌈x⌉ := by
  have h1 := trunc_of_nonneg (x := -x) (by linarith)
  rw [trunc_neg, Int.floor_neg] at h1
  exact neg_injective h1

theorem trunc_le_one {a b : ℚ} (h : b ≤ a + 1) :
    trunc_toward_zero b ≤ trunc_toward_zero a + 1 := by
  rcases le_or_lt 0 a with ha | ha <;> rcases le_or_lt 0 b with hb | hb
  · rw [trunc_of_nonneg ha, trunc_of_nonneg hb]
    have h1 := Int.floor_le b
    have h2 := Int.lt_floor_add_one a
    have h3 : ((⌊b⌋ : ℤ) : ℚ) < ((⌊a⌋ + 1 + 1 : ℤ) : ℚ) := by push_cast; linarith
    have h4 := Int.cast_lt.1 h3
    omega
  · rw [trunc_of_nonneg ha, trunc_of_neg hb]
    have h1 := Int.ceil_lt_add_one b
    have h2 : (0 : ℤ) ≤ ⌊a⌋ := Int.floor_nonneg.2 ha
    have h3 : ((⌈b⌉ : ℤ) : ℚ) < ((1 : ℤ) : ℚ) := by push_cast; linarith
    have h4 := Int.cast_lt.1 h3
    omega
  · rw [trunc_of_neg ha, trunc_of_nonneg hb]
    have h1 := Int.floor_le b
    have h2 := Int.le_ceil a
    have h3 : ((⌊b⌋ : ℤ) : ℚ) < ((1 : ℤ) : ℚ) := by push_cast; linarith
    have h4 := Int.cast_lt.1 h3
    have h5 : ((-1 - 1 : ℤ) : ℚ) < ((⌈a⌉ : ℤ) : ℚ) := by push_cast; linarith
    have h6 := Int.cast_lt.1 h5
    omega
  · rw [trunc_of_neg ha, trunc_of_neg hb]
    have h1 := Int.ceil_lt_add_one b
    have h2 := Int.le_ceil a
    have h3 : ((⌈b⌉ : ℤ) : ℚ) < ((⌈a⌉ + 1 + 1 : ℤ) : ℚ) := by push_cast; linarith
    have h4 := Int.cast_lt.1 h3
    omega

theorem trunc_close {a b : ℚ} (h : |a - b| ≤ 1) :
    |trunc_toward_zero a - trunc_toward_zero b| ≤ 1 := by
  rw [abs_le] at h ⊢
  have h1 := trunc_le_one (a := a) (b := b) (by linarith)
  have h2 := trunc_le_one (a := b) (b := a) (by linarith)
  constructor <;> omega

/-- The truncation of `x` lies between `x` and zero, less than one away from `x`. -/
theorem trunc_bounds (x : ℚ) :
    ((trunc_toward_zero x : ℚ) - 1 < x ∧ x < (trunc_toward_zero x : ℚ) + 1) ∧
    (0 ≤ x → (trunc_toward_zero x : ℚ) ≤ x) ∧ (x ≤ 0 → x ≤ (trunc_toward_zero x : ℚ)) := by
  rcases le_or_lt 0 x with hx | hx
  · rw [trunc_of_nonneg hx]
    have h1 := Int.floor_le x
    have h2 := Int.lt_floor_add_one x
    refine ⟨⟨by linarith, h2⟩, fun _ => h1, fun h => ?_⟩
    have h0 : x = 0 := le_antisymm h hx
    rw [h0]
    simp
  · rw [trunc_of_neg hx]
    have h1 := Int.le_ceil x
    have h2 := Int.ceil_lt_add_one x
    exact ⟨⟨by linarith, by linarith⟩, fun h => absurd h (not_le.2 hx), fun _ => h1⟩

theorem static_cast_int_of_range {x : ℚ} (h1 : -(2 ^ 31 : ℚ) - 1 < x) (h2 : x < 2 ^ 31) :
    static_cast_int x = trunc_toward_zero x := by
  unfold static_cast_int
  rw [if_pos ⟨h1, h2⟩]

theorem range_of_static_cast_int {x : ℚ} (h : static_cast_int x ≠ -(2 ^ 31)) :
    -(2 ^ 31 : ℚ) - 1 < x ∧ x < 2 ^ 31 := by
  by_contra hc
  apply h
  unfold static_cast_int
  rw [if_neg hc]

theorem wrap_int_of_range {n : Int} (h1 : -(2 ^ 31) ≤ n) (h2 : n < 2 ^ 31) : wrap_int n = n := by
  unfold wrap_int
  omega

theorem int_for_three (i : Int) : int_for (i - 1) (i + 1) = [i - 1, i, i + 1] := by
  unfold int_for
  have h : (i + 1 + 1 - (i - 1)).toNat = 3 := by omega
  rw [h]
  simp only [int_for_from]
  have e1 : i - 1 + 1 = i := by omega
  rw [e1]

theorem keySafe_inside {k : Key} (h : KeySafe k) : KeyInside k :=
  ⟨⟨h.1.1, by linarith [h.1.2]⟩, h.2.1, by linarith [h.2.2]⟩

theorem block_keys_eq_nine {k : Key} (h : KeyInside k) :
    block_keys k.1 k.2 = nine_keys k.1 k.2 := by
  obtain ⟨⟨h1, h2⟩, h3, h4⟩ := h
  unfold block_keys nine_keys
  rw [wrap_int_of_range (by omega) (by omega), wrap_int_of_range (by omega) (by omega),
    wrap_int_of_range (by omega) (by omega), wrap_int_of_range (by omega) (by omega),
    int_for_three, int_for_three]

theorem mem_nine_keys {i0 j0 i j : Int} (hi : |i - i0| ≤ 1) (hj : |j - j0| ≤ 1) :
    (i, j) ∈ nine_keys i0 j0 := by
  rw [abs_le] at hi hj
  have h1 : i = i0 - 1 ∨ i = i0 ∨ i = i0 + 1 := by omega
  have h2 : j = j0 - 1 ∨ j = j0 ∨ j = j0 + 1 := by omega
  rcases h1 with rfl | rfl | rfl <;> rcases h2 with rfl | rfl | rfl <;> simp [nine_keys]

theorem trunc_eq_zero {q : ℚ} (h : |q| < 1) : trunc_toward_zero q = 0 := by
  rw [abs_lt] at h
  rcases le_or_lt 0 q with hq | hq
  · rw [trunc_of_nonneg hq, Int.floor_eq_zero_iff]
    exact ⟨hq, h.2⟩
  · rw [trunc_of_neg hq, Int.ceil_eq_zero_iff]
    exact ⟨h.1, le_of_lt hq⟩

theorem trunc_mono {a b : ℚ} (h : a ≤ b) : trunc_toward_zero a ≤ trunc_toward_zero b := by
  rcases le_or_lt 0 a with ha | ha
  · rw [trunc_of_nonneg ha, trunc_of_nonneg (le_trans ha h)]
    exact Int.floor_le_floor h
  · rcases le_or_lt 0 b with hb | hb
    · rw [trunc_of_neg ha, trunc_of_nonneg hb]
      have h1 : ⌈a⌉ ≤ 0 := Int.ceil_le.2 (by simpa using le_of_lt ha)
      have h2 : (0 : ℤ) ≤ ⌊b⌋ := Int.floor_nonneg.2 hb
      omega
    · rw [trunc_of_neg ha, trunc_of_neg hb]
      exact Int.ceil_le_ceil h

/-- A positive quotient up to one half is not rounded up to one. -/
theorem round_double_lt_one {q : ℚ} (h0 : 0 < q) (h : q ≤ 1 / 2) : round_double q < 1 := by
  obtain ⟨s1, _⟩ := binary_exponent_spec (ne_of_gt h0)
  rw [abs_of_pos h0] at s1
  have he : binary_exponent q ≤ -1 := by
    have h3 : (2 : ℚ) ^ binary_exponent q < (2 : ℚ) ^ (0 : ℤ) := by
      rw [zpow_zero]
      linarith
    have := (zpow_lt_zpow_iff_right₀ (by norm_num : (1 : ℚ) < 2)).1 h3
    omega
  have hu : double_ulp q ≤ (2 : ℚ) ^ (-53 : ℤ) := by
    unfold double_ulp
    apply zpow_le_zpow_right₀ (by norm_num)
    have : max (binary_exponent q) (-1022) ≤ -1 := max_le he (by norm_num)
    omega
  have h3 := (abs_le.1 (round_double_err q)).2
  norm_num at hu
  linarith

/-- Two doubles `x ≤ y ≤ x + r`: the truncated computed quotients differ by at most one. -/
theorem trunc_quotient_step {r x y : ℚ} (hr : 0 < r) (hdr : IsDouble r) (hdx : IsDouble x)
    (hdy : IsDouble y) (hxy : x ≤ y) (hyx : y ≤ x + r)
    (hbx : |x / r| ≤ 2 ^ 32) (hby : |y / r| ≤ 2 ^ 32) :
    trunc_toward_zero (round_double (y / r)) ≤ trunc_toward_zero (round_double (x / r)) + 1 ∧
    trunc_toward_zero (round_double (x / r)) ≤ trunc_toward_zero (round_double (y / r)) + 1 := by
  have hqq : x / r ≤ y / r := div_le_div_of_nonneg_right hxy (le_of_lt hr)
  have hq1 : y / r ≤ x / r + 1 := by
    rw [div_add' _ _ _ (ne_of_gt hr), one_mul]
    exact div_le_div_of_nonneg_right hyx (le_of_lt hr)
  -- bounds on integers near the quotients
  have small : ∀ (n : ℤ), (n : ℚ) ≤ 2 ^ 32 + 1 → -(2 ^ 32 : ℚ) - 1 ≤ (n : ℚ) → |n| ≤ 2 ^ 52 := by
    intro n h1 h2
    have h3 : (n : ℚ) ≤ ((2 ^ 32 + 1 : ℤ) : ℚ) := by norm_num at h1 ⊢; exact h1
    have h4 : ((-(2 ^ 32) - 1 : ℤ) : ℚ) ≤ (n : ℚ) := by norm_num at h2 ⊢; exact h2
    have h5 := Int.cast_le.1 h3
    have h6 := Int.cast_le.1 h4
    rw [abs_le]
    constructor <;> omega
  have hxb := abs_le.1 hbx
  have hyb := abs_le.1 hby
  -- the rounded quotients stay between the integers around the exact ones
  have rd_le_ceil : ∀ q : ℚ, |q| ≤ 2 ^ 32 → round_double q ≤ (⌈q⌉ : ℚ) := by
    intro q hq
    have hb := abs_le.1 hq
    exact round_double_le_int
      (small _ (by linarith [Int.ceil_lt_add_one q]) (by linarith [Int.le_ceil q]))
      (Int.le_ceil q)
  have rd_ge_floor : ∀ q : ℚ, |q| ≤ 2 ^ 32 → (⌊q⌋ : ℚ) ≤ round_double q := by
    intro q hq
    have hb := abs_le.1 hq
    exact round_double_ge_int
      (small _ (by linarith [Int.floor_le q]) (by linarith [Int.lt_floor_add_one q]))
      (Int.floor_le q)
  constructor
  · -- the larger point is at most one key further
    rcases le_or_lt 0 x with hx | hx
    · -- both quotients are nonnegative
      have hQ0 : (0 : ℚ) ≤ round_double (x / r) := by
        have := round_double_ge_int (q := x / r) (n := 0) (by norm_num)
          (by exact_mod_cast div_nonneg hx (le_of_lt hr))
        exact_mod_cast this
      have hQ'0 : (0 : ℚ) ≤ round_double (y / r) := by
        have := round_double_ge_int (q := y / r) (n := 0) (by norm_num)
          (by exact_mod_cast div_nonneg (le_trans hx hxy) (le_of_lt hr))
        exact_mod_cast this
      rw [trunc_of_nonneg hQ0, trunc_of_nonneg hQ'0]
      have hN : ⌊round_double (x / r)⌋ + 2 ≤ 2 ^ 33 := by
        have h1 := Int.floor_le (round_double (x / r))
        have h2 := rd_le_ceil (x / r) hbx
        have h3 := Int.ceil_lt_add_one (x / r)
        have h4 : ((⌊round_double (x / r)⌋ : ℤ) : ℚ) < ((2 ^ 32 + 1 : ℤ) : ℚ) := by
          push_cast
          linarith
        have := Int.cast_lt.1 h4
        omega
      have h1 : round_double (x / r) < ((⌊round_double (x / r)⌋ + 2 : ℤ) : ℚ) - 1 := by
        push_cast
        linarith [Int.lt_floor_add_one (round_double (x / r))]
      have h2 := quotient_step_nonneg hr hdr hdx hdy hx hxy hyx hN h1
      have h3 : ⌊round_double (y / r)⌋ < ⌊round_double (x / r)⌋ + 2 := Int.floor_lt.2 h2
      omega
    · rcases le_or_lt y 0 with hy | hy
      · -- both quotients are nonpositive: the mirror image of the nonnegative case
        have hQ0 : (0 : ℚ) ≤ round_double (-y / r) := by
          have := round_double_ge_int (q := -y / r) (n := 0) (by norm_num)
            (by exact_mod_cast div_nonneg (by linarith) (le_of_lt hr))
          exact_mod_cast this
        have hQ'0 : (0 : ℚ) ≤ round_double (-x / r) := by
          have := round_double_ge_int (q := -x / r) (n := 0) (by norm_num)
            (by exact_mod_cast div_nonneg (by linarith) (le_of_lt hr))
          exact_mod_cast this
        have hby' : |-y / r| ≤ 2 ^ 32 := by rwa [neg_div, abs_neg]
        have hN : ⌊round_double (-y / r)⌋ + 2 ≤ 2 ^ 33 := by
          have h1 := Int.floor_le (round_double (-y / r))
          have h2 := rd_le_ceil (-y / r) hby'
          have h3 := Int.ceil_lt_add_one (-y / r)
          have hb := abs_le.1 hby'
          have h4 : ((⌊round_double (-y / r)⌋ : ℤ) : ℚ) < ((2 ^ 32 + 1 : ℤ) : ℚ) := by
            push_cast
            linarith
          have := Int.cast_lt.1 h4
          omega
        have h1 : round_double (-y / r) < ((⌊round_double (-y / r)⌋ + 2 : ℤ) : ℚ) - 1 := by
          push_cast
          linarith [Int.lt_floor_add_one (round_double (-y / r))]
        have h2 := quotient_step_nonneg hr hdr (isDouble_neg hdy) (isDouble_neg hdx)
          (by linarith) (by linarith) (by linarith) hN h1
        have h3 : ⌊round_double (-x / r)⌋ < ⌊round_double (-y / r)⌋ + 2 := Int.floor_lt.2 h2
        rw [← trunc_of_nonneg hQ0, ← trunc_of_nonneg hQ'0, neg_div, neg_div, round_double_neg,
          round_double_neg, trunc_neg, trunc_neg] at h3
        omega
      · -- the quotients straddle zero
        have hq'1 : y / r < 1 := by
          have : x / r < 0 := div_neg_of_neg_of_pos hx hr
          linarith
        have hq1' : -1 < x / r := by
          have : 0 < y / r := div_pos hy hr
          linarith
        have hQ'le : round_double (y / r) ≤ 1 := by
          have := round_double_le_int (q := y / r) (n := 1) (by norm_num)
            (by exact_mod_cast le_of_lt hq'1)
          exact_mod_cast this
        have hQ'ge : 0 ≤ round_double (y / r) := by
          have := round_double_ge_int (q := y / r) (n := 0) (by norm_num)
            (by exact_mod_cast le_of_lt (div_pos hy hr))
          exact_mod_cast this
        have hQle : round_double (x / r) ≤ 0 := by
          have := round_double_le_int (q := x / r) (n := 0) (by norm_num)
            (by exact_mod_cast le_of_lt (div_neg_of_neg_of_pos hx hr))
          exact_mod_cast this
        have hQge : -1 ≤ round_double (x / r) := by
          have := round_double_ge_int (q := x / r) (n := -1) (by norm_num)
            (by exact_mod_cast le_of_lt hq1')
          exact_mod_cast this
        have t1 : trunc_toward_zero (round_double (y / r)) ≤ 1 := by
          have := trunc_mono hQ'le
          rw [show trunc_toward_zero (1 : ℚ) = 1 by decide!] at this
          exact this
        have t2 : -1 ≤ trunc_toward_zero (round_double (x / r)) := by
          have := trunc_mono hQge
          rw [show trunc_toward_zero (-1 : ℚ) = -1 by decide!] at this
          exact this
        rcases le_or_lt (y / r) (1 / 2) with hhalf | hhalf
        · have h1 := round_double_lt_one (div_pos hy hr) hhalf
          have h2 : trunc_toward_zero (round_double (y / r)) = 0 :=
            trunc_eq_zero (abs_lt.2 ⟨by linarith, h1⟩)
          omega
        · have h0 : 0 < -x / r := div_pos (by linarith) hr
          have h1 := round_double_lt_one h0 (by rw [neg_div]; linarith)
          rw [neg_div, round_double_neg] at h1
          have h2 : trunc_toward_zero (round_double (x / r)) = 0 :=
            trunc_eq_zero (abs_lt.2 ⟨by linarith, by linarith⟩)
          omega
  · -- the smaller point is at most one key further
    have h1 := rd_le_ceil (x / r) hbx
    have h2 : ((⌈x / r⌉ - 1 : ℤ) : ℚ) ≤ round_double (y / r) := by
      have h3 : ((⌈x / r⌉ - 1 : ℤ) : ℚ) ≤ y / r := by
        push_cast
        linarith [Int.ceil_lt_add_one (x / r)]
      refine round_double_ge_int (small _ ?_ ?_) h3
      · push_cast
        linarith [Int.ceil_lt_add_one (x / r)]
      · push_cast
        linarith [Int.le_ceil (x / r)]
    push_cast at h2
    exact trunc_le_one (by linarith)

/-- One coordinate: when the key component of `x` and its two neighbours are `int`s, a double
within `r` of `x` has a key component at most one away. -/
theorem key_component_close {r x y : ℚ} (hr : 0 < r) (hdr : IsDouble r) (hdx : IsDouble x)
    (hdy : IsDouble y)
    (hs : -(2 ^ 31) < static_cast_int (double_div x r) ∧
      static_cast_int (double_div x r) < 2 ^ 31 - 1)
    (h : |x - y| ≤ r) :
    |static_cast_int (double_div y r) - static_cast_int (double_div x r)| ≤ 1 := by
  unfold double_div at hs ⊢
  obtain ⟨hx1, hx2⟩ := range_of_static_cast_int (x := round_double (x / r)) (by omega)
  rw [static_cast_int_of_range hx1 hx2] at hs ⊢
  obtain ⟨⟨b1, b2⟩, _, _⟩ := trunc_bounds (round_double (x / r))
  -- the rounded quotient of `x` is strictly inside the range
  have c1 : round_double (x / r) < 2 ^ 31 - 1 := by
    have h3 : ((trunc_toward_zero (round_double (x / r)) : ℤ) : ℚ) ≤ ((2 ^ 31 - 2 : ℤ) : ℚ) :=
      Int.cast_le.2 (by linarith [hs.2])
    norm_num at h3 ⊢
    linarith
  have c2 : -(2 ^ 31 : ℚ) < round_double (x / r) := by
    have h3 : ((-(2 ^ 31) + 1 : ℤ) : ℚ) ≤ ((trunc_toward_zero (round_double (x / r)) : ℤ) : ℚ) :=
      Int.cast_le.2 (by linarith [hs.1])
    norm_num at h3 ⊢
    linarith
  -- so is the exact quotient
  have d1 : x / r < 2 ^ 31 - 1 := by
    by_contra hc
    rw [not_lt] at hc
    have := round_double_ge_int (q := x / r) (n := 2 ^ 31 - 1) (by norm_num)
      (by norm_num at hc ⊢; exact hc)
    norm_num at this c1
    linarith
  have d2 : -(2 ^ 31 : ℚ) < x / r := by
    by_contra hc
    rw [not_lt] at hc
    have := round_double_le_int (q := x / r) (n := -(2 ^ 31)) (by norm_num)
      (by norm_num at hc ⊢; exact hc)
    norm_num at this c2
    linarith
  have hq : |y / r - x / r| ≤ 1 := by
    rw [← sub_div, abs_div, abs_of_pos hr, abs_sub_comm]
    exact (div_le_one hr).2 h
  have hq' := abs_le.1 hq
  have hbx : |x / r| ≤ 2 ^ 32 := by
    rw [abs_le]
    constructor <;> norm_num at d1 d2 ⊢ <;> linarith
  have hby : |y / r| ≤ 2 ^ 32 := by
    rw [abs_le]
    constructor <;> norm_num at d1 d2 ⊢ <;> linarith
  -- the truncations are at most one apart
  have core : |trunc_toward_zero (round_double (y / r))
      - trunc_toward_zero (round_double (x / r))| ≤ 1 := by
    rw [abs_le] at h ⊢
    rcases le_total x y with hxy | hxy
    · obtain ⟨t1, t2⟩ := trunc_quotient_step hr hdr hdx hdy hxy (by linarith) hbx hby
      constructor <;> omega
    · obtain ⟨t1, t2⟩ := trunc_quotient_step hr hdr hdy hdx hxy (by linarith) hby hbx
      constructor <;> omega
  -- so the rounded quotient of `y` is inside the range of `int`
  have e1 : round_double (y / r) < 2 ^ 31 := by
    by_contra hc
    rw [not_lt] at hc
    have h3 : (2 : ℤ) ^ 31 ≤ trunc_toward_zero (round_double (y / r)) := by
      have := trunc_mono hc
      rw [show trunc_toward_zero ((2 : ℚ) ^ 31) = 2 ^ 31 by decide!] at this
      exact this
    rw [abs_le] at core
    omega
  have e2 : -(2 ^ 31 : ℚ) - 1 < round_double (y / r) := by
    by_contra hc
    rw [not_lt] at hc
    have h3 : trunc_toward_zero (round_double (y / r)) ≤ -(2 : ℤ) ^ 31 - 1 := by
      have := trunc_mono hc
      rw [show trunc_toward_zero (-(2 : ℚ) ^ 31 - 1) = -2 ^ 31 - 1 by decide!] at this
      exact this
    rw [abs_le] at core
    omega
  rw [static_cast_int_of_range e2 e1]
  exact core

theorem key_mem_nine_keys {env : G} {r : ℚ} {u v : Int} (hr : 0 < r) (hgeo : Geometric env r)
    (hdr : IsDouble r) (hin : KeyInside (u_key env r u))
    (hdu : DoublePoint (env.get_u_point u)) (hdv : DoublePoint (env.get_v_point v))
    (h : env.distance u v ≤ r) :
    get_v_key env r v ∈ nine_keys (u_key env r u).1 (u_key env r u).2 := by
  obtain ⟨h1, h2⟩ := hgeo u v h
  exact mem_nine_keys (key_component_close hr hdr hdu.1 hdv.1 hin.1 h1)
    (key_component_close hr hdr hdu.2 hdv.2 hin.2 h2)

theorem key_mem_u_block {env : G} {r : ℚ} {u v : Int} (hr : 0 < r) (hgeo : Geometric env r)
    (hdr : IsDouble r) (hin : KeyInside (u_key env r u))
    (hdu : DoublePoint (env.get_u_point u)) (hdv : DoublePoint (env.get_v_point v))
    (h : env.distance u v ≤ r) :
    get_v_key env r v ∈ u_block env r u := by
  unfold u_block
  rw [block_keys_eq_nine hin]
  exact key_mem_nine_keys hr hgeo hdr hin hdu hdv h

theorem pull_near_complete {env : G} {r : ℚ} {g : Grid} {u v : Int} (hr : 0 < r)
    (hok : GridOk env r g) (hgeo : Geometric env r) (hdr : IsDouble r)
    (hin : KeyInside (u_key env r u)) (hdu : DoublePoint (env.get_u_point u))
    (hdv : DoublePoint (env.get_v_point v))
    (hv : Stored g v) (hd : env.distance u v ≤ r) :
    (pull_near env r g u).1 ≠ env.null_point_index := by
  rcases pull_near_cases env r g u with ⟨a, e, b, h1, h2, _⟩ | ⟨_, h2⟩
  · rw [h2]
    exact hok.2.2 e (h1 ▸ List.mem_append_right _ (List.mem_cons_self e b))
  · exfalso
    obtain ⟨e, he, hev⟩ := stored_iff.1 hv
    have hk : e.1 = get_v_key env r v := by rw [hok.2.1.1 e he, hev]
    have hn := h2 e.1 (hk ▸ key_mem_u_block hr hgeo hdr hin hdu hdv hd) e (mem_find_snd he rfl)
    rw [near, hev] at hn
    simp only [decide_eq_false_iff_not] at hn
    exact hn hd

end Geometry

/-! ## First fit: the scan to the end of the grid against the scan of the nine buckets -/

section FirstFit

open Naive_pnf

theorem dropWhile_head_false {p : Entry → Bool} {h : Entry} {t : Grid} :
    ∀ {l : Grid}, l.dropWhile p = h :: t → p h = false
  | [], hs => by cases hs
  | x :: l, hs => by
    by_cases hx : p x = true
    · rw [List.dropWhile_cons_of_pos hx] at hs
      exact dropWhile_head_false hs
    · rw [List.dropWhile_cons_of_neg hx] at hs
      cases hs
      simpa using hx

theorem find_snd_head {g : Grid} {k : Key} {h : Entry} {t : Grid}
    (hs : (find g k).2 = h :: t) : h.1 = k := by
  have h1 := dropWhile_head_false hs
  simpa using h1

theorem nine_keys_increasing (i0 j0 : Int) :
    (nine_keys i0 j0).Pairwise (fun a b => key_lt a b = true) := by
  simp [nine_keys, key_lt]
  omega

/-- The scan of `pull_near_keys` over increasing keys that cover every element within `r` finds
the first element of the whole grid that is within `r`. -/
theorem pull_near_keys_first {env : G} {r : ℚ} {u : Int} {g : Grid} (hs : GridSorted g) :
    ∀ ks : List Key, ks.Pairwise (fun a b => key_lt a b = true) →
      (∀ x ∈ g, near env r u x = true → x.1 ∈ ks) →
      (∃ a e b, g = a ++ e :: b ∧ (∀ x ∈ a, near env r u x = false) ∧ near env r u e = true ∧
        pull_near_keys env r u g ks = (e.2, a ++ b)) ∨
      ((∀ x ∈ g, near env r u x = false) ∧
        pull_near_keys env r u g ks = (env.null_point_index, g))
  | [], _, hcov => by
    refine Or.inr ⟨?_, rfl⟩
    intro x hx
    rw [← Bool.not_eq_true]
    intro hn
    cases hcov x hx hn
  | k :: ks, hinc, hcov => by
    rw [List.pairwise_cons] at hinc
    cases hsc : scan_erase (near env r u) (find g k).2 with
    | none =>
      rw [pull_near_keys_cons_none ks hsc]
      apply pull_near_keys_first hs ks hinc.2
      intro x hx hn
      rcases List.mem_cons.1 (hcov x hx hn) with hk | hk
      · have := scan_erase_none.1 hsc x (mem_find_snd hx hk)
        rw [hn] at this
        cases this
      · exact hk
    | some res =>
      obtain ⟨e, rest⟩ := res
      rw [pull_near_keys_cons_some ks hsc]
      obtain ⟨a, b, h1, h2, h3, h4⟩ := scan_erase_some hsc
      have hg : g = (find g k).1 ++ (a ++ e :: b) := by rw [← h1, find_append]
      refine Or.inl ⟨(find g k).1 ++ a, e, b, ?_, ?_, h3, ?_⟩
      · rw [List.append_assoc]
        exact hg
      · intro x hx
        rcases List.mem_append.1 hx with hx | hx
        · rw [← Bool.not_eq_true]
          intro hn
          have hxg : x ∈ g := by
            rw [← find_append g k]
            exact List.mem_append_left _ hx
          have hxk : x.1 ∈ ks := by
            rcases List.mem_cons.1 (hcov x hxg hn) with hk | hk
            · exact absurd hk (find_fst_key hx)
            · exact hk
          have hlt := hinc.1 x.1 hxk
          obtain ⟨h, t, hht⟩ : ∃ h t, (find g k).2 = h :: t := by
            rw [h1]
            cases a with
            | nil => exact ⟨e, b, rfl⟩
            | cons y a' => exact ⟨y, a' ++ e :: b, rfl⟩
          have hhk := find_snd_head hht
          unfold GridSorted at hs
          rw [← find_append g k, List.pairwise_append] at hs
          have := hs.2.2 x hx h (hht ▸ List.mem_cons_self h t)
          rw [hhk, hlt] at this
          cases this
        · exact h4 x hx
      · rw [h2, List.append_assoc]

theorem find_bucket_skip {p : Entry → Bool} {x : Entry} (hx : p x = false) (g : Grid) :
    ∀ ks : List Key, (ks.flatMap (bucket (x :: g))).find? p = (ks.flatMap (bucket g)).find? p
  | [] => rfl
  | k :: ks => by
    rw [List.flatMap_cons, List.flatMap_cons, List.find?_append, List.find?_append,
      find_bucket_skip hx g ks]
    congr 1
    unfold bucket
    by_cases hk : x.1 = k
    · rw [List.filter_cons_of_pos (by simpa using hk), List.find?_cons_of_neg _ (by simp [hx])]
    · rw [List.filter_cons_of_neg (by simpa using hk)]

theorem find_bucket_head {p : Entry → Bool} {x : Entry} (hx : p x = true) {g : Grid}
    (hg : ∀ y ∈ g, key_lt y.1 x.1 = false) :
    ∀ ks : List Key, ks.Pairwise (fun a b => key_lt a b = true) → x.1 ∈ ks →
      (ks.flatMap (bucket (x :: g))).find? p = some x
  | [], _, hm => by cases hm
  | k :: ks, hinc, hm => by
    rw [List.pairwise_cons] at hinc
    rw [List.flatMap_cons, List.find?_append]
    by_cases hk : x.1 = k
    · unfold bucket
      rw [List.filter_cons_of_pos (by simpa using hk), List.find?_cons_of_pos _ hx]
      rfl
    · have hm' : x.1 ∈ ks := by
        rcases List.mem_cons.1 hm with h | h
        · exact absurd h hk
        · exact h
      have hlt := hinc.1 x.1 hm'
      have hempty : bucket (x :: g) k = [] := by
        unfold bucket
        rw [List.filter_eq_nil_iff]
        intro y hy
        rcases List.mem_cons.1 hy with rfl | hy
        · simpa using hk
        · have h1 := hg y hy
          have : y.1 ≠ k := by
            intro hyk
            rw [hyk, hlt] at h1
            cases h1
          simpa using this
      rw [hempty, List.find?_nil, Option.none_or]
      exact find_bucket_head hx hg ks hinc.2 hm'

theorem find_buckets_nil (p : Entry → Bool) :
    ∀ ks : List Key, (ks.flatMap (bucket [])).find? p = none
  | [] => rfl
  | k :: ks => by
    rw [List.flatMap_cons, List.find?_append, find_buckets_nil p ks]
    rfl

/-- Over increasing keys that cover every element satisfying `p`, the first such element of the
buckets visited in turn is the first such element of the ordered grid. -/
theorem find_buckets_eq {p : Entry → Bool} {ks : List Key}
    (hinc : ks.Pairwise (fun a b => key_lt a b = true)) :
    ∀ g : Grid, GridSorted g → (∀ x ∈ g, p x = true → x.1 ∈ ks) →
      (ks.flatMap (bucket g)).find? p = g.find? p
  | [], _, _ => find_buckets_nil p ks
  | x :: g, hs, hcov => by
    unfold GridSorted at hs
    rw [List.pairwise_cons] at hs
    cases hx : p x with
    | true =>
      rw [List.find?_cons_of_pos _ hx]
      exact find_bucket_head hx hs.1 ks hinc (hcov x (List.mem_cons_self x g) hx)
    | false =>
      rw [List.find?_cons_of_neg _ (by simp [hx]), find_bucket_skip hx g ks]
      exact find_buckets_eq hinc g hs.2 (fun y hy => hcov y (List.mem_cons_of_mem x hy))

theorem near_mem_block {env : G} {r : ℚ} {g : Grid} {u : Int} (hr : 0 < r)
    (hkey : ∀ e ∈ g, e.1 = get_v_key env r e.2) (hgeo : Geometric env r) (hdr : IsDouble r)
    (hin : KeyInside (u_key env r u)) (hdu : DoublePoint (env.get_u_point u))
    (hdv : ∀ e ∈ g, DoublePoint (env.get_v_point e.2)) :
    ∀ x ∈ g, near env r u x = true → x.1 ∈ nine_keys (u_key env r u).1 (u_key env r u).2 := by
  intro x hx hn
  rw [hkey x hx]
  exact key_mem_nine_keys hr hgeo hdr hin hdu (hdv x hx) (by simpa [near] using hn)

theorem pull_near_eq_first_fit {env : G} {r : ℚ} {g : Grid} (u : Int) (hr : 0 < r)
    (hs : GridSorted g) (hkey : ∀ e ∈ g, e.1 = get_v_key env r e.2) (hgeo : Geometric env r)
    (hdr : IsDouble r) (hin : KeyInside (u_key env r u))
    (hdu : DoublePoint (env.get_u_point u))
    (hdv : ∀ e ∈ g, DoublePoint (env.get_v_point e.2)) :
    pull_near env r g u = pull_near_first_fit env r g u := by
  have hcov := near_mem_block (u := u) hr hkey hgeo hdr hin hdu hdv
  have hfind := find_buckets_eq (p := near env r u) (nine_keys_increasing _ _) g hs hcov
  have hp : pull_near env r g u =
      pull_near_keys env r u g (nine_keys (u_key env r u).1 (u_key env r u).2) := by
    rw [← block_keys_eq_nine hin]
    rfl
  unfold pull_near_first_fit block_entries
  rw [hfind, hp]
  rcases pull_near_keys_first hs _ (nine_keys_increasing _ _) hcov with
    ⟨a, e, b, h1, h2, h3, h4⟩ | ⟨h1, h2⟩
  · have hf : g.find? (near env r u) = some e := by
      rw [h1, List.find?_append, List.find?_eq_none.2 (fun x hx => by simp [h2 x hx]),
        Option.none_or, List.find?_cons_of_pos _ h3]
    have hea : e ∉ a := fun hea => by
      rw [h2 e hea] at h3
      cases h3
    have her : g.erase e = a ++ b := by
      rw [h1, List.erase_append_right _ hea, List.erase_cons_head]
    rw [hf]
    simp only [her]
    exact h4
  · have hf : g.find? (near env r u) = none :=
      List.find?_eq_none.2 (fun x hx => by simp [h1 x hx])
    rw [hf]
    exact h2

end FirstFit

/-! ## Consequences for `pull_all_near` -/

section Exhaustion

open Naive_pnf

theorem pull_near_sound {env : G} {r : ℚ} {g : Grid} {u : Int}
    (h : (pull_near env r g u).1 ≠ env.null_point_index) :
    Stored g (pull_near env r g u).1 ∧ env.distance u (pull_near env r g u).1 ≤ r := by
  rcases pull_near_cases env r g u with ⟨a, e, b, h1, h2, h3⟩ | ⟨h1, _⟩
  · rw [h2]
    refine ⟨stored_iff.2 ⟨e, h1 ▸ List.mem_append_right _ (List.mem_cons_self e b), rfl⟩, ?_⟩
    simpa [near] using h3
  · rw [h1] at h
    exact absurd rfl h

theorem pull_near_nullfree {env : G} {r : ℚ} {g : Grid} (u : Int) (h : NullFree env g) :
    NullFree env (pull_near env r g u).2 := by
  rcases pull_near_cases env r g u with ⟨a, e, b, h1, h2, _⟩ | ⟨h1, _⟩
  · rw [h2]
    intro x hx
    apply h x
    rw [h1]
    rcases List.mem_append.1 hx with hx | hx
    · exact List.mem_append_left _ hx
    · exact List.mem_append_right _ (List.mem_cons_of_mem _ hx)
  · rw [h1]
    exact h

theorem calls_after_nullfree {env : G} {r : ℚ} {g : Grid} (u : Int) (h : NullFree env g) :
    ∀ n, NullFree env (calls_after (fun g => pull_near env r g u) n g)
  | 0 => h
  | n + 1 => pull_near_nullfree u (calls_after_nullfree u h n)

theorem pull_near_null_unchanged {env : G} {r : ℚ} {g : Grid} {u : Int} (h : NullFree env g)
    (hn : (pull_near env r g u).1 = env.null_point_index) : (pull_near env r g u).2 = g := by
  rcases pull_near_cases env r g u with ⟨a, e, b, h1, h2, _⟩ | ⟨h1, _⟩
  · rw [h2] at hn
    exact absurd hn (h e (h1 ▸ List.mem_append_right _ (List.mem_cons_self e b)))
  · rw [h1]

theorem contains_iff_stored {env : G} {r : ℚ} {g : Grid} (h : GridOk env r g) (p : Int) :
    contains env r g p = true ↔ Stored g p := by
  constructor
  · exact fun hc => (contains_stored hc).2
  · intro hs
    obtain ⟨e, he, hep⟩ := stored_iff.1 hs
    exact contains_of_stored h.2.1.1 (hep ▸ h.2.2 e he) hs

theorem call_results_nodup {env : G} {r : ℚ} {g : Grid} (u : Int) (h : GridOk env r g) :
    ∀ n, (∀ i, i < n → call_result (fun g => pull_near env r g u) i g ≠ env.null_point_index) →
      (call_results (fun g => pull_near env r g u) n g).Nodup
  | 0, _ => by simp [call_results]
  | n + 1, hn => by
    rw [call_results_succ, List.nodup_append]
    refine ⟨call_results_nodup u h n (fun i hi => hn i (Nat.lt_succ_of_lt hi)),
      List.nodup_singleton _, ?_⟩
    intro x hx hx'
    rw [List.mem_singleton] at hx'
    subst hx'
    have h1 := (pull_near_sound (hn n (Nat.lt_succ_self n))).1
    exact ((calls_after_stored u h _ n).1 h1).2 hx

end Exhaustion

/-! ## The claims of the specification -/

section TestData

theorem diagG_geometric (r : ℚ) : Geometric diagG r := by
  intro u v h
  exact max_le_iff.1 h

theorem bigG_geometric (r : ℚ) : Geometric bigG r := by
  intro u v h
  exact max_le_iff.1 h

theorem decimalG_geometric (r : ℚ) : Geometric decimalG r := by
  intro u v h
  exact max_le_iff.1 h

theorem isDouble_one : IsDouble 1 := ⟨1, 0, by norm_num, by norm_num⟩

theorem isDouble_int {n : Int} (h : |n| < 2 ^ 53) : IsDouble (n : ℚ) := ⟨n, 0, h, by simp⟩

theorem diagG_double {n : Int} (h : |n| < 2 ^ 53) :
    DoublePoint (diagG.get_u_point n) ∧ DoublePoint (diagG.get_v_point n) :=
  ⟨⟨isDouble_int h, isDouble_int h⟩, isDouble_int h, isDouble_int h⟩

/-- The V points of the grid used in the examples are doubles. -/
theorem diagG_grid_double :
    ∀ e ∈ [(((0, 0), 0) : Entry), ((3, 3), 3), ((5, 5), 5)],
      DoublePoint (diagG.get_v_point e.2) := by
  intro e he
  simp only [List.mem_cons, List.mem_singleton, List.not_mem_nil, or_false] at he
  rcases he with rfl | rfl | rfl <;> exact (diagG_double (by decide)).2

end TestData

/-- C1: in every session reached from the empty grid by `add` (of a non-null index that is not
currently registered), `remove`, `pull_near` and `pull_all_near`, and for every non-null V index
`p`, `contains(p)` is true if and only if `p` is registered: it has been added and has not since
been removed by `remove(p)` or returned by a pull. -/
theorem C1_contains_iff_registered (env : G) (r : ℚ) (ops : List Op) (s : Session) (p : Int)
    (hrun : Session.run env r Session.empty ops = some s) (hp : p ≠ env.null_point_index) :
    Naive_pnf.contains env r s.grid p = true ↔ p ∈ s.registered := by
  obtain ⟨hok, hreg⟩ := run_inv ops (empty_inv env r) hrun
  rw [hreg p]
  exact ⟨fun h => (contains_stored h).2, fun h => contains_of_stored hok.2.1.1 hp h⟩

theorem C1_contains_iff_registered_witness :
    Session.run diagG 1 Session.empty
        [Op.add 5, Op.add 0, Op.add 3, Op.pull_near 4, Op.remove 0, Op.add 7,
          Op.pull_all_near 8, Op.add 0] = some ⟨[((0, 0), 0), ((5, 5), 5)], [0, 5]⟩ ∧
      (5 : Int) ≠ diagG.null_point_index ∧
      (Naive_pnf.contains diagG 1 [((0, 0), 0), ((5, 5), 5)] 5 = true ↔ (5 : Int) ∈ [0, 5]) :=
  ⟨by decide!, by decide,
    C1_contains_iff_registered diagG 1
      [Op.add 5, Op.add 0, Op.add 3, Op.pull_near 4, Op.remove 0, Op.add 7,
        Op.pull_all_near 8, Op.add 0] ⟨[((0, 0), 0), ((5, 5), 5)], [0, 5]⟩ 5
      (by decide!) (by decide)⟩

/-- C2: radius soundness of `pull_near`. For every grid, every U index and every distance
function, an index different from the null index returned by `pull_near(u)` was stored in the
grid before the call and is within distance `r` of `u`; and `pull_near` on the empty grid
returns the null index. -/
theorem C2_pull_near_sound (env : G) (r : ℚ) :
    (∀ (g : Grid) (u : Int), (Naive_pnf.pull_near env r g u).1 ≠ env.null_point_index →
      Stored g (Naive_pnf.pull_near env r g u).1 ∧
        env.distance u (Naive_pnf.pull_near env r g u).1 ≤ r) ∧
    ∀ u : Int, (Naive_pnf.pull_near env r [] u).1 = env.null_point_index := by
  constructor
  · intro g u h
    rcases pull_near_cases env r g u with ⟨a, e, b, h1, h2, h3⟩ | ⟨h1, _⟩
    · rw [h2]
      refine ⟨stored_iff.2 ⟨e, h1 ▸ List.mem_append_right _ (List.mem_cons_self e b), rfl⟩, ?_⟩
      simpa [Naive_pnf.near] using h3
    · rw [h1] at h
      exact absurd rfl h
  · intro u
    rcases pull_near_cases env r [] u with ⟨a, e, b, h1, _, _⟩ | ⟨h1, _⟩
    · cases a <;> cases h1
    · rw [h1]

theorem C2_pull_near_sound_witness :
    (Naive_pnf.pull_near diagG 1 [((0, 0), 0), ((3, 3), 3), ((5, 5), 5)] 4).1
        ≠ diagG.null_point_index ∧
      Stored [((0, 0), 0), ((3, 3), 3), ((5, 5), 5)]
        (Naive_pnf.pull_near diagG 1 [((0, 0), 0), ((3, 3), 3), ((5, 5), 5)] 4).1 ∧
      diagG.distance 4
        (Naive_pnf.pull_near diagG 1 [((0, 0), 0), ((3, 3), 3), ((5, 5), 5)] 4).1 ≤ 1 :=
  ⟨by decide!,
    (C2_pull_near_sound diagG 1).1 [((0, 0), 0), ((3, 3), 3), ((5, 5), 5)] 4
      (by decide!)⟩

/-- C3, the statement of the specification fails at the upper end of the range of `int`: with
`r = 1`, the U point of abscissa `2147483647.25` and the V point of index `1`, of abscissa
`2147483647.75`, registered by one call of `add` and at distance `1 / 2`, the key of the U point
is `(2147483647, 0)`, the bound `i0 + 1` of the outer loop overflows to `INT_MIN`, no key is
visited, and `pull_near` returns the null index. -/
theorem C3_counterexample :
    (0 : ℚ) < 1 ∧ IsDouble 1 ∧ DoublePoint (bigG.get_u_point 0) ∧
      DoublePoint (bigG.get_v_point 1) ∧
      Reachable bigG 1 [((2147483647, 0), 1)] ∧ Geometric bigG 1 ∧
      Naive_pnf.contains bigG 1 [((2147483647, 0), 1)] 1 = true ∧
      bigG.distance 0 1 = 1 / 2 ∧
      Naive_pnf.u_key bigG 1 0 = (2147483647, 0) ∧ Naive_pnf.u_block bigG 1 0 = [] ∧
      (Naive_pnf.pull_near bigG 1 [((2147483647, 0), 1)] 0).1 = bigG.null_point_index :=
  ⟨by norm_num, isDouble_one,
    ⟨⟨8589934589, -2, by norm_num, by norm_num [bigG]⟩, ⟨0, 0, by norm_num, by norm_num [bigG]⟩⟩,
    ⟨⟨8589934591, -2, by norm_num, by norm_num [bigG]⟩, ⟨0, 0, by norm_num, by norm_num [bigG]⟩⟩,
    ⟨[Op.add 1], [1], by decide!⟩, bigG_geometric 1, by decide!, by decide!, by decide!,
    by decide!, by decide!⟩

/-- C3, amended: completeness of `pull_near` away from the ends of the range of `int`. For
doubles `r > 0` and coordinates, a reachable grid, a distance for which being within `r` bounds
both coordinate differences by `r`, and a U point whose key `(i0, j0)` lets no `int` operation
of `pull_near` overflow: whenever some registered V point `v` is within `r` of `u`,
`pull_near(u)` returns an index different from the null index; so the null index is returned
only if no registered V point is within `r` of `u`. -/
theorem C3_pull_near_complete (env : G) (r : ℚ) (g : Grid) (u : Int) (hr : 0 < r)
    (hdr : IsDouble r) (hg : Reachable env r g) (hgeo : Geometric env r)
    (hsafe : KeySafe (Naive_pnf.u_key env r u)) (hdu : DoublePoint (env.get_u_point u))
    (hdv : ∀ e ∈ g, DoublePoint (env.get_v_point e.2)) :
    ((∃ v, Naive_pnf.contains env r g v = true ∧ env.distance u v ≤ r) →
      (Naive_pnf.pull_near env r g u).1 ≠ env.null_point_index) ∧
    ((Naive_pnf.pull_near env r g u).1 = env.null_point_index →
      ∀ v, Naive_pnf.contains env r g v = true → ¬ env.distance u v ≤ r) := by
  have key : ∀ v, Naive_pnf.contains env r g v = true → env.distance u v ≤ r →
      (Naive_pnf.pull_near env r g u).1 ≠ env.null_point_index := by
    intro v hv hd
    obtain ⟨e, he, hev⟩ := stored_iff.1 (contains_stored hv).2
    exact pull_near_complete hr (reachable_ok hg) hgeo hdr (keySafe_inside hsafe) hdu
      (hev ▸ hdv e he) (contains_stored hv).2 hd
  exact ⟨fun ⟨v, hv, hd⟩ => key v hv hd, fun hn v hv hd => key v hv hd hn⟩

theorem C3_pull_near_complete_witness :
    (0 : ℚ) < 1 ∧ IsDouble 1 ∧ Reachable diagG 1 [((0, 0), 0), ((3, 3), 3), ((5, 5), 5)] ∧
      Geometric diagG 1 ∧ KeySafe (Naive_pnf.u_key diagG 1 4) ∧
      DoublePoint (diagG.get_u_point 4) ∧
      (∀ e ∈ [(((0, 0), 0) : Entry), ((3, 3), 3), ((5, 5), 5)],
        DoublePoint (diagG.get_v_point e.2)) ∧
      (∃ v, Naive_pnf.contains diagG 1 [((0, 0), 0), ((3, 3), 3), ((5, 5), 5)] v = true ∧
        diagG.distance 4 v ≤ 1) ∧
      (Naive_pnf.pull_near diagG 1 [((0, 0), 0), ((3, 3), 3), ((5, 5), 5)] 4).1
        ≠ diagG.null_point_index :=
  ⟨by norm_num, isDouble_one, ⟨[Op.add 5, Op.add 0, Op.add 3], [3, 0, 5], by decide!⟩,
    diagG_geometric 1, by unfold KeySafe; decide!, (diagG_double (by decide)).1,
    diagG_grid_double, ⟨5, by decide!, by decide!⟩,
    (C3_pull_near_complete diagG 1 [((0, 0), 0), ((3, 3), 3), ((5, 5), 5)] 4 (by norm_num)
      isDouble_one ⟨[Op.add 5, Op.add 0, Op.add 3], [3, 0, 5], by decide!⟩
      (diagG_geometric 1) (by unfold KeySafe; decide!) (diagG_double (by decide)).1
      diagG_grid_double).1
      ⟨5, by decide!, by decide!⟩⟩

/-- C4: pull removes. In every reachable grid and for every U index `u`, if `pull_near(u)`
returns an index `p` different from the null index, then `contains(p)` is false in the grid
after the call. -/
theorem C4_pull_removes (env : G) (r : ℚ) (g : Grid) (u : Int) (hg : Reachable env r g)
    (_hp : (Naive_pnf.pull_near env r g u).1 ≠ env.null_point_index) :
    Naive_pnf.contains env r (Naive_pnf.pull_near env r g u).2
      (Naive_pnf.pull_near env r g u).1 = false := by
  rw [← Bool.not_eq_true]
  intro hc
  exact ((pull_near_stored u (reachable_ok hg) _).1 (contains_stored hc).2).2 rfl

theorem C4_pull_removes_witness :
    Reachable diagG 1 [((0, 0), 0), ((3, 3), 3), ((5, 5), 5)] ∧
      (Naive_pnf.pull_near diagG 1 [((0, 0), 0), ((3, 3), 3), ((5, 5), 5)] 4).1
        ≠ diagG.null_point_index ∧
      Naive_pnf.contains diagG 1
        (Naive_pnf.pull_near diagG 1 [((0, 0), 0), ((3, 3), 3), ((5, 5), 5)] 4).2
        (Naive_pnf.pull_near diagG 1 [((0, 0), 0), ((3, 3), 3), ((5, 5), 5)] 4).1 = false :=
  ⟨⟨[Op.add 5, Op.add 0, Op.add 3], [3, 0, 5], by decide!⟩,
    by decide!,
    C4_pull_removes diagG 1 [((0, 0), 0), ((3, 3), 3), ((5, 5), 5)] 4
      ⟨[Op.add 5, Op.add 0, Op.add 3], [3, 0, 5], by decide!⟩
      (by decide!)⟩

/-- C5, the statement of the specification fails at a grid built by two calls of `add`: with a
distance that puts only the V point of index `5` within `r`, the call `pull_near(0)` returns
`5`, stored under the key `(5, 5)` outside the block around `(0, 0)`, although no element of the
nine buckets is within `r`, so that the first-fit search confined to the block returns the null
index. -/
theorem C5_counterexample :
    Reachable farG 1 [((1, 1), 1), ((5, 5), 5)] ∧
      Naive_pnf.pull_near farG 1 [((1, 1), 1), ((5, 5), 5)] 0 = (5, [((1, 1), 1)]) ∧
      (((5, 5), 5) : Entry) ∈ [(((1, 1), 1) : Entry), ((5, 5), 5)] ∧
      Naive_pnf.u_key farG 1 0 = (0, 0) ∧
      ((5, 5) : Key) ∉ Naive_pnf.u_block farG 1 0 ∧
      pull_near_first_fit farG 1 [((1, 1), 1), ((5, 5), 5)] 0
        = (farG.null_point_index, [((1, 1), 1), ((5, 5), 5)]) :=
  ⟨⟨[Op.add 5, Op.add 1], [1, 5], by decide!⟩,
    by decide!, by decide, by decide!, by decide!,
    by decide!⟩

/-- C5, amended: for doubles `r > 0` and coordinates, a grid ordered by key whose elements are
each stored under the key of their own coordinates, a distance for which being within `r`
bounds both coordinate differences by `r`, and a U point whose key `(i0, j0)` lets no `int`
operation of `pull_near` overflow: the keys visited are the nine keys around `(i0, j0)`,
row-major; `pull_near(u)` returns and erases the first element within `r` when the nine buckets
are visited in that order and each bucket in storage order, returns the null index and leaves
the grid unchanged when no element of the nine buckets is within `r`, and when it erases an
element the index returned is stored under keys of the block only. -/
theorem C5_first_fit_in_block (env : G) (r : ℚ) (g : Grid) (u : Int) (hr : 0 < r)
    (hdr : IsDouble r) (hs : GridSorted g)
    (hkey : ∀ e ∈ g, e.1 = Naive_pnf.get_v_key env r e.2) (hgeo : Geometric env r)
    (hsafe : KeySafe (Naive_pnf.u_key env r u)) (hdu : DoublePoint (env.get_u_point u))
    (hdv : ∀ e ∈ g, DoublePoint (env.get_v_point e.2)) :
    Naive_pnf.u_block env r u
      = nine_keys (Naive_pnf.u_key env r u).1 (Naive_pnf.u_key env r u).2 ∧
    Naive_pnf.pull_near env r g u = pull_near_first_fit env r g u ∧
    ((Naive_pnf.pull_near env r g u).2 ≠ g →
      ∀ e ∈ g, e.2 = (Naive_pnf.pull_near env r g u).1 →
        e.1 ∈ nine_keys (Naive_pnf.u_key env r u).1 (Naive_pnf.u_key env r u).2) := by
  have hin := keySafe_inside hsafe
  refine ⟨block_keys_eq_nine hin, pull_near_eq_first_fit u hr hs hkey hgeo hdr hin hdu hdv, ?_⟩
  intro hne e he hep
  rcases pull_near_cases env r g u with ⟨a, x, b, h1, h2, h3⟩ | ⟨h1, _⟩
  · rw [h2] at hep
    rw [hkey e he, hep]
    exact key_mem_nine_keys hr hgeo hdr hin hdu
      (hdv x (h1 ▸ List.mem_append_right _ (List.mem_cons_self x b)))
      (by simpa [Naive_pnf.near] using h3)
  · rw [h1] at hne
    exact absurd rfl hne

theorem C5_first_fit_in_block_witness :
    (0 : ℚ) < 1 ∧ IsDouble 1 ∧ GridSorted [((0, 0), 0), ((3, 3), 3), ((5, 5), 5)] ∧
      (∀ e ∈ [(((0, 0), 0) : Entry), ((3, 3), 3), ((5, 5), 5)],
        e.1 = Naive_pnf.get_v_key diagG 1 e.2) ∧
      Geometric diagG 1 ∧ KeySafe (Naive_pnf.u_key diagG 1 4) ∧
      DoublePoint (diagG.get_u_point 4) ∧
      (∀ e ∈ [(((0, 0), 0) : Entry), ((3, 3), 3), ((5, 5), 5)],
        DoublePoint (diagG.get_v_point e.2)) ∧
      Naive_pnf.pull_near diagG 1 [((0, 0), 0), ((3, 3), 3), ((5, 5), 5)] 4
        = pull_near_first_fit diagG 1 [((0, 0), 0), ((3, 3), 3), ((5, 5), 5)] 4 :=
  ⟨by norm_num, isDouble_one, by unfold GridSorted; decide, by decide!, diagG_geometric 1,
    by unfold KeySafe; decide!, (diagG_double (by decide)).1, diagG_grid_double,
    (C5_first_fit_in_block diagG 1 [((0, 0), 0), ((3, 3), 3), ((5, 5), 5)] 4 (by norm_num)
      isDouble_one (by unfold GridSorted; decide) (by decide!) (diagG_geometric 1)
      (by unfold KeySafe; decide!) (diagG_double (by decide)).1 diagG_grid_double).2.1⟩

/-- C6, the statement of the specification fails at a grid that stores the null index: with
the constant distance `0` and the grid holding the null index `-1` and the index `0`,
`pull_near(0)` erases the element of the null index and returns it, so `pull_all_near(0)`
returns the empty list at once, leaving the element of index `0`; the `pull_near(0)` issued
immediately afterwards returns `0`, not the null index. -/
theorem C6_counterexample :
    [(((-1, -1), -1) : Entry), ((0, 0), 0)]
        = Naive_pnf.add flatG 1 (Naive_pnf.add flatG 1 [] 0) (-1) ∧
      flatG.null_point_index = -1 ∧
      Naive_pnf.pull_all_near flatG 1 [((-1, -1), -1), ((0, 0), 0)] 0
        = some ([], [((0, 0), 0)]) ∧
      Naive_pnf.pull_near flatG 1 [((0, 0), 0)] 0 = (0, []) ∧
      (Naive_pnf.pull_near flatG 1 [((0, 0), 0)] 0).1 ≠ flatG.null_point_index :=
  ⟨by decide!, rfl, by decide!, by decide!, by decide!⟩

/-- C6, amended: `pull_all_near` is iterated `pull_near`. For every grid and U index `u` the
call returns, and for some `n`: the list returned is the results of the first `n` successive
calls of `pull_near(u)`, in order, all different from the null index; its length is `n`; call
number `n + 1` returns the null index; the grid after `pull_all_near` is the grid after those
`n + 1` calls; and, when the grid holds no null index, a `pull_near(u)` issued afterwards
returns the null index. -/
theorem C6_pull_all_near_iterates (env : G) (r : ℚ) (g : Grid) (u : Int) :
    ∃ n, Naive_pnf.pull_all_near env r g u
        = some (call_results (fun g => Naive_pnf.pull_near env r g u) n g,
            calls_after (fun g => Naive_pnf.pull_near env r g u) (n + 1) g) ∧
      (call_results (fun g => Naive_pnf.pull_near env r g u) n g).length = n ∧
      (∀ i, i < n →
        call_result (fun g => Naive_pnf.pull_near env r g u) i g ≠ env.null_point_index) ∧
      call_result (fun g => Naive_pnf.pull_near env r g u) n g = env.null_point_index ∧
      (NullFree env g →
        (Naive_pnf.pull_near env r
          (calls_after (fun g => Naive_pnf.pull_near env r g u) (n + 1) g) u).1
          = env.null_point_index) := by
  obtain ⟨⟨ps, g'⟩, hres⟩ := pull_all_near_total env r g u
  obtain ⟨n, h1, h2, h3, h4⟩ := pull_all_near_spec _ _ _ _ _ _ hres
  refine ⟨n, ?_, call_results_length _ n g, h4, h3, ?_⟩
  · rw [hres, h1, h2]
  · intro hnf
    have hn := calls_after_nullfree (r := r) u hnf n
    have hu := pull_near_null_unchanged hn h3
    show (Naive_pnf.pull_near env r (Naive_pnf.pull_near env r
      (calls_after (fun g => Naive_pnf.pull_near env r g u) n g) u).2 u).1 = _
    rw [hu]
    exact h3

theorem C6_pull_all_near_iterates_witness :
    NullFree diagG [((0, 0), 0), ((3, 3), 3), ((5, 5), 5)] ∧
      ∃ n, Naive_pnf.pull_all_near diagG 1 [((0, 0), 0), ((3, 3), 3), ((5, 5), 5)] 4
          = some (call_results (fun g => Naive_pnf.pull_near diagG 1 g 4) n
              [((0, 0), 0), ((3, 3), 3), ((5, 5), 5)],
            calls_after (fun g => Naive_pnf.pull_near diagG 1 g 4) (n + 1)
              [((0, 0), 0), ((3, 3), 3), ((5, 5), 5)]) ∧
        (Naive_pnf.pull_near diagG 1
          (calls_after (fun g => Naive_pnf.pull_near diagG 1 g 4) (n + 1)
            [((0, 0), 0), ((3, 3), 3), ((5, 5), 5)]) 4).1 = diagG.null_point_index :=
  ⟨by unfold NullFree; decide,
    (C6_pull_all_near_iterates diagG 1 [((0, 0), 0), ((3, 3), 3), ((5, 5), 5)] 4).imp
      (fun _ h => ⟨h.1, h.2.2.2.2 (by unfold NullFree; decide)⟩)⟩

/-- C7, the statement of the specification fails at the upper end of the range of `int`: with
`r = 1`, the U point of abscissa `2147483647.25` and the registered V point of abscissa
`2147483647.75`, at distance `1 / 2`, `pull_all_near` returns the empty list and leaves the
point registered. -/
theorem C7_counterexample :
    (0 : ℚ) < 1 ∧ IsDouble 1 ∧ DoublePoint (bigG.get_u_point 0) ∧
      DoublePoint (bigG.get_v_point 1) ∧
      Reachable bigG 1 [((2147483647, 0), 1)] ∧ Geometric bigG 1 ∧
      Naive_pnf.contains bigG 1 [((2147483647, 0), 1)] 1 = true ∧
      bigG.distance 0 1 = 1 / 2 ∧
      Naive_pnf.pull_all_near bigG 1 [((2147483647, 0), 1)] 0
        = some ([], [((2147483647, 0), 1)]) :=
  ⟨by norm_num, isDouble_one,
    ⟨⟨8589934589, -2, by norm_num, by norm_num [bigG]⟩, ⟨0, 0, by norm_num, by norm_num [bigG]⟩⟩,
    ⟨⟨8589934591, -2, by norm_num, by norm_num [bigG]⟩, ⟨0, 0, by norm_num, by norm_num [bigG]⟩⟩,
    ⟨[Op.add 1], [1], by decide!⟩, bigG_geometric 1, by decide!, by decide!, by decide!⟩

/-- C7, amended: `pull_all_near` returns exactly the points in range, away from the ends of the
range of `int`. For doubles `r > 0` and coordinates, a reachable grid, a distance for which
being within `r` bounds both coordinate differences by `r`, and a U point whose key lets no
`int` operation of `pull_near` overflow, the call returns a list without repetition whose
members are exactly the registered V points within `r` of `u`; afterwards the registered points
are exactly the points registered before that are not within `r` of `u`, and the grid is empty
if every registered point was within `r` of `u`. -/
theorem C7_pull_all_near_exact (env : G) (r : ℚ) (g : Grid) (u : Int) (hr : 0 < r)
    (hdr : IsDouble r) (hg : Reachable env r g) (hgeo : Geometric env r)
    (hsafe : KeySafe (Naive_pnf.u_key env r u)) (hdu : DoublePoint (env.get_u_point u))
    (hdv : ∀ e ∈ g, DoublePoint (env.get_v_point e.2)) :
    ∃ ps g', Naive_pnf.pull_all_near env r g u = some (ps, g') ∧ ps.Nodup ∧
      (∀ v, v ∈ ps ↔ Naive_pnf.contains env r g v = true ∧ env.distance u v ≤ r) ∧
      (∀ v, Naive_pnf.contains env r g' v = true ↔
        Naive_pnf.contains env r g v = true ∧ ¬ env.distance u v ≤ r) ∧
      ((∀ v, Naive_pnf.contains env r g v = true → env.distance u v ≤ r) → g' = []) := by
  have hok := reachable_ok hg
  obtain ⟨⟨ps, g'⟩, hres⟩ := pull_all_near_total env r g u
  obtain ⟨n, h1, h2, h3, h4⟩ := pull_all_near_spec _ _ _ _ _ _ hres
  obtain ⟨hok', hst⟩ := pull_all_near_grid hok hres
  have hmem : ∀ v, v ∈ ps ↔ Naive_pnf.contains env r g v = true ∧ env.distance u v ≤ r := by
    intro v
    rw [contains_iff_stored hok]
    constructor
    · intro hv
      rw [h1, mem_call_results] at hv
      obtain ⟨i, hi, hiv⟩ := hv
      have hs := pull_near_sound (h4 i hi)
      have hs1 : Stored (calls_after (fun g => Naive_pnf.pull_near env r g u) i g) v :=
        hiv ▸ hs.1
      have hs2 : env.distance u v ≤ r := hiv ▸ hs.2
      exact ⟨((calls_after_stored u hok v i).1 hs1).1, hs2⟩
    · rintro ⟨hv, hd⟩
      by_contra hn
      rw [h1] at hn
      have hs := (calls_after_stored u hok v n).2 ⟨hv, hn⟩
      obtain ⟨e, he, hev⟩ := stored_iff.1 hv
      exact pull_near_complete hr (calls_after_ok u hok n) hgeo hdr (keySafe_inside hsafe) hdu
        (hev ▸ hdv e he) hs hd h3
  have hafter : ∀ v, Naive_pnf.contains env r g' v = true ↔
      Naive_pnf.contains env r g v = true ∧ ¬ env.distance u v ≤ r := by
    intro v
    rw [contains_iff_stored hok', hst v]
    constructor
    · rintro ⟨hv, hn⟩
      have hc := (contains_iff_stored hok v).2 hv
      exact ⟨hc, fun hd => hn ((hmem v).2 ⟨hc, hd⟩)⟩
    · rintro ⟨hc, hd⟩
      exact ⟨(contains_iff_stored hok v).1 hc, fun hv => hd ((hmem v).1 hv).2⟩
  refine ⟨ps, g', hres, h1 ▸ call_results_nodup u hok n h4, hmem, hafter, ?_⟩
  intro hall
  cases hg' : g' with
  | nil => rfl
  | cons e t =>
    exfalso
    have hs : Stored g' e.2 := stored_iff.2 ⟨e, hg' ▸ List.mem_cons_self e t, rfl⟩
    have hc := (hafter e.2).1 ((contains_iff_stored hok' e.2).2 hs)
    exact hc.2 (hall e.2 hc.1)

theorem C7_pull_all_near_exact_witness :
    (0 : ℚ) < 1 ∧ IsDouble 1 ∧ Reachable diagG 1 [((0, 0), 0), ((3, 3), 3), ((5, 5), 5)] ∧
      Geometric diagG 1 ∧ KeySafe (Naive_pnf.u_key diagG 1 4) ∧
      DoublePoint (diagG.get_u_point 4) ∧
      (∀ e ∈ [(((0, 0), 0) : Entry), ((3, 3), 3), ((5, 5), 5)],
        DoublePoint (diagG.get_v_point e.2)) ∧
      ∃ ps g', Naive_pnf.pull_all_near diagG 1 [((0, 0), 0), ((3, 3), 3), ((5, 5), 5)] 4
          = some (ps, g') ∧ ps.Nodup ∧
        (∀ v, v ∈ ps ↔
          Naive_pnf.contains diagG 1 [((0, 0), 0), ((3, 3), 3), ((5, 5), 5)] v = true ∧
            diagG.distance 4 v ≤ 1) :=
  ⟨by norm_num, isDouble_one, ⟨[Op.add 5, Op.add 0, Op.add 3], [3, 0, 5], by decide!⟩,
    diagG_geometric 1, by unfold KeySafe; decide!, (diagG_double (by decide)).1,
    diagG_grid_double,
    (C7_pull_all_near_exact diagG 1 [((0, 0), 0), ((3, 3), 3), ((5, 5), 5)] 4 (by norm_num)
      isDouble_one ⟨[Op.add 5, Op.add 0, Op.add 3], [3, 0, 5], by decide!⟩
      (diagG_geometric 1) (by unfold KeySafe; decide!) (diagG_double (by decide)).1
      diagG_grid_double).imp
      (fun _ h => h.imp (fun _ h' => ⟨h'.1, h'.2.1, h'.2.2.1⟩))⟩

/-- C8: the grid invariant. In every reachable grid each element is stored under the key of its
own coordinates and no index is stored more than once; and each of the four operations preserves
this predicate: `add(p)` for `p` non-null and not currently registered, `remove`, `pull_near`,
and `pull_all_near` (which returns). -/
theorem C8_grid_invariant (env : G) (r : ℚ) :
    (∀ g, Reachable env r g → GridInv env r g) ∧
    (∀ g p, GridInv env r g → p ≠ env.null_point_index →
      Naive_pnf.contains env r g p = false → GridInv env r (Naive_pnf.add env r g p)) ∧
    (∀ g p, GridInv env r g → GridInv env r (Naive_pnf.remove env r g p)) ∧
    (∀ g u, GridInv env r g → GridInv env r (Naive_pnf.pull_near env r g u).2) ∧
    (∀ g u, GridInv env r g →
      ∃ ps g', Naive_pnf.pull_all_near env r g u = some (ps, g') ∧ GridInv env r g') := by
  refine ⟨fun g hg => (reachable_ok hg).2.1,
    fun g p h hp hc => add_inv h (not_stored_of_contains h hp hc),
    fun g p h => remove_inv p h, fun g u h => pull_near_inv u h, ?_⟩
  intro g u h
  obtain ⟨⟨ps, g'⟩, hres⟩ := pull_all_near_total env r g u
  obtain ⟨n, _, h2, _, _⟩ := pull_all_near_spec _ _ _ _ _ _ hres
  exact ⟨ps, g', hres, h2 ▸ calls_after_inv u h (n + 1)⟩

theorem C8_grid_invariant_witness :
    Reachable diagG 1 [((0, 0), 0), ((3, 3), 3), ((5, 5), 5)] ∧
      GridInv diagG 1 [((0, 0), 0), ((3, 3), 3), ((5, 5), 5)] ∧
      (4 : Int) ≠ diagG.null_point_index ∧
      Naive_pnf.contains diagG 1 [((0, 0), 0), ((3, 3), 3), ((5, 5), 5)] 4 = false ∧
      GridInv diagG 1 (Naive_pnf.add diagG 1 [((0, 0), 0), ((3, 3), 3), ((5, 5), 5)] 4) :=
  ⟨⟨[Op.add 5, Op.add 0, Op.add 3], [3, 0, 5], by decide!⟩,
    (C8_grid_invariant diagG 1).1 _
      ⟨[Op.add 5, Op.add 0, Op.add 3], [3, 0, 5], by decide!⟩,
    by decide, by decide!,
    (C8_grid_invariant diagG 1).2.1 _ 4
      ((C8_grid_invariant diagG 1).1 _
        ⟨[Op.add 5, Op.add 0, Op.add 3], [3, 0, 5], by decide!⟩)
      (by decide) (by decide!)⟩

/-- C9: registration and removal symmetry. For every non-null V index `p`: `contains(p)` is
false on the empty grid; in a reachable grid where `p` is not registered, `contains(p)` is true
right after `add(p)` and false again right after a following `remove(p)`; and in any reachable
grid `contains(p)` is false right after `remove(p)`. -/
theorem C9_registration_symmetry (env : G) (r : ℚ) (p : Int)
    (hp : p ≠ env.null_point_index) :
    Naive_pnf.contains env r [] p = false ∧
    (∀ g, Reachable env r g → Naive_pnf.contains env r g p = false →
      Naive_pnf.contains env r (Naive_pnf.add env r g p) p = true ∧
      Naive_pnf.contains env r (Naive_pnf.remove env r (Naive_pnf.add env r g p) p) p
        = false) ∧
    (∀ g, Reachable env r g →
      Naive_pnf.contains env r (Naive_pnf.remove env r g p) p = false) := by
  have hrem : ∀ g, GridInv env r g →
      Naive_pnf.contains env r (Naive_pnf.remove env r g p) p = false := by
    intro g h
    rw [← Bool.not_eq_true]
    intro hc
    exact ((remove_stored p h p).1 (contains_stored hc).2).2 rfl
  refine ⟨?_, ?_, fun g hg => hrem g (reachable_ok hg).2.1⟩
  · rw [← Bool.not_eq_true]
    intro hc
    have := (contains_stored hc).2
    simp [Stored] at this
  · intro g hg hc
    have hok := reachable_ok hg
    have hinv := add_inv hok.2.1 (not_stored_of_contains hok.2.1 hp hc)
    exact ⟨contains_of_stored hinv.1 hp ((add_stored env r g p p).2 (Or.inl rfl)),
      hrem _ hinv⟩

theorem C9_registration_symmetry_witness :
    (4 : Int) ≠ diagG.null_point_index ∧
      Reachable diagG 1 [((0, 0), 0), ((3, 3), 3), ((5, 5), 5)] ∧
      Naive_pnf.contains diagG 1 [((0, 0), 0), ((3, 3), 3), ((5, 5), 5)] 4 = false ∧
      Naive_pnf.contains diagG 1
        (Naive_pnf.add diagG 1 [((0, 0), 0), ((3, 3), 3), ((5, 5), 5)] 4) 4 = true ∧
      Naive_pnf.contains diagG 1 (Naive_pnf.remove diagG 1
        (Naive_pnf.add diagG 1 [((0, 0), 0), ((3, 3), 3), ((5, 5), 5)] 4) 4) 4 = false :=
  ⟨by decide, ⟨[Op.add 5, Op.add 0, Op.add 3], [3, 0, 5], by decide!⟩,
    by decide!,
    (C9_registration_symmetry diagG 1 4 (by decide)).2.1 _
      ⟨[Op.add 5, Op.add 0, Op.add 3], [3, 0, 5], by decide!⟩
      (by decide!)⟩

/-- C10: `remove` is a no-op on an unregistered point. For every grid and V index `p` that no
stored element holds, `remove(p)` leaves the grid unchanged; and in every reachable grid where
`p` is registered, `remove(p)` erases exactly the one element of index `p`: the grid is split
around that element, every other element stays in place, and one element less is stored. -/
theorem C10_remove_frame (env : G) (r : ℚ) :
    (∀ g p, ¬ Stored g p → Naive_pnf.remove env r g p = g) ∧
    (∀ g p, Reachable env r g → Naive_pnf.contains env r g p = true →
      (∃ a k b, g = a ++ (k, p) :: b ∧ Naive_pnf.remove env r g p = a ++ b) ∧
      Naive_pnf.remove env r g p = g.filter (fun e => decide (e.2 ≠ p)) ∧
      (Naive_pnf.remove env r g p).length + 1 = g.length) := by
  constructor
  · intro g p hns
    rcases remove_cases env r g p with ⟨a, k, b, h1, _⟩ | ⟨h1, _⟩
    · exfalso
      exact hns (stored_iff.2 ⟨(k, p), h1 ▸ List.mem_append_right _ (List.mem_cons_self _ b),
        rfl⟩)
    · exact h1
  · intro g p hg hc
    have hok := reachable_ok hg
    rcases remove_cases env r g p with ⟨a, k, b, h1, h2⟩ | ⟨_, h2⟩
    · refine ⟨⟨a, k, b, h1, h2⟩, ?_, ?_⟩
      · have hinv := hok.2.1
        rw [h1] at hinv
        rw [h2]
        conv_rhs => rw [h1]
        exact (filter_erase_mid hinv).symm
      · rw [h2]
        conv_rhs => rw [h1]
        simp only [List.length_append, List.length_cons]
        omega
    · exact absurd (contains_stored hc).2 (not_stored_of_scan hok.2.1 h2)

theorem C10_remove_frame_witness :
    ¬ Stored [(((0, 0), 0) : Entry), ((3, 3), 3), ((5, 5), 5)] 4 ∧
      Naive_pnf.remove diagG 1 [((0, 0), 0), ((3, 3), 3), ((5, 5), 5)] 4
        = [((0, 0), 0), ((3, 3), 3), ((5, 5), 5)] ∧
      Reachable diagG 1 [((0, 0), 0), ((3, 3), 3), ((5, 5), 5)] ∧
      Naive_pnf.contains diagG 1 [((0, 0), 0), ((3, 3), 3), ((5, 5), 5)] 3 = true ∧
      Naive_pnf.remove diagG 1 [((0, 0), 0), ((3, 3), 3), ((5, 5), 5)] 3
        = [(((0, 0), 0) : Entry), ((3, 3), 3), ((5, 5), 5)].filter
            (fun e => decide (e.2 ≠ 3)) :=
  ⟨by unfold Stored; decide,
    (C10_remove_frame diagG 1).1 _ 4 (by unfold Stored; decide),
    ⟨[Op.add 5, Op.add 0, Op.add 3], [3, 0, 5], by decide!⟩,
    by decide!,
    ((C10_remove_frame diagG 1).2 _ 3
      ⟨[Op.add 5, Op.add 0, Op.add 3], [3, 0, 5], by decide!⟩
      (by decide!)).2.1⟩

/-! ## Frame and termination of the pulls -/

section Frame

open Naive_pnf Abstract_planar_neighbors_finder

theorem stored_erase_mid_of_ne {a b : Grid} {e : Entry} {q : Int} (hq : q ≠ e.2) :
    Stored (a ++ b) q ↔ Stored (a ++ e :: b) q := by
  unfold Stored
  simp only [List.map_append, List.map_cons, List.mem_append, List.mem_cons]
  constructor
  · rintro (h | h)
    · exact Or.inl h
    · exact Or.inr (Or.inr h)
  · rintro (h | h | h)
    · exact Or.inl h
    · exact absurd h hq
    · exact Or.inr h

theorem contains_eq_of_stored_iff {env : G} {r : ℚ} {g g' : Grid} {q : Int}
    (hk : ∀ e ∈ g, e.1 = get_v_key env r e.2) (hk' : ∀ e ∈ g', e.1 = get_v_key env r e.2)
    (h : Stored g' q ↔ Stored g q) : contains env r g' q = contains env r g q := by
  rw [Bool.eq_iff_iff]
  constructor
  · intro hc
    obtain ⟨hq, hs⟩ := contains_stored hc
    exact contains_of_stored hk hq (h.1 hs)
  · intro hc
    obtain ⟨hq, hs⟩ := contains_stored hc
    exact contains_of_stored hk' hq (h.2 hs)

theorem calls_after_length {env : G} {r : ℚ} {g : Grid} (u : Int) :
    ∀ n, (∀ i, i < n → call_result (fun g => pull_near env r g u) i g ≠ env.null_point_index) →
      (calls_after (fun g => pull_near env r g u) n g).length + n = g.length
  | 0, _ => rfl
  | n + 1, hn => by
    have ih := calls_after_length u n (fun i hi => hn i (Nat.lt_succ_of_lt hi))
    have h1 := pull_near_length (hn n (Nat.lt_succ_self n))
    show (pull_near env r (calls_after (fun g => pull_near env r g u) n g) u).2.length + (n + 1)
      = g.length
    omega

theorem pull_all_near_loop_mono {σ : Type} (pull : σ → Int × σ) (null : Int) :
    ∀ (fuel k : Nat) (last : Int) (s : σ) (acc : List Int) (res : List Int × σ),
      pull_all_near_loop pull null fuel last s acc = some res →
      pull_all_near_loop pull null (fuel + k) last s acc = some res
  | 0, _, _, _, _, _, h => by simp [pull_all_near_loop] at h
  | fuel + 1, k, last, s, acc, res, h => by
    rw [Nat.add_right_comm]
    unfold pull_all_near_loop at h ⊢
    by_cases hl : last = null
    · rw [if_pos hl] at h ⊢
      exact h
    · rw [if_neg hl] at h ⊢
      exact pull_all_near_loop_mono pull null fuel k _ _ _ res h

end Frame

/-- C11, the statement of the specification fails at grids that the operations cannot build.
With the constant distance `0`: at the grid holding the null index `-1` and the index `0`,
`pull_near(0)` returns the null index and yet erases an element; at the grid where the index
`0` is stored under the key `(5, 5)` of another point, after the index `7` stored under
`(0, 0)`, `pull_near(0)` returns `7` and `contains(0)` changes from true to false. -/
theorem C11_counterexample :
    ((Naive_pnf.pull_near flatG 1 [((-1, -1), -1), ((0, 0), 0)] 0).1
        = flatG.null_point_index ∧
      (Naive_pnf.pull_near flatG 1 [((-1, -1), -1), ((0, 0), 0)] 0).2 = [((0, 0), 0)] ∧
      (Naive_pnf.pull_near flatG 1 [((-1, -1), -1), ((0, 0), 0)] 0).2
        ≠ [((-1, -1), -1), ((0, 0), 0)]) ∧
    (Naive_pnf.pull_near flatG 1 [((0, 0), 7), ((5, 5), 0)] 0 = (7, [((5, 5), 0)]) ∧
      (0 : Int) ≠ 7 ∧
      Naive_pnf.contains flatG 1 [((0, 0), 7), ((5, 5), 0)] 0 = true ∧
      Naive_pnf.contains flatG 1 [((5, 5), 0)] 0 = false) :=
  ⟨⟨by decide!, by decide!, by decide!⟩, by decide!, by decide, by decide!, by decide!⟩

/-- C11, amended: frame of `pull_near`. For every grid and U index `u`: if `pull_near(u)`
returns an index `p` different from the null index, the grid after the call is the grid before
it with one element of index `p` erased, every other element and their order unchanged; when
the elements are stored under the key of their own coordinates, `contains(q)` is unchanged for
every `q` different from the index returned; and, when the grid holds no null index, if the
null index is returned the grid is unchanged. -/
theorem C11_pull_near_frame (env : G) (r : ℚ) (g : Grid) (u : Int) :
    ((Naive_pnf.pull_near env r g u).1 ≠ env.null_point_index →
      ∃ a e b, g = a ++ e :: b ∧ (Naive_pnf.pull_near env r g u).2 = a ++ b ∧
        e.2 = (Naive_pnf.pull_near env r g u).1) ∧
    ((∀ e ∈ g, e.1 = Naive_pnf.get_v_key env r e.2) →
      ∀ q, q ≠ (Naive_pnf.pull_near env r g u).1 →
        Naive_pnf.contains env r (Naive_pnf.pull_near env r g u).2 q
          = Naive_pnf.contains env r g q) ∧
    (NullFree env g → (Naive_pnf.pull_near env r g u).1 = env.null_point_index →
      (Naive_pnf.pull_near env r g u).2 = g) := by
  refine ⟨?_, ?_, fun hnf hn => pull_near_null_unchanged hnf hn⟩
  · intro hne
    rcases pull_near_cases env r g u with ⟨a, e, b, h1, h2, _⟩ | ⟨h1, _⟩
    · exact ⟨a, e, b, h1, by rw [h2], by rw [h2]⟩
    · rw [h1] at hne
      exact absurd rfl hne
  · intro hk q hq
    rcases pull_near_cases env r g u with ⟨a, e, b, h1, h2, _⟩ | ⟨h1, _⟩
    · rw [h2] at hq ⊢
      have hk' : ∀ x ∈ a ++ b, x.1 = Naive_pnf.get_v_key env r x.2 := by
        intro x hx
        apply hk x
        rw [h1]
        rcases List.mem_append.1 hx with hx | hx
        · exact List.mem_append_left _ hx
        · exact List.mem_append_right _ (List.mem_cons_of_mem _ hx)
      apply contains_eq_of_stored_iff hk hk'
      rw [stored_erase_mid_of_ne hq, ← h1]
    · rw [h1]

theorem C11_pull_near_frame_witness :
    (Naive_pnf.pull_near diagG 1 [((0, 0), 0), ((3, 3), 3), ((5, 5), 5)] 4).1
        ≠ diagG.null_point_index ∧
      (∃ a e b, [(((0, 0), 0) : Entry), ((3, 3), 3), ((5, 5), 5)] = a ++ e :: b ∧
        (Naive_pnf.pull_near diagG 1 [((0, 0), 0), ((3, 3), 3), ((5, 5), 5)] 4).2 = a ++ b ∧
        e.2 = (Naive_pnf.pull_near diagG 1 [((0, 0), 0), ((3, 3), 3), ((5, 5), 5)] 4).1) ∧
      NullFree diagG [((0, 0), 0)] ∧
      (Naive_pnf.pull_near diagG 1 [((0, 0), 0)] 4).1 = diagG.null_point_index ∧
      (Naive_pnf.pull_near diagG 1 [((0, 0), 0)] 4).2 = [((0, 0), 0)] :=
  ⟨by decide!,
    (C11_pull_near_frame diagG 1 [((0, 0), 0), ((3, 3), 3), ((5, 5), 5)] 4).1
      (by decide!),
    by unfold NullFree; decide, by decide!,
    (C11_pull_near_frame diagG 1 [((0, 0), 0)] 4).2.2 (by unfold NullFree; decide)
      (by decide!)⟩

section NullHandling

theorem scan_count_fst (c : Entry → Bool) : ∀ l : Grid, (scan_count c l).1 = l.any c
  | [] => rfl
  | e :: rest => by
    unfold scan_count
    by_cases h : c e = true
    · rw [if_pos h, List.any_cons, h, Bool.true_or]
    · rw [if_neg h, List.any_cons, scan_count_fst c rest]
      rw [Bool.not_eq_true] at h
      rw [h, Bool.false_or]

end NullHandling

/-- C12: null handling of `contains`. For every grid, whatever elements it holds, `contains` of
the null point index is false; and it is so without a lookup of coordinates or a scan of the
grid: over a graph whose lookup of coordinates can fail, `contains` of the null index returns
false after examining no element of the grid, even when the null index has no coordinates,
while for any other index without coordinates the lookup is reached and fails. Over a graph
that has coordinates for every index, this `contains` returns what `contains` returns. -/
theorem C12_contains_null (env : G) (r : ℚ) (g : Grid) :
    Naive_pnf.contains env r g env.null_point_index = false ∧
    (∀ (get_v_point : Int → Option (ℚ × ℚ)) (null : Int),
      contains_traced get_v_point null r g null = some (false, 0)) ∧
    (∀ v, (contains_traced (fun n => some (env.get_v_point n)) env.null_point_index r g v).map
      Prod.fst = some (Naive_pnf.contains env r g v)) ∧
    (∀ (get_v_point : Int → Option (ℚ × ℚ)) (null v : Int), v ≠ null →
      get_v_point v = none → contains_traced get_v_point null r g v = none) := by
  refine ⟨?_, ?_, ?_, ?_⟩
  · unfold Naive_pnf.contains
    rw [if_pos rfl]
  · intro get_v_point null
    unfold contains_traced
    rw [if_pos rfl]
  · intro v
    unfold contains_traced Naive_pnf.contains
    by_cases hv : v = env.null_point_index
    · rw [if_pos hv, if_pos hv]
      rfl
    · rw [if_neg hv, if_neg hv]
      simp only [Option.map_some', scan_count_fst]
      rfl
  · intro get_v_point null v hv hnone
    unfold contains_traced
    rw [if_neg hv, hnone]

theorem C12_contains_null_witness :
    (0 : Int) ≠ -1 ∧ (fun _ : Int => (none : Option (ℚ × ℚ))) 0 = none ∧
      contains_traced (fun _ => none) (-1) 1 [((-1, -1), -1), ((0, 0), 0)] 0 = none ∧
      contains_traced (fun _ => none) (-1) 1 [((-1, -1), -1), ((0, 0), 0)] (-1)
        = some (false, 0) ∧
      contains_traced (fun n => some (diagG.get_v_point n)) (-1) 1
        [((-1, -1), -1), ((0, 0), 0), ((3, 3), 3)] 0 = some (true, 1) ∧
      contains_traced (fun n => some (diagG.get_v_point n)) (-1) 1
        [((-1, -1), -1), ((0, 0), 0), ((3, 3), 3)] (-1) = some (false, 0) :=
  ⟨by decide, rfl,
    (C12_contains_null diagG 1 [((-1, -1), -1), ((0, 0), 0)]).2.2.2 (fun _ => none) (-1) 0
      (by decide) rfl,
    by decide!, by decide!, by decide!⟩

/-- C13: termination of `pull_all_near`. A call of `pull_near(u)` that returns an index
different from the null index leaves exactly one element less in the grid; so for every grid and
`u` the loop of `pull_all_near(u)` ends within one test of its condition more than the grid has
elements: it returns after `n + 1` calls of `pull_near` for some `n` not greater than the number
of stored elements, the list returned has length `n`, and more fuel gives the same result. -/
theorem C13_pull_all_near_terminates (env : G) (r : ℚ) (g : Grid) (u : Int) :
    ((Naive_pnf.pull_near env r g u).1 ≠ env.null_point_index →
      (Naive_pnf.pull_near env r g u).2.length + 1 = g.length) ∧
    ∃ n, n ≤ g.length ∧
      Naive_pnf.pull_all_near env r g u
        = some (call_results (fun g => Naive_pnf.pull_near env r g u) n g,
            calls_after (fun g => Naive_pnf.pull_near env r g u) (n + 1) g) ∧
      (call_results (fun g => Naive_pnf.pull_near env r g u) n g).length = n ∧
      ∀ fuel, g.length + 1 ≤ fuel →
        Abstract_planar_neighbors_finder.pull_all_near
          (fun g => Naive_pnf.pull_near env r g u) env.null_point_index fuel g
          = Naive_pnf.pull_all_near env r g u := by
  refine ⟨fun h => pull_near_length h, ?_⟩
  obtain ⟨⟨ps, g'⟩, hres⟩ := pull_all_near_total env r g u
  obtain ⟨n, h1, h2, _, h4⟩ := pull_all_near_spec _ _ _ _ _ _ hres
  have hlen : (calls_after (fun g => Naive_pnf.pull_near env r g u) n g).length + n
      = g.length := calls_after_length u n h4
  refine ⟨n, by omega, by rw [hres, h1, h2], call_results_length _ n g, ?_⟩
  intro fuel hf
  obtain ⟨k, rfl⟩ := Nat.exists_eq_add_of_le hf
  rw [hres]
  exact pull_all_near_loop_mono _ _ (g.length + 1) k _ _ _ _ hres

theorem C13_pull_all_near_terminates_witness :
    (Naive_pnf.pull_near diagG 1 [((0, 0), 0), ((3, 3), 3), ((5, 5), 5)] 4).1
        ≠ diagG.null_point_index ∧
      (Naive_pnf.pull_near diagG 1 [((0, 0), 0), ((3, 3), 3), ((5, 5), 5)] 4).2.length + 1
        = [(((0, 0), 0) : Entry), ((3, 3), 3), ((5, 5), 5)].length :=
  ⟨by decide!,
    (C13_pull_all_near_terminates diagG 1 [((0, 0), 0), ((3, 3), 3), ((5, 5), 5)] 4).1
      (by decide!)⟩

/-! ## The bucket key: truncation of the rounded quotient -/

section Truncation

theorem abs_div_lt_one {r x : ℚ} (hr : 0 < r) (h : |x| < r) : |x / r| < 1 := by
  rw [abs_div, abs_of_pos hr]
  exact (div_lt_one hr).2 h

theorem abs_le_of_sq_add_sq_le {a b r : ℚ} (hr : 0 < r) (h : a ^ 2 + b ^ 2 ≤ r ^ 2) :
    |a| ≤ r := by
  apply abs_le_of_sq_le_sq _ (le_of_lt hr)
  nlinarith [sq_nonneg b]

/-- The rounding of a real to a double is a double. -/
theorem round_double_isDouble (q : ℚ) : IsDouble (round_double q) := by
  by_cases hq : q = 0
  · rw [hq, round_double_zero]
    exact ⟨0, 0, by norm_num, by simp⟩
  obtain ⟨_, s2⟩ := binary_exponent_spec hq
  have hu := double_ulp_pos q
  have hule : (2 : ℚ) ^ (binary_exponent q - 52) ≤ double_ulp q := by
    unfold double_ulp
    apply zpow_le_zpow_right₀ (by norm_num)
    have := le_max_left (binary_exponent q) (-1022)
    omega
  have hb : |q / double_ulp q| < 2 ^ 53 := by
    rw [abs_div, abs_of_pos hu, div_lt_iff₀ hu]
    calc |q| < (2 : ℚ) ^ (binary_exponent q + 1) := s2
      _ = 2 ^ 53 * (2 : ℚ) ^ (binary_exponent q - 52) := by
        rw [show binary_exponent q + 1 = 53 + (binary_exponent q - 52) by ring,
          zpow_add₀ (by norm_num)]
        norm_num
      _ ≤ 2 ^ 53 * double_ulp q := mul_le_mul_of_nonneg_left hule (by positivity)
  have hb' := abs_lt.1 hb
  have hR1 : round_half_even (q / double_ulp q) ≤ 2 ^ 53 :=
    round_half_even_le (K := 2 ^ 53) (by push_cast; exact le_of_lt hb'.2)
  have hR2 : -(2 ^ 53) ≤ round_half_even (q / double_ulp q) :=
    round_half_even_ge (K := -(2 ^ 53)) (by push_cast; exact le_of_lt hb'.1)
  rw [round_double_eq hq]
  by_cases hmax : |round_half_even (q / double_ulp q)| < 2 ^ 53
  · exact ⟨round_half_even (q / double_ulp q), max (binary_exponent q) (-1022) - 52, hmax, rfl⟩
  · have hcases : round_half_even (q / double_ulp q) = 2 ^ 53 ∨
        round_half_even (q / double_ulp q) = -(2 ^ 53) := by
      rw [abs_lt, not_and_or, not_lt, not_lt] at hmax
      rcases hmax with h | h
      · exact Or.inr (le_antisymm h hR2)
      · exact Or.inl (le_antisymm hR1 h)
    have hk : double_ulp q * 2 = (2 : ℚ) ^ (max (binary_exponent q) (-1022) - 52 + 1) := by
      unfold double_ulp
      rw [zpow_add₀ (by norm_num), zpow_one]
    rcases hcases with h | h
    · refine ⟨2 ^ 52, max (binary_exponent q) (-1022) - 52 + 1, by norm_num, ?_⟩
      rw [h, ← hk]
      push_cast
      ring
    · refine ⟨-(2 ^ 52), max (binary_exponent q) (-1022) - 52 + 1, by norm_num, ?_⟩
      rw [h, ← hk]
      push_cast
      ring

/-- The quotient of two doubles `0 < x < r` is not rounded up to one. -/
theorem round_double_quotient_lt_one {r x : ℚ} (hr : 0 < r) (hdr : IsDouble r)
    (hdx : IsDouble x) (h0 : 0 < x) (h : x < r) : round_double (x / r) < 1 := by
  have hq0 : 0 < x / r := div_pos h0 hr
  have hgap := double_gap hdx hdr h hr
  have hq1 : x / r ≤ 1 - (2 : ℚ) ^ (-53 : ℤ) := by
    rw [div_le_iff₀ hr]
    linarith
  obtain ⟨s1, _⟩ := binary_exponent_spec (ne_of_gt hq0)
  rw [abs_of_pos hq0] at s1
  have he : binary_exponent (x / r) ≤ -1 := by
    have h3 : (2 : ℚ) ^ binary_exponent (x / r) < (2 : ℚ) ^ (0 : ℤ) := by
      rw [zpow_zero]
      have : (0 : ℚ) < (2 : ℚ) ^ (-53 : ℤ) := two_zpow_pos _
      linarith
    have := (zpow_lt_zpow_iff_right₀ (by norm_num : (1 : ℚ) < 2)).1 h3
    omega
  have hu : double_ulp (x / r) ≤ (2 : ℚ) ^ (-53 : ℤ) := by
    unfold double_ulp
    apply zpow_le_zpow_right₀ (by norm_num)
    have : max (binary_exponent (x / r)) (-1022) ≤ -1 := max_le he (by norm_num)
    omega
  have hupos := double_ulp_pos (x / r)
  obtain ⟨K, hK⟩ := int_on_grid (q := x / r) (by omega) 1
  have h4 : x / r / double_ulp (x / r) ≤ ((K - 1 : ℤ) : ℚ) := by
    rw [div_le_iff₀ hupos]
    push_cast
    rw [sub_mul, one_mul, ← hK]
    push_cast
    linarith
  have h5 := round_half_even_le h4
  rw [round_double_eq (ne_of_gt hq0)]
  have h6 : (round_half_even (x / r / double_ulp (x / r)) : ℚ) ≤ ((K - 1 : ℤ) : ℚ) :=
    Int.cast_le.2 h5
  have h7 := mul_le_mul_of_nonneg_right h6 (le_of_lt hupos)
  push_cast at h7 hK
  rw [sub_mul, one_mul, ← hK] at h7
  linarith

theorem double_div_nonneg {r x : ℚ} (hr : 0 < r) (hx : 0 ≤ x) : 0 ≤ double_div x r := by
  have := round_double_ge_int (q := x / r) (n := 0) (by norm_num)
    (by exact_mod_cast div_nonneg hx (le_of_lt hr))
  exact_mod_cast this

theorem double_div_nonpos {r x : ℚ} (hr : 0 < r) (hx : x ≤ 0) : double_div x r ≤ 0 := by
  have := round_double_le_int (q := x / r) (n := 0) (by norm_num)
    (by exact_mod_cast div_nonpos_of_nonpos_of_nonneg hx (le_of_lt hr))
  exact_mod_cast this

/-- A double of absolute value below the double `r` has the key component `0`. -/
theorem key_component_zero {r x : ℚ} (hr : 0 < r) (hdr : IsDouble r) (hdx : IsDouble x)
    (h : |x| < r) : static_cast_int (double_div x r) = 0 := by
  rw [abs_lt] at h
  have hb : |double_div x r| < 1 := by
    rw [abs_lt]
    rcases lt_trichotomy x 0 with hx | hx | hx
    · have h1 := round_double_quotient_lt_one hr hdr (isDouble_neg hdx) (by linarith)
        (by linarith)
      rw [neg_div, round_double_neg] at h1
      have h2 := double_div_nonpos hr (le_of_lt hx)
      unfold double_div at h2 ⊢
      constructor <;> linarith
    · rw [hx]
      unfold double_div
      rw [zero_div, round_double_zero]
      constructor <;> norm_num
    · have h1 := round_double_quotient_lt_one hr hdr hdx hx h.2
      have h2 := double_div_nonneg hr (le_of_lt hx)
      unfold double_div at h2 ⊢
      constructor <;> linarith
  have hb' := abs_lt.1 hb
  rw [static_cast_int_of_range (by norm_num; linarith) (by norm_num; linarith)]
  exact trunc_eq_zero hb

/-- Between the floor and the ceiling of the exact quotient: the rounded quotient, when the
exact one is within the range of `int`. -/
theorem round_double_between {q : ℚ} (hq : |q| ≤ 2 ^ 32) :
    (⌊q⌋ : ℚ) ≤ round_double q ∧ round_double q ≤ (⌈q⌉ : ℚ) := by
  have hb := abs_le.1 hq
  have small : ∀ (n : ℤ), (n : ℚ) ≤ 2 ^ 32 + 1 → -(2 ^ 32 : ℚ) - 1 ≤ (n : ℚ) → |n| ≤ 2 ^ 52 := by
    intro n h1 h2
    have h3 : (n : ℚ) ≤ ((2 ^ 32 + 1 : ℤ) : ℚ) := by norm_num at h1 ⊢; exact h1
    have h4 : ((-(2 ^ 32) - 1 : ℤ) : ℚ) ≤ (n : ℚ) := by norm_num at h2 ⊢; exact h2
    have h5 := Int.cast_le.1 h3
    have h6 := Int.cast_le.1 h4
    rw [abs_le]
    constructor <;> omega
  exact ⟨round_double_ge_int
      (small _ (by linarith [Int.floor_le q]) (by linarith [Int.lt_floor_add_one q]))
      (Int.floor_le q),
    round_double_le_int
      (small _ (by linarith [Int.ceil_lt_add_one q]) (by linarith [Int.le_ceil q]))
      (Int.le_ceil q)⟩

/-- One component of the key of a nonnegative coordinate whose computed quotient is below
`2 ^ 31`: the floor of the computed quotient, which is the floor of the exact quotient or one
more. -/
theorem key_component_floor {r x : ℚ} (hr : 0 < r) (hx : 0 ≤ x)
    (hlt : double_div x r < 2 ^ 31) :
    static_cast_int (double_div x r) = ⌊double_div x r⌋ ∧
    ⌊x / r⌋ ≤ ⌊double_div x r⌋ ∧ ⌊double_div x r⌋ ≤ ⌊x / r⌋ + 1 := by
  have h0 := double_div_nonneg hr hx
  have hq0 : 0 ≤ x / r := div_nonneg hx (le_of_lt hr)
  have hq : x / r < 2 ^ 31 := by
    by_contra hc
    rw [not_lt] at hc
    have := round_double_ge_int (q := x / r) (n := 2 ^ 31) (by norm_num)
      (by norm_num at hc ⊢; exact hc)
    unfold double_div at hlt
    norm_num at this hlt
    linarith
  have hb : |x / r| ≤ 2 ^ 32 := by
    rw [abs_of_nonneg hq0]
    norm_num at hq ⊢
    linarith
  obtain ⟨b1, b2⟩ := round_double_between hb
  refine ⟨?_, ?_, ?_⟩
  · rw [static_cast_int_of_range (by norm_num; linarith) hlt, trunc_of_nonneg h0]
  · exact Int.le_floor.2 b1
  · have h1 : ⌊double_div x r⌋ ≤ ⌈x / r⌉ := by
      have h2 : ((⌊double_div x r⌋ : ℤ) : ℚ) ≤ ((⌈x / r⌉ : ℤ) : ℚ) :=
        le_trans (Int.floor_le _) b2
      exact Int.cast_le.1 h2
    have h3 := Int.ceil_le_floor_add_one (x / r)
    omega

/-- One component of the key when the computed quotient is within the range of `int`. -/
theorem key_component_trunc {r x : ℚ} (hr : 0 < r)
    (h1 : -(2 ^ 31 : ℚ) - 1 < double_div x r) (h2 : double_div x r < 2 ^ 31) :
    static_cast_int (double_div x r) = trunc_toward_zero (double_div x r) ∧
    (0 ≤ x → static_cast_int (double_div x r) = ⌊double_div x r⌋) ∧
    (x < 0 → static_cast_int (double_div x r) = ⌈double_div x r⌉) ∧
    (double_div x r = x / r →
      (0 ≤ x → static_cast_int (double_div x r) = ⌊x / r⌋) ∧
      (x < 0 → static_cast_int (double_div x r) = ⌈x / r⌉)) := by
  have hc := static_cast_int_of_range h1 h2
  have hfloor : 0 ≤ x → static_cast_int (double_div x r) = ⌊double_div x r⌋ := by
    intro hx
    rw [hc, trunc_of_nonneg (double_div_nonneg hr hx)]
  have hceil : x < 0 → static_cast_int (double_div x r) = ⌈double_div x r⌉ := by
    intro hx
    rw [hc]
    rcases lt_or_eq_of_le (double_div_nonpos hr (le_of_lt hx)) with h | h
    · exact trunc_of_neg h
    · rw [h]
      simp [trunc_toward_zero]
  refine ⟨hc, hfloor, hceil, ?_⟩
  intro hex
  constructor
  · intro hx
    rw [hfloor hx, hex]
  · intro hx
    rw [hceil hx, hex]

end Truncation

/-- C14, the statement of the specification fails at the upper end of the range of `int`: for
`r = 1` the points of abscissas `2147483647.75` and `2147483648.25`, half of `r` apart, get the
key components `2147483647` and `-2147483648` (the conversion of `2147483648.25` to `int`
overflows), which are not within one of each other. -/
theorem C14_counterexample :
    (0 : ℚ) < 1 ∧ IsDouble 1 ∧ DoublePoint (bigG.get_u_point 1) ∧
      DoublePoint (bigG.get_v_point 2) ∧
      |(bigG.get_u_point 1).1 - (bigG.get_v_point 2).1| ≤ 1 ∧
      |(bigG.get_u_point 1).2 - (bigG.get_v_point 2).2| ≤ 1 ∧
      Naive_pnf.u_key bigG 1 1 = (2147483647, 0) ∧
      Naive_pnf.get_v_key bigG 1 2 = (-2147483648, 0) ∧
      ¬ |(Naive_pnf.get_v_key bigG 1 2).1 - (Naive_pnf.u_key bigG 1 1).1| ≤ 1 :=
  ⟨by norm_num, isDouble_one,
    ⟨⟨8589934591, -2, by norm_num, by norm_num [bigG]⟩, ⟨0, 0, by norm_num, by norm_num [bigG]⟩⟩,
    ⟨⟨8589934593, -2, by norm_num, by norm_num [bigG]⟩, ⟨0, 0, by norm_num, by norm_num [bigG]⟩⟩,
    by decide!, by decide!, by decide!, by decide!, by decide!⟩

/-- C14, amended: coverage by the block of nine keys, away from the ends of the range of `int`.
For doubles `r > 0` and coordinates, and a U point whose key `(i0, j0)` has its neighbours
`i0 - 1`, `i0 + 1`, `j0 - 1`, `j0 + 1` in the range of `int`: a V point whose coordinates
differ from those of the U point by at most `r` in each axis (in particular one within Euclidean
distance `r`) has a key, computed by the conversion to `int` of the rounded quotient, that
differs from `(i0, j0)` by at most one in each component and is one of the keys visited from
the U point, negative coordinates and coordinates on both sides of zero included. -/
theorem C14_block_coverage (env : G) (r : ℚ) (u v : Int) (hr : 0 < r) (hdr : IsDouble r)
    (hdu : DoublePoint (env.get_u_point u)) (hdv : DoublePoint (env.get_v_point v))
    (hin : KeyInside (Naive_pnf.u_key env r u)) :
    (|(env.get_u_point u).1 - (env.get_v_point v).1| ≤ r →
      |(env.get_u_point u).2 - (env.get_v_point v).2| ≤ r →
      |(Naive_pnf.get_v_key env r v).1 - (Naive_pnf.u_key env r u).1| ≤ 1 ∧
      |(Naive_pnf.get_v_key env r v).2 - (Naive_pnf.u_key env r u).2| ≤ 1 ∧
      Naive_pnf.get_v_key env r v ∈ Naive_pnf.u_block env r u) ∧
    (((env.get_u_point u).1 - (env.get_v_point v).1) ^ 2
        + ((env.get_u_point u).2 - (env.get_v_point v).2) ^ 2 ≤ r ^ 2 →
      Naive_pnf.get_v_key env r v ∈ Naive_pnf.u_block env r u) := by
  have key : |(env.get_u_point u).1 - (env.get_v_point v).1| ≤ r →
      |(env.get_u_point u).2 - (env.get_v_point v).2| ≤ r →
      |(Naive_pnf.get_v_key env r v).1 - (Naive_pnf.u_key env r u).1| ≤ 1 ∧
      |(Naive_pnf.get_v_key env r v).2 - (Naive_pnf.u_key env r u).2| ≤ 1 :=
    fun h1 h2 => ⟨key_component_close hr hdr hdu.1 hdv.1 hin.1 h1,
      key_component_close hr hdr hdu.2 hdv.2 hin.2 h2⟩
  have hblock : Naive_pnf.u_block env r u
      = nine_keys (Naive_pnf.u_key env r u).1 (Naive_pnf.u_key env r u).2 :=
    block_keys_eq_nine hin
  constructor
  · intro h1 h2
    obtain ⟨k1, k2⟩ := key h1 h2
    exact ⟨k1, k2, hblock ▸ mem_nine_keys k1 k2⟩
  · intro h
    have h1 := abs_le_of_sq_add_sq_le hr h
    have h2 := abs_le_of_sq_add_sq_le hr (by rw [add_comm]; exact h)
    obtain ⟨k1, k2⟩ := key h1 h2
    exact hblock ▸ mem_nine_keys k1 k2

theorem C14_block_coverage_witness :
    (0 : ℚ) < 1 ∧ IsDouble 1 ∧ DoublePoint (decimalG.get_u_point (-14)) ∧
      DoublePoint (decimalG.get_v_point (-6)) ∧ KeyInside (Naive_pnf.u_key decimalG 1 (-14)) ∧
      |(decimalG.get_u_point (-14)).1 - (decimalG.get_v_point (-6)).1| ≤ 1 ∧
      |(decimalG.get_u_point (-14)).2 - (decimalG.get_v_point (-6)).2| ≤ 1 ∧
      Naive_pnf.u_key decimalG 1 (-14) = (-1, -1) ∧
      Naive_pnf.get_v_key decimalG 1 (-6) = (0, 0) ∧
      Naive_pnf.get_v_key decimalG 1 (-6) ∈ Naive_pnf.u_block decimalG 1 (-14) :=
  ⟨by norm_num, isDouble_one, ⟨round_double_isDouble _, round_double_isDouble _⟩,
    ⟨round_double_isDouble _, round_double_isDouble _⟩, by unfold KeyInside; decide!,
    by decide!, by decide!, by decide!, by decide!,
    ((C14_block_coverage decimalG 1 (-14) (-6) (by norm_num) isDouble_one
      ⟨round_double_isDouble _, round_double_isDouble _⟩
      ⟨round_double_isDouble _, round_double_isDouble _⟩ (by unfold KeyInside; decide!)).1
      (by decide!) (by decide!)).2.2⟩

/-- C15, the statement of the specification fails in three ways. At a point with negative
coordinates: for `r = 1` the V point of coordinates `-0.4` gets the key `(0, 0)`, while the
floor of its coordinates is `(-1, -1)`. By the rounding of the quotient: for `r = 0.1` (the
double, slightly above one tenth) the V point of coordinates `1.0` gets the key `(10, 10)`,
while the floor of `x / r` is `9`. By the range of `int`: for `r = 1` the V point of abscissa
`2147483648.25` gets the key component `-2147483648`. -/
theorem C15_counterexample :
    (Naive_pnf.get_v_key decimalG 1 (-4) = (0, 0) ∧
      (⌊(decimalG.get_v_point (-4)).1 / 1⌋, ⌊(decimalG.get_v_point (-4)).2 / 1⌋)
        = ((-1 : Int), (-1 : Int))) ∧
    ((0 : ℚ) < double_tenth ∧ decimalG.get_v_point 10 = (1, 1) ∧
      Naive_pnf.get_v_key decimalG double_tenth 10 = (10, 10) ∧
      (⌊(decimalG.get_v_point 10).1 / double_tenth⌋,
        ⌊(decimalG.get_v_point 10).2 / double_tenth⌋) = ((9 : Int), (9 : Int))) ∧
    ((Naive_pnf.get_v_key bigG 1 2).1 = -2147483648 ∧
      ⌊(bigG.get_v_point 2).1 / 1⌋ = 2147483648) :=
  ⟨⟨by decide!, by decide!⟩, ⟨by decide!, by decide!, by decide!, by decide!⟩,
    by decide!, by decide!⟩

/-- C15, amended: for `r > 0` and a point whose coordinates are not negative and whose computed
quotients are below `2 ^ 31`, the key computed by `get_v_key` is the pair of the floors of the
computed (rounded) quotients; each component is the floor of the exact quotient or one more;
and it is the pair of the floors of `x / r` and `y / r` when the two quotients are computed
without rounding. The same holds of the pair `(i0, j0)` computed in `pull_near`. -/
theorem C15_key_floor_of_nonneg (env : G) (r : ℚ) (p : Int) (hr : 0 < r) :
    (0 ≤ (env.get_v_point p).1 → 0 ≤ (env.get_v_point p).2 →
      double_div (env.get_v_point p).1 r < 2 ^ 31 →
      double_div (env.get_v_point p).2 r < 2 ^ 31 →
      Naive_pnf.get_v_key env r p
          = (⌊double_div (env.get_v_point p).1 r⌋, ⌊double_div (env.get_v_point p).2 r⌋) ∧
        (⌊(env.get_v_point p).1 / r⌋ ≤ (Naive_pnf.get_v_key env r p).1 ∧
          (Naive_pnf.get_v_key env r p).1 ≤ ⌊(env.get_v_point p).1 / r⌋ + 1) ∧
        (⌊(env.get_v_point p).2 / r⌋ ≤ (Naive_pnf.get_v_key env r p).2 ∧
          (Naive_pnf.get_v_key env r p).2 ≤ ⌊(env.get_v_point p).2 / r⌋ + 1) ∧
        (KeyExact r (env.get_v_point p) →
          Naive_pnf.get_v_key env r p
            = (⌊(env.get_v_point p).1 / r⌋, ⌊(env.get_v_point p).2 / r⌋))) ∧
    (0 ≤ (env.get_u_point p).1 → 0 ≤ (env.get_u_point p).2 →
      double_div (env.get_u_point p).1 r < 2 ^ 31 →
      double_div (env.get_u_point p).2 r < 2 ^ 31 →
      Naive_pnf.u_key env r p
          = (⌊double_div (env.get_u_point p).1 r⌋, ⌊double_div (env.get_u_point p).2 r⌋) ∧
        (⌊(env.get_u_point p).1 / r⌋ ≤ (Naive_pnf.u_key env r p).1 ∧
          (Naive_pnf.u_key env r p).1 ≤ ⌊(env.get_u_point p).1 / r⌋ + 1) ∧
        (⌊(env.get_u_point p).2 / r⌋ ≤ (Naive_pnf.u_key env r p).2 ∧
          (Naive_pnf.u_key env r p).2 ≤ ⌊(env.get_u_point p).2 / r⌋ + 1) ∧
        (KeyExact r (env.get_u_point p) →
          Naive_pnf.u_key env r p
            = (⌊(env.get_u_point p).1 / r⌋, ⌊(env.get_u_point p).2 / r⌋))) := by
  have comp : ∀ x : ℚ, 0 ≤ x → double_div x r < 2 ^ 31 →
      static_cast_int (double_div x r) = ⌊double_div x r⌋ ∧
      ⌊x / r⌋ ≤ ⌊double_div x r⌋ ∧ ⌊double_div x r⌋ ≤ ⌊x / r⌋ + 1 :=
    fun x hx hlt => key_component_floor hr hx hlt
  constructor
  · intro h1 h2 h3 h4
    obtain ⟨a1, a2, a3⟩ := comp _ h1 h3
    obtain ⟨b1, b2, b3⟩ := comp _ h2 h4
    have hk : Naive_pnf.get_v_key env r p
        = (⌊double_div (env.get_v_point p).1 r⌋, ⌊double_div (env.get_v_point p).2 r⌋) := by
      unfold Naive_pnf.get_v_key
      rw [a1, b1]
    refine ⟨hk, ?_, ?_, ?_⟩
    · rw [hk]
      exact ⟨a2, a3⟩
    · rw [hk]
      exact ⟨b2, b3⟩
    · intro hex
      rw [hk, hex.1, hex.2]
  · intro h1 h2 h3 h4
    obtain ⟨a1, a2, a3⟩ := comp _ h1 h3
    obtain ⟨b1, b2, b3⟩ := comp _ h2 h4
    have hk : Naive_pnf.u_key env r p
        = (⌊double_div (env.get_u_point p).1 r⌋, ⌊double_div (env.get_u_point p).2 r⌋) := by
      unfold Naive_pnf.u_key
      rw [a1, b1]
    refine ⟨hk, ?_, ?_, ?_⟩
    · rw [hk]
      exact ⟨a2, a3⟩
    · rw [hk]
      exact ⟨b2, b3⟩
    · intro hex
      rw [hk, hex.1, hex.2]

theorem C15_key_floor_of_nonneg_witness :
    (0 : ℚ) < 1 ∧ 0 ≤ (decimalG.get_v_point 14).1 ∧ 0 ≤ (decimalG.get_v_point 14).2 ∧
      double_div (decimalG.get_v_point 14).1 1 < 2 ^ 31 ∧
      double_div (decimalG.get_v_point 14).2 1 < 2 ^ 31 ∧
      KeyExact 1 (decimalG.get_v_point 14) ∧
      Naive_pnf.get_v_key decimalG 1 14 = (1, 1) ∧
      Naive_pnf.get_v_key decimalG 1 14
        = (⌊(decimalG.get_v_point 14).1 / 1⌋, ⌊(decimalG.get_v_point 14).2 / 1⌋) :=
  ⟨by norm_num, by decide!, by decide!, by decide!, by decide!,
    by unfold KeyExact; decide!, by decide!,
    ((C15_key_floor_of_nonneg decimalG 1 14 (by norm_num)).1 (by decide!) (by decide!)
      (by decide!) (by decide!)).2.2.2 (by unfold KeyExact; decide!)⟩

/-- C16, the statement of the specification fails by the rounding of the quotient and by the
range of `int`: for `r = 0.1` (the double, slightly above one tenth) and `x = 1.0`, discarding
the fractional part of `x / r` gives `9`, and the key component is `10`; for `r = 1` and
`x = 2147483648.25`, discarding the fractional part of `x / r` gives `2147483648`, and the key
component is `-2147483648`. -/
theorem C16_counterexample :
    ((0 : ℚ) < double_tenth ∧ (decimalG.get_v_point 10).1 = 1 ∧
      trunc_toward_zero ((decimalG.get_v_point 10).1 / double_tenth) = 9 ∧
      ⌊(decimalG.get_v_point 10).1 / double_tenth⌋ = 9 ∧
      (Naive_pnf.get_v_key decimalG double_tenth 10).1 = 10) ∧
    (trunc_toward_zero ((bigG.get_v_point 2).1 / 1) = 2147483648 ∧
      (Naive_pnf.get_v_key bigG 1 2).1 = -2147483648) :=
  ⟨⟨by decide!, by decide!, by decide!, by decide!, by decide!⟩, by decide!, by decide!⟩

/-- C16, amended: the bucket key truncates the computed quotient toward zero. For `r > 0` and a
computed (rounded) quotient within the range of `int`, each component of the key is that
quotient with its fractional part discarded: its floor when `x` is not negative, its ceiling
when `x` is negative, and these are the floor and the ceiling of `x / r` when the quotient is
computed without rounding. For doubles `r` and `x` with `|x| < r` the component is `0`; for
`r = 1` the coordinates `-0.4` and `0.4` both get `0`, and the points of coordinates `-0.9` and
`0.9`, more than `r` apart, share a key. -/
theorem C16_key_truncates (env : G) (r : ℚ) (p : Int) (hr : 0 < r) :
    (-(2 ^ 31 : ℚ) - 1 < double_div (env.get_v_point p).1 r →
      double_div (env.get_v_point p).1 r < 2 ^ 31 →
      (Naive_pnf.get_v_key env r p).1 = trunc_toward_zero (double_div (env.get_v_point p).1 r) ∧
      (0 ≤ (env.get_v_point p).1 →
        (Naive_pnf.get_v_key env r p).1 = ⌊double_div (env.get_v_point p).1 r⌋) ∧
      ((env.get_v_point p).1 < 0 →
        (Naive_pnf.get_v_key env r p).1 = ⌈double_div (env.get_v_point p).1 r⌉) ∧
      (double_div (env.get_v_point p).1 r = (env.get_v_point p).1 / r →
        (0 ≤ (env.get_v_point p).1 →
          (Naive_pnf.get_v_key env r p).1 = ⌊(env.get_v_point p).1 / r⌋) ∧
        ((env.get_v_point p).1 < 0 →
          (Naive_pnf.get_v_key env r p).1 = ⌈(env.get_v_point p).1 / r⌉))) ∧
    (-(2 ^ 31 : ℚ) - 1 < double_div (env.get_v_point p).2 r →
      double_div (env.get_v_point p).2 r < 2 ^ 31 →
      (Naive_pnf.get_v_key env r p).2 = trunc_toward_zero (double_div (env.get_v_point p).2 r) ∧
      (0 ≤ (env.get_v_point p).2 →
        (Naive_pnf.get_v_key env r p).2 = ⌊double_div (env.get_v_point p).2 r⌋) ∧
      ((env.get_v_point p).2 < 0 →
        (Naive_pnf.get_v_key env r p).2 = ⌈double_div (env.get_v_point p).2 r⌉) ∧
      (double_div (env.get_v_point p).2 r = (env.get_v_point p).2 / r →
        (0 ≤ (env.get_v_point p).2 →
          (Naive_pnf.get_v_key env r p).2 = ⌊(env.get_v_point p).2 / r⌋) ∧
        ((env.get_v_point p).2 < 0 →
          (Naive_pnf.get_v_key env r p).2 = ⌈(env.get_v_point p).2 / r⌉))) ∧
    (IsDouble r → DoublePoint (env.get_v_point p) →
      (|(env.get_v_point p).1| < r → (Naive_pnf.get_v_key env r p).1 = 0) ∧
      (|(env.get_v_point p).2| < r → (Naive_pnf.get_v_key env r p).2 = 0)) ∧
    (Naive_pnf.get_v_key decimalG 1 (-4) = (0, 0) ∧
      Naive_pnf.get_v_key decimalG 1 4 = (0, 0)) ∧
    ((1 : ℚ) < |(decimalG.get_v_point (-9)).1 - (decimalG.get_v_point 9).1| ∧
      Naive_pnf.get_v_key decimalG 1 (-9) = Naive_pnf.get_v_key decimalG 1 9) := by
  refine ⟨fun h1 h2 => key_component_trunc hr h1 h2, fun h1 h2 => key_component_trunc hr h1 h2,
    fun hdr hd => ⟨fun h => key_component_zero hr hdr hd.1 h,
      fun h => key_component_zero hr hdr hd.2 h⟩, ?_, ?_⟩
  · exact ⟨by decide!, by decide!⟩
  · exact ⟨by decide!, by decide!⟩

theorem C16_key_truncates_witness :
    (0 : ℚ) < 1 ∧ IsDouble 1 ∧ DoublePoint (decimalG.get_v_point (-4)) ∧
      -(2 ^ 31 : ℚ) - 1 < double_div (decimalG.get_v_point (-4)).1 1 ∧
      double_div (decimalG.get_v_point (-4)).1 1 < 2 ^ 31 ∧
      (decimalG.get_v_point (-4)).1 < 0 ∧ |(decimalG.get_v_point (-4)).1| < 1 ∧
      (Naive_pnf.get_v_key decimalG 1 (-4)).1
        = ⌈double_div (decimalG.get_v_point (-4)).1 1⌉ ∧
      (Naive_pnf.get_v_key decimalG 1 (-4)).1 = 0 :=
  ⟨by norm_num, isDouble_one, ⟨round_double_isDouble _, round_double_isDouble _⟩,
    by decide!, by decide!, by decide!, by decide!,
    ((C16_key_truncates decimalG 1 (-4) (by norm_num)).1 (by decide!) (by decide!)).2.2.1
      (by decide!),
    ((C16_key_truncates decimalG 1 (-4) (by norm_num)).2.2.1 isDouble_one
      ⟨round_double_isDouble _, round_double_isDouble _⟩).1 (by decide!)⟩

/-! ## Scanning to the end of the grid against scanning one bucket -/

section Buckets

open Naive_pnf

theorem scan_erase_of_split {c : Entry → Bool} {e : Entry} {b : Grid} (he : c e = true) :
    ∀ a : Grid, (∀ x ∈ a, c x = false) → scan_erase c (a ++ e :: b) = some (e, a ++ b)
  | [], _ => by
    rw [List.nil_append, scan_erase, if_pos he]
    rfl
  | x :: a, h => by
    have hx : c x = false := h x (List.mem_cons_self x a)
    have ih := scan_erase_of_split (b := b) he a (fun y hy => h y (List.mem_cons_of_mem x hy))
    rw [List.cons_append, scan_erase, hx, ih]
    rfl

theorem emplace_split (k : Key) (v : Int) :
    ∀ g : Grid, ∃ a b, g = a ++ b ∧ emplace k v g = a ++ (k, v) :: b
  | [] => ⟨[], [], rfl, rfl⟩
  | e :: rest => by
    unfold emplace
    by_cases h : key_lt k e.1 = true
    · rw [if_pos h]
      exact ⟨[], e :: rest, rfl, rfl⟩
    · rw [if_neg h]
      obtain ⟨a, b, h1, h2⟩ := emplace_split k v rest
      exact ⟨e :: a, b, by rw [h1]; rfl, by rw [h2]; rfl⟩

theorem find_split (k : Key) (v : Int) (b : Grid) :
    ∀ a : Grid, ∃ a1 a2, a = a1 ++ a2 ∧ find (a ++ (k, v) :: b) k = (a1, a2 ++ (k, v) :: b)
  | [] => ⟨[], [], rfl, by simp [find]⟩
  | x :: a => by
    by_cases hx : x.1 = k
    · exact ⟨[], x :: a, rfl, by simp [find, hx]⟩
    · obtain ⟨a1, a2, h1, h2⟩ := find_split k v b a
      refine ⟨x :: a1, a2, by rw [h1]; rfl, ?_⟩
      unfold find at h2 ⊢
      rw [Prod.mk.injEq] at h2
      rw [List.cons_append, List.takeWhile_cons_of_pos (by simpa using hx),
        List.dropWhile_cons_of_pos (by simpa using hx), h2.1, h2.2]

theorem remove_add_cancel (env : G) (r : ℚ) (g : Grid) (p : Int) (h : ¬ Stored g p) :
    remove env r (add env r g p) p = g := by
  unfold add
  obtain ⟨a, b, h1, h2⟩ := emplace_split (get_v_key env r p) p g
  obtain ⟨a1, a2, h3, h4⟩ := find_split (get_v_key env r p) p b a
  rw [h2]
  have hsc : scan_erase (fun e => decide (e.2 = p))
      (find (a ++ (get_v_key env r p, p) :: b) (get_v_key env r p)).2
        = some ((get_v_key env r p, p), a2 ++ b) := by
    rw [h4]
    apply scan_erase_of_split (by simp)
    intro x hx
    rw [decide_eq_false_iff_not]
    intro hxp
    apply h
    rw [stored_iff]
    refine ⟨x, ?_, hxp⟩
    rw [h1, h3]
    exact List.mem_append_left _ (List.mem_append_right _ hx)
  rw [remove_some hsc, h4, h1, h3, List.append_assoc]

end Buckets

/-- C18: `add` followed by `remove` is the identity. For every grid and every V index `p` that
no stored element holds, `remove(p)` after `add(p)` gives back the grid, the same elements in
the same order. -/
theorem C18_add_remove_identity (env : G) (r : ℚ) (g : Grid) (p : Int) (h : ¬ Stored g p) :
    Naive_pnf.remove env r (Naive_pnf.add env r g p) p = g :=
  remove_add_cancel env r g p h

theorem C18_add_remove_identity_witness :
    ¬ Stored [(((0, 0), 0) : Entry), ((3, 3), 3), ((3, 3), 7), ((5, 5), 5)] 4 ∧
      Naive_pnf.remove shiftG 1
        (Naive_pnf.add shiftG 1 [((0, 0), 0), ((3, 3), 3), ((3, 3), 7), ((5, 5), 5)] 4) 4
        = [((0, 0), 0), ((3, 3), 3), ((3, 3), 7), ((5, 5), 5)] :=
  ⟨by unfold Stored; decide,
    C18_add_remove_identity shiftG 1 [((0, 0), 0), ((3, 3), 3), ((3, 3), 7), ((5, 5), 5)] 4
      (by unfold Stored; decide)⟩

/-! ## The intervals read from a persistence file -/

section Intervals

theorem read_intervals_append (s : Bar_value) :
    ∀ l1 l2 : List (Bar_value × Bar_value),
      read_persistence_intervals_in_one_dimension_from_file (l1 ++ l2) s
        = read_persistence_intervals_in_one_dimension_from_file l1 s
          ++ read_persistence_intervals_in_one_dimension_from_file l2 s
  | [], _ => rfl
  | bar :: l1, l2 => by
    rw [List.cons_append, read_persistence_intervals_in_one_dimension_from_file,
      read_persistence_intervals_in_one_dimension_from_file, read_intervals_append s l1 l2,
      List.append_assoc]

theorem mem_read_intervals {s : Bar_value} {q : Bar_value × Bar_value} :
    ∀ {l : List (Bar_value × Bar_value)},
      q ∈ read_persistence_intervals_in_one_dimension_from_file l s →
      ∃ bar ∈ l, q ∈ push_interval s bar
  | [], h => by
    rw [read_persistence_intervals_in_one_dimension_from_file] at h
    cases h
  | bar :: l, h => by
    rw [read_persistence_intervals_in_one_dimension_from_file] at h
    rcases List.mem_append.1 h with h | h
    · exact ⟨bar, List.mem_cons_self bar l, h⟩
    · obtain ⟨b, hb, hq⟩ := mem_read_intervals h
      exact ⟨b, List.mem_cons_of_mem bar hb, hq⟩

theorem push_interval_no_substitute (bar : Bar_value × Bar_value) :
    push_interval (Bar_value.finite (-1)) bar
      = if Bar_value.lt bar.2 bar.1 then [(bar.2, bar.1)]
        else if bar.2 ≠ Bar_value.infinity then [bar] else [] := by
  unfold push_interval
  by_cases h1 : Bar_value.lt bar.2 bar.1 = true
  · rw [if_pos h1, if_pos h1]
  · rw [if_neg h1, if_neg h1,
      if_neg (show ¬ (bar.2 = Bar_value.infinity ∧
        Bar_value.finite (-1) ≠ Bar_value.finite (-1)) from fun h => h.2 rfl),
      List.append_nil]

/-- Every interval returned is ordered, but not always strictly: the birth is below the death
or equal to it. -/
theorem read_intervals_weakly_ordered (l : List (Bar_value × Bar_value)) (s : Bar_value)
    (q : Bar_value × Bar_value)
    (hq : q ∈ read_persistence_intervals_in_one_dimension_from_file l s) :
    Bar_value.lt q.1 q.2 = true ∨ q.1 = q.2 := by
  obtain ⟨bar, _, hb⟩ := mem_read_intervals hq
  unfold push_interval at hb
  by_cases h1 : Bar_value.lt bar.2 bar.1 = true
  · rw [if_pos h1, List.mem_singleton] at hb
    rw [hb]
    exact Or.inl h1
  · rw [if_neg h1] at hb
    rcases List.mem_append.1 hb with hb | hb
    · by_cases h2 : bar.2 ≠ Bar_value.infinity
      · rw [if_pos h2, List.mem_singleton] at hb
        rw [hb]
        obtain ⟨b1, b2⟩ := bar
        cases b1 with
        | infinity =>
          cases b2 with
          | infinity => exact absurd rfl h2
          | finite y => exact absurd rfl h1
        | finite x =>
          cases b2 with
          | infinity => exact absurd rfl h2
          | finite y =>
            simp only [Bar_value.lt, decide_eq_true_eq, not_lt] at h1 ⊢
            rcases lt_or_eq_of_le h1 with h | h
            · exact Or.inl h
            · exact Or.inr (by rw [h])
      · rw [if_neg h2] at hb
        cases hb
    · by_cases h3 : bar.2 = Bar_value.infinity ∧ s ≠ Bar_value.finite (-1)
      · rw [if_pos h3] at hb
        by_cases h4 : Bar_value.lt bar.1 s = true
        · rw [if_pos h4, List.mem_singleton] at hb
          rw [hb]
          exact Or.inl h4
        · rw [if_neg h4] at hb
          cases hb
      · rw [if_neg h3] at hb
        cases hb

end Intervals

/-- C19, the code at the failing input: an interval read with equal ends, `(1, 1)`, is neither
swapped nor dropped; it is returned as it is, and its birth is not below its death. -/
theorem C19_equal_ends_kept :
    read_persistence_intervals_in_one_dimension_from_file
        [(Bar_value.finite 1, Bar_value.finite 1)] (Bar_value.finite (-1))
      = [(Bar_value.finite 1, Bar_value.finite 1)] ∧
    Bar_value.lt (Bar_value.finite 1) (Bar_value.finite 1) = false ∧
    ¬ ∀ q ∈ read_persistence_intervals_in_one_dimension_from_file
        [(Bar_value.finite 1, Bar_value.finite 1)] (Bar_value.finite (-1)),
      Bar_value.lt q.1 q.2 = true := by
  refine ⟨by decide!, by decide!, ?_⟩
  intro h
  have h1 := h (Bar_value.finite 1, Bar_value.finite 1) (by decide!)
  revert h1
  decide!

/-- C20: infinite bars are ignored when no substitute is set. With the substitute `-1` the
vector returned is, in input order, the input pairs whose second component is not `+infinity`,
those with `first > second` swapped, and for inputs with finite first components it holds no
infinite component; with a substitute `s` different from `-1`, an input pair `(b, +infinity)`
with `b` finite contributes exactly `(b, s)` when `b < s` and nothing otherwise. -/
theorem C20_infinite_bars (l : List (Bar_value × Bar_value)) :
    read_persistence_intervals_in_one_dimension_from_file l (Bar_value.finite (-1))
      = (l.filter (fun bar => decide (bar.2 ≠ Bar_value.infinity))).map
          (fun bar => if Bar_value.lt bar.2 bar.1 then (bar.2, bar.1) else bar) ∧
    ((∀ bar ∈ l, bar.1 ≠ Bar_value.infinity) →
      ∀ q ∈ read_persistence_intervals_in_one_dimension_from_file l (Bar_value.finite (-1)),
        q.1 ≠ Bar_value.infinity ∧ q.2 ≠ Bar_value.infinity) ∧
    (∀ (s : Bar_value) (l1 l2 : List (Bar_value × Bar_value)) (b : ℚ),
      s ≠ Bar_value.finite (-1) → l = l1 ++ (Bar_value.finite b, Bar_value.infinity) :: l2 →
      read_persistence_intervals_in_one_dimension_from_file l s
        = read_persistence_intervals_in_one_dimension_from_file l1 s
          ++ (if Bar_value.lt (Bar_value.finite b) s then [(Bar_value.finite b, s)] else [])
          ++ read_persistence_intervals_in_one_dimension_from_file l2 s) := by
  refine ⟨?_, ?_, ?_⟩
  · induction l with
    | nil => rfl
    | cons bar rest ih =>
      rw [read_persistence_intervals_in_one_dimension_from_file, ih,
        push_interval_no_substitute]
      by_cases h2 : bar.2 ≠ Bar_value.infinity
      · rw [List.filter_cons_of_pos (by simpa using h2), List.map_cons, if_pos h2]
        by_cases h1 : Bar_value.lt bar.2 bar.1 = true
        · rw [if_pos h1, if_pos h1]
          rfl
        · rw [if_neg h1, if_neg h1]
          rfl
      · rw [List.filter_cons_of_neg (by simpa using h2), if_neg h2]
        have h3 : Bar_value.lt bar.2 bar.1 = false := by
          rw [not_not] at h2
          rw [h2]
          rfl
        rw [h3]
        rfl
  · intro hfin q hq
    obtain ⟨bar, hbar, hb⟩ := mem_read_intervals hq
    have hf := hfin bar hbar
    rw [push_interval_no_substitute] at hb
    by_cases h1 : Bar_value.lt bar.2 bar.1 = true
    · rw [if_pos h1, List.mem_singleton] at hb
      rw [hb]
      refine ⟨?_, hf⟩
      intro h2
      rw [show bar.2 = Bar_value.infinity from h2] at h1
      cases h1
    · rw [if_neg h1] at hb
      by_cases h2 : bar.2 ≠ Bar_value.infinity
      · rw [if_pos h2, List.mem_singleton] at hb
        rw [hb]
        exact ⟨hf, h2⟩
      · rw [if_neg h2] at hb
        cases hb
  · intro s l1 l2 b hs hl
    rw [hl, read_intervals_append, read_persistence_intervals_in_one_dimension_from_file,
      List.append_assoc]
    congr 2
    unfold push_interval
    rw [if_neg (by simp [Bar_value.lt]), if_neg (by simp), if_pos ⟨rfl, hs⟩, List.nil_append]

theorem C20_infinite_bars_witness :
    (∀ bar ∈ [(Bar_value.finite 3, Bar_value.finite 1), (Bar_value.finite 2, Bar_value.infinity),
        (Bar_value.finite 0, Bar_value.finite 4)], bar.1 ≠ Bar_value.infinity) ∧
      (∀ q ∈ read_persistence_intervals_in_one_dimension_from_file
          [(Bar_value.finite 3, Bar_value.finite 1), (Bar_value.finite 2, Bar_value.infinity),
            (Bar_value.finite 0, Bar_value.finite 4)] (Bar_value.finite (-1)),
        q.1 ≠ Bar_value.infinity ∧ q.2 ≠ Bar_value.infinity) ∧
      Bar_value.finite 5 ≠ Bar_value.finite (-1) ∧
      read_persistence_intervals_in_one_dimension_from_file
          [(Bar_value.finite 3, Bar_value.finite 1), (Bar_value.finite 2, Bar_value.infinity),
            (Bar_value.finite 0, Bar_value.finite 4)] (Bar_value.finite 5)
        = read_persistence_intervals_in_one_dimension_from_file
            [(Bar_value.finite 3, Bar_value.finite 1)] (Bar_value.finite 5)
          ++ (if Bar_value.lt (Bar_value.finite 2) (Bar_value.finite 5) then
              [(Bar_value.finite 2, Bar_value.finite 5)] else [])
          ++ read_persistence_intervals_in_one_dimension_from_file
            [(Bar_value.finite 0, Bar_value.finite 4)] (Bar_value.finite 5) :=
  ⟨by decide!,
    (C20_infinite_bars _).2.1 (by decide!),
    by decide!,
    (C20_infinite_bars _).2.2 (Bar_value.finite 5) [(Bar_value.finite 3, Bar_value.finite 1)]
      [(Bar_value.finite 0, Bar_value.finite 4)] 2 (by decide!) rfl⟩
